import Mathlib

/-!
# Upgrade action handler

A shallow embedding of `internal/pkg/agent/application/actions/handlers/handler_action_upgrade.go`.

The handler's two fields (`bkgActions`, `bkgCancel`) live in `Upgrade`.  Everything the
handler does to its collaborators (the acker, the coordinator, Go contexts, the logger) is
recorded in `World`: the ordered trace of collaborator calls, the cancel functions invoked so
far, the goroutines launched and not yet returned, and the log.  The mutex is represented by
atomicity: `getAsyncContext` and the locked `ackActions` call are single transitions.
-/

namespace Handlers

/-! ## Data model -/

/-- Modelled from the spec: the type `fleetapi.ActionUpgrade` is declared outside the two
source files; the handler reads only `Version` and `SourceURI`, and the spec gives a request
"an opaque identity used to acknowledge it later". -/
structure ActionUpgrade where
  identity : Nat
  Version : String
  SourceURI : String
deriving DecidableEq, Repr

/-- Modelled from the spec: a value of the interface `fleetapi.Action`, declared outside the
two source files.  It is either a `*fleetapi.ActionUpgrade` or a value of some other dynamic
type, of which only the type name (what `%T` prints) matters to the handler. -/
inductive Action where
  | upgrade (u : ActionUpgrade)
  | other (identity : Nat) (typeName : String)
deriving DecidableEq, Repr

/-- The type assertion `a.(*fleetapi.ActionUpgrade)`; `none` is `ok = false`. -/
def Action.asUpgrade : Action → Option ActionUpgrade
  | Action.upgrade u => some u
  | Action.other _ _ => none

/-- What the verb `%T` prints for an action. -/
def Action.typeName : Action → String
  | Action.upgrade _ => "*fleetapi.ActionUpgrade"
  | Action.other _ t => t

/-- A Go context as the handler sees it: either the context handed in by the caller of
`Handle` (identified by a number), or the child made by `context.WithCancel` from caller
context `parent`; `id` identifies the child's cancel function. -/
inductive Ctx where
  | caller (n : Nat)
  | withCancel (id : Nat) (parent : Nat)
deriving DecidableEq, Repr

/-- A call made by the handler to one of its collaborators.  `acker` identifies the
`acker.Acker` value the call goes to. -/
inductive Event where
  | ack (ctx : Ctx) (a : Action) (acker : Nat)
  | commit (ctx : Ctx) (acker : Nat)
  | cancel (id : Nat)
  | upgrade (ctx : Ctx) (version sourceURI : String) (a : ActionUpgrade) (isRetry : Bool)
deriving DecidableEq, Repr

/-- The log statements of the handler, one constructor per statement. -/
inductive LogEntry where
  | debugReceived (a : Action)
  | infoStarting (version : String)
  | errorUpgradeFailed (version : String) (err : String)
  | errorAckFailed
  | errorCommitFailed
  | errorInvalidType (typeName : String)
  | infoDuplicate (version : String)
  | infoCanceling (version : String)
deriving DecidableEq, Repr

/-- The goroutine started by `Handle`: the closure captures `asyncCtx`, `action` and `ack`. -/
structure Task where
  ctx : Ctx
  action : ActionUpgrade
  ack : Nat
deriving DecidableEq, Repr

/-- The fields of the Go struct `Upgrade` that carry state.  `bkgCancel = none` is the nil
function value. -/
structure Upgrade where
  bkgActions : List Action
  bkgCancel : Option Nat
deriving DecidableEq, Repr

/-- The handler together with its environment. -/
structure World where
  h : Upgrade
  nextCtx : Nat
  canceled : List Nat
  callerCanceled : List Nat
  trace : List Event
  logs : List LogEntry
  tasks : List Task
deriving DecidableEq, Repr

/-- The function `NewUpgrade`: no saved actions, nil cancel function. -/
def NewUpgrade : Upgrade :=
  { bkgActions := [], bkgCancel := none }

/-- A freshly constructed handler in an environment where nothing has happened yet. -/
def World.fresh : World :=
  { h := NewUpgrade, nextCtx := 0, canceled := [], callerCanceled := [],
    trace := [], logs := [], tasks := [] }

/-- Whether `errors.Is(ctx.Err(), context.Canceled)` holds: the context's own cancel function
was called, or the caller context it derives from was canceled. -/
def World.isCanceled (w : World) : Ctx → Bool
  | Ctx.caller n => decide (n ∈ w.callerCanceled)
  | Ctx.withCancel id parent => decide (id ∈ w.canceled) || decide (parent ∈ w.callerCanceled)

/-- Number of calls made to the acknowledgment sink (Ack and Commit) in a trace. -/
def sinkCalls : List Event → Nat
  | [] => 0
  | Event.ack _ _ _ :: tr => sinkCalls tr + 1
  | Event.commit _ _ :: tr => sinkCalls tr + 1
  | _ :: tr => sinkCalls tr

/-! ## The handler -/

/-- The loop of `ackActions`: `ack.Ack(ctx, a)` for each saved action in order; an error is
logged and the loop goes on.  `fails k` says whether the sink call number `k` returns an
error. -/
def ackLoop (fails : Nat → Bool) (ctx : Ctx) (ack : Nat) : List Action → World → World
  | [], w => w
  | a :: rest, w =>
    let failed := fails (sinkCalls w.trace)
    let w1 := { w with
      trace := w.trace ++ [Event.ack ctx a ack]
      logs := if failed then w.logs ++ [LogEntry.errorAckFailed] else w.logs }
    ackLoop fails ctx ack rest w1

/-- The method `ackActions`: Ack every saved action, set `bkgActions` to nil, then Commit.
The caller holds `bkgMutex`. -/
def ackActions (fails : Nat → Bool) (w : World) (ctx : Ctx) (ack : Nat) : World :=
  let w1 := ackLoop fails ctx ack w.h.bkgActions w
  let w2 := { w1 with h := { w1.h with bkgActions := [] } }
  let failed := fails (sinkCalls w2.trace)
  { w2 with
    trace := w2.trace ++ [Event.commit ctx ack]
    logs := if failed then w2.logs ++ [LogEntry.errorCommitFailed] else w2.logs }

/-- The tail shared by the two launching paths of `getAsyncContext`: append the action,
derive a cancelable child of the caller context and store its cancel function. -/
def saveAndDerive (w : World) (ctx : Nat) (action : Action) : World × Option Ctx × Bool :=
  ({ w with
      h := { bkgActions := w.h.bkgActions ++ [action], bkgCancel := some w.nextCtx }
      nextCtx := w.nextCtx + 1 },
    some (Ctx.withCancel w.nextCtx ctx), true)

/-- The method `getAsyncContext`, run under `bkgMutex`.  The result is the new world with the
returned pair (context, run-or-not); `none` is the panic of calling a nil `bkgCancel`. -/
def getAsyncContext (fails : Nat → Bool) (w : World) (ctx : Nat) (action : Action)
    (ack : Nat) : Option (World × Option Ctx × Bool) :=
  match w.h.bkgActions with
  | [] => some (saveAndDerive w ctx action)
  | first :: _ =>
    match action.asUpgrade with
    | none =>
      some ({ w with logs := w.logs ++ [LogEntry.errorInvalidType action.typeName] },
        none, false)
    | some upgradeAction =>
      match first.asUpgrade with
      | none =>
        some ({ w with logs := w.logs ++ [LogEntry.errorInvalidType action.typeName] },
          none, false)
      | some bkgAction =>
        if upgradeAction.Version = bkgAction.Version then
          some ({ w with
              logs := w.logs ++ [LogEntry.infoDuplicate bkgAction.Version]
              h := { w.h with bkgActions := w.h.bkgActions ++ [action] } },
            none, false)
        else
          match w.h.bkgCancel with
          | none => none
          | some cancelId =>
            let w1 := { w with
              logs := w.logs ++ [LogEntry.infoCanceling bkgAction.Version]
              canceled := w.canceled ++ [cancelId]
              trace := w.trace ++ [Event.cancel cancelId] }
            let w2 := ackActions fails w1 (Ctx.caller ctx) ack
            some (saveAndDerive w2 ctx action)

/-- The statement `go func() ...` of `Handle`: a goroutine is started that calls
`h.coord.Upgrade(asyncCtx, action.Version, action.SourceURI, action, false)`. -/
def launch (w : World) (asyncCtx : Ctx) (action : ActionUpgrade) (ack : Nat) : World :=
  { w with
    logs := w.logs ++ [LogEntry.infoStarting action.Version]
    trace := w.trace ++
      [Event.upgrade asyncCtx action.Version action.SourceURI action false]
    tasks := w.tasks ++ [{ ctx := asyncCtx, action := action, ack := ack }] }

/-- The method `Handle` up to its return.  The result is the returned error (`none` is nil)
and the new world; the outer `none` is a panic. -/
def Handle (fails : Nat → Bool) (w : World) (ctx : Nat) (a : Action) (ack : Nat) :
    Option (Option String × World) :=
  let w0 := { w with logs := w.logs ++ [LogEntry.debugReceived a] }
  match a.asUpgrade with
  | none => some (some ("invalid type, expected ActionUpgrade and received " ++ a.typeName), w0)
  | some action =>
    match getAsyncContext fails w0 ctx a ack with
    | none => none
    | some (w1, _, false) => some (none, w1)
    | some (_, none, true) => none
    | some (w1, some asyncCtx, true) => some (none, launch w1 asyncCtx action ack)

/-- The test made by the goroutine once `coord.Upgrade` has returned `err`: whether it goes
on to take the lock and flush. -/
def completionFlushes (w : World) (t : Task) (err : Option String) : Bool :=
  match err with
  | none => false
  | some _ => !(w.isCanceled t.ctx)

/-- The rest of the goroutine of `Handle`, after `coord.Upgrade` has returned `err`, run as
one step: a nil error ends the goroutine; otherwise the failure is logged and, unless the
task's context is canceled, the saved actions are flushed under the lock. -/
def completion (fails : Nat → Bool) (w : World) (t : Task) (err : Option String) : World :=
  match err with
  | none => w
  | some e =>
    let w1 := { w with logs := w.logs ++ [LogEntry.errorUpgradeFailed t.action.Version e] }
    if completionFlushes w1 t (some e) then ackActions fails w1 t.ctx t.ack else w1

/-! ## Observations on traces -/

/-- The actions passed to `Ack`, in call order. -/
def acked : List Event → List Action
  | [] => []
  | Event.ack _ a _ :: tr => a :: acked tr
  | _ :: tr => acked tr

/-- The number of `Commit` calls. -/
def commits : List Event → Nat
  | [] => 0
  | Event.commit _ _ :: tr => commits tr + 1
  | _ :: tr => commits tr

/-- The number of executor invocations. -/
def launches : List Event → Nat
  | [] => 0
  | Event.upgrade _ _ _ _ _ :: tr => launches tr + 1
  | _ :: tr => launches tr

/-! ## Runs -/

/-- One move of the system: a call of `Handle`, the return of the `coord.Upgrade` call of the
goroutine whose context has cancel function `id` (followed at once by the rest of that
goroutine), or the caller canceling a context it passed to `Handle`. -/
inductive Step where
  | handle (ctx : Nat) (a : Action) (ack : Nat)
  | complete (id : Nat) (err : Option String)
  | cancelCaller (n : Nat)
deriving DecidableEq, Repr

/-- Whether a goroutine runs under the context with cancel function `id`. -/
def Task.hasId (id : Nat) (t : Task) : Bool :=
  match t.ctx with
  | Ctx.withCancel i _ => i == id
  | Ctx.caller _ => false

/-- One move.  `none` when `Handle` panics or when no running goroutine has the given id. -/
def step (fails : Nat → Bool) (w : World) : Step → Option World
  | Step.handle ctx a ack =>
    match Handle fails w ctx a ack with
    | none => none
    | some (_, w1) => some w1
  | Step.complete id err =>
    match w.tasks.find? (Task.hasId id) with
    | none => none
    | some t => some (completion fails { w with tasks := w.tasks.eraseP (Task.hasId id) } t err)
  | Step.cancelCaller n => some { w with callerCanceled := w.callerCanceled ++ [n] }

/-- A finite run: the moves in order. -/
def run (fails : Nat → Bool) : World → List Step → Option World
  | w, [] => some w
  | w, s :: rest =>
    match step fails w s with
    | none => none
    | some w1 => run fails w1 rest

/-- The requests a run submits that `Handle` accepts (returns nil for): the upgrade actions. -/
def accepted : List Step → List Action
  | [] => []
  | Step.handle _ a _ :: rest =>
    if a.asUpgrade.isSome then a :: accepted rest else accepted rest
  | _ :: rest => accepted rest

/-- The consecutive submissions of a list of upgrade requests, each given with the caller
context and the acker of its `Handle` call. -/
def submitAll (rs : List (Nat × ActionUpgrade × Nat)) : List Step :=
  rs.map (fun x => Step.handle x.1 (Action.upgrade x.2.1) x.2.2)

/-- The actions of a list of submissions. -/
def requests (rs : List (Nat × ActionUpgrade × Nat)) : List Action :=
  rs.map (fun x => Action.upgrade x.2.1)

/-- The Ack events produced by flushing a batch with context `ctx` and acker `ack`. -/
def ackEvents (ctx : Ctx) (ack : Nat) (batch : List Action) : List Event :=
  batch.map (fun a => Event.ack ctx a ack)

/-- An example run: a request for 8.1.0 is superseded by one for 8.2.0, the first task then
returns a cancellation error and the second one fails. -/
def supersedeRun : List Step :=
  [Step.handle 0 (Action.upgrade ⟨1, "8.1.0", "u"⟩) 0,
   Step.handle 0 (Action.upgrade ⟨2, "8.2.0", "u"⟩) 0,
   Step.complete 0 (some "context canceled"),
   Step.complete 1 (some "download failed")]

/-! ## Relations between a world and its successor, and invariants -/

/-- Nothing but the log differs. -/
def Unchanged (w w1 : World) : Prop :=
  w1.h = w.h ∧ w1.trace = w.trace ∧ w1.tasks = w.tasks ∧ w1.canceled = w.canceled ∧
  w1.nextCtx = w.nextCtx ∧ w1.callerCanceled = w.callerCanceled

/-- The Start outcome of `Handle`. -/
def IsStart (w : World) (ctx : Nat) (r : ActionUpgrade) (ack : Nat) (w1 : World) : Prop :=
  w1.h = { bkgActions := [Action.upgrade r], bkgCancel := some w.nextCtx } ∧
  w1.trace = w.trace ++
    [Event.upgrade (Ctx.withCancel w.nextCtx ctx) r.Version r.SourceURI r false] ∧
  w1.tasks = w.tasks ++ [{ ctx := Ctx.withCancel w.nextCtx ctx, action := r, ack := ack }] ∧
  w1.canceled = w.canceled ∧
  w1.nextCtx = w.nextCtx + 1 ∧
  w1.callerCanceled = w.callerCanceled

/-- The Join outcome of `Handle`. -/
def IsJoin (w : World) (r : ActionUpgrade) (w1 : World) : Prop :=
  w1.h = { bkgActions := w.h.bkgActions ++ [Action.upgrade r], bkgCancel := w.h.bkgCancel } ∧
  w1.trace = w.trace ∧ w1.tasks = w.tasks ∧ w1.canceled = w.canceled ∧
  w1.nextCtx = w.nextCtx ∧ w1.callerCanceled = w.callerCanceled

/-- The Supersede outcome of `Handle`, `c` being the cancel function that was stored. -/
def IsSupersede (w : World) (ctx : Nat) (r : ActionUpgrade) (ack : Nat) (c : Nat)
    (w1 : World) : Prop :=
  w1.trace = w.trace ++ [Event.cancel c]
    ++ ackEvents (Ctx.caller ctx) ack w.h.bkgActions
    ++ [Event.commit (Ctx.caller ctx) ack]
    ++ [Event.upgrade (Ctx.withCancel w.nextCtx ctx) r.Version r.SourceURI r false] ∧
  w1.canceled = w.canceled ++ [c] ∧
  w1.h = { bkgActions := [Action.upgrade r], bkgCancel := some w.nextCtx } ∧
  w1.tasks = w.tasks ++ [{ ctx := Ctx.withCancel w.nextCtx ctx, action := r, ack := ack }] ∧
  w1.nextCtx = w.nextCtx + 1 ∧
  w1.callerCanceled = w.callerCanceled

/-- The flush made by the goroutine `t` after a failure. -/
def IsFlush (w : World) (t : Task) (w1 : World) : Prop :=
  w1.trace = w.trace ++ ackEvents t.ctx t.ack w.h.bkgActions ++ [Event.commit t.ctx t.ack] ∧
  w1.h = { bkgActions := [], bkgCancel := w.h.bkgCancel } ∧
  w1.tasks = w.tasks ∧ w1.canceled = w.canceled ∧
  w1.nextCtx = w.nextCtx ∧ w1.callerCanceled = w.callerCanceled

/-- Every saved action is an upgrade request. -/
def AllUpgrade (l : List Action) : Prop :=
  ∀ a ∈ l, a.asUpgrade ≠ none

/-- A step that is neither a successful task return nor a caller cancellation. -/
def Step.failing : Step → Bool
  | Step.handle _ _ _ => true
  | Step.complete _ (some _) => true
  | Step.complete _ none => false
  | Step.cancelCaller _ => false

/-- The invariant of runs made of `Step.failing` steps: the goroutine of the stored cancel
function is running under a context that is not canceled whenever a batch is saved, and every
other running goroutine has a canceled context. -/
structure Inv (w : World) : Prop where
  callers : w.callerCanceled = []
  canceledLt : ∀ i ∈ w.canceled, i < w.nextCtx
  cancelLt : ∀ c, w.h.bkgCancel = some c → c < w.nextCtx
  current : w.h.bkgActions ≠ [] →
    ∃ c, w.h.bkgCancel = some c ∧ c ∉ w.canceled ∧ ∃ t ∈ w.tasks, t.hasId c = true
  tasksOk : ∀ t ∈ w.tasks, ∃ i parent, t.ctx = Ctx.withCancel i parent ∧ i < w.nextCtx ∧
    (i ∈ w.canceled ∨ (w.h.bkgCancel = some i ∧ w.h.bkgActions ≠ []))
  allUpgrade : AllUpgrade w.h.bkgActions
  distinct : w.tasks.Pairwise (fun a b => ∀ i, a.hasId i = true → b.hasId i = false)

/-! ## Interleavings

In `Handle` the goroutine tests `asyncCtx.Err()` before it takes `bkgMutex`, so another
`Handle` call can run between the test and the flush.  `Sched` adds to the world the goroutines
that have passed the test and wait for the lock, and `Move` splits the completion accordingly. -/

/-- The world together with the goroutines that have passed the cancellation test and have not
yet taken `bkgMutex`. -/
structure Sched where
  w : World
  waiting : List Task
deriving DecidableEq, Repr

/-- A freshly constructed handler with no goroutine. -/
def Sched.fresh : Sched :=
  { w := World.fresh, waiting := [] }

/-- One atomic move of an interleaving: a call of `Handle`; the return of `coord.Upgrade` in the
goroutine with cancel function `id`, up to and including the cancellation test; the locked
`ackActions` call of a goroutine that passed the test; the caller canceling a context. -/
inductive Move where
  | handle (ctx : Nat) (a : Action) (ack : Nat)
  | returns (id : Nat) (err : Option String)
  | flush (id : Nat)
  | cancelCaller (n : Nat)
deriving DecidableEq, Repr

/-- One move.  `none` when `Handle` panics or when no goroutine with the given id is in the
state the move needs. -/
def move (fails : Nat → Bool) (s : Sched) : Move → Option Sched
  | Move.handle ctx a ack =>
    match Handle fails s.w ctx a ack with
    | none => none
    | some (_, w1) => some { s with w := w1 }
  | Move.returns id err =>
    match s.w.tasks.find? (Task.hasId id) with
    | none => none
    | some t =>
      let w1 := { s.w with tasks := s.w.tasks.eraseP (Task.hasId id) }
      match err with
      | none => some { s with w := w1 }
      | some e =>
        let w2 := { w1 with
          logs := w1.logs ++ [LogEntry.errorUpgradeFailed t.action.Version e] }
        if completionFlushes w2 t (some e) then
          some { w := w2, waiting := s.waiting ++ [t] }
        else
          some { w := w2, waiting := s.waiting }
  | Move.flush id =>
    match s.waiting.find? (Task.hasId id) with
    | none => none
    | some t =>
      some { w := ackActions fails s.w t.ctx t.ack,
             waiting := s.waiting.eraseP (Task.hasId id) }
  | Move.cancelCaller n =>
    some { s with w := { s.w with callerCanceled := s.w.callerCanceled ++ [n] } }

/-- An interleaving: the moves in order. -/
def moves (fails : Nat → Bool) : Sched → List Move → Option Sched
  | s, [] => some s
  | s, m :: rest =>
    match move fails s m with
    | none => none
    | some s1 => moves fails s1 rest

/-- The requests an interleaving submits that `Handle` accepts. -/
def acceptedMoves : List Move → List Action
  | [] => []
  | Move.handle _ a _ :: rest =>
    if a.asUpgrade.isSome then a :: acceptedMoves rest else acceptedMoves rest
  | _ :: rest => acceptedMoves rest

/-- The goroutines that have not returned and whose context is not canceled. -/
def liveTasks (w : World) : List Task :=
  w.tasks.filter (fun t => !(w.isCanceled t.ctx))

/-- Every saved action is an upgrade request for the version `v`. -/
def AllVersion (v : String) (l : List Action) : Prop :=
  ∀ a ∈ l, ∃ u, a = Action.upgrade u ∧ u.Version = v

/-- All saved actions are upgrade requests for one version. -/
def Homogeneous (l : List Action) : Prop :=
  ∃ v, AllVersion v l

/-- An interleaving in which the task for 8.1.0 fails and passes the cancellation test, is then
superseded by a request for 8.2.0, and only then takes the lock. -/
def staleFlushMoves : List Move :=
  [Move.handle 0 (Action.upgrade ⟨1, "8.1.0", "u"⟩) 0,
   Move.returns 0 (some "download failed"),
   Move.handle 0 (Action.upgrade ⟨2, "8.2.0", "u"⟩) 0]

/-- The invariant of all atomic runs: a running goroutine is canceled unless it is the one
whose cancel function is stored while a batch is saved. -/
structure Inv0 (w : World) : Prop where
  canceledLt : ∀ i ∈ w.canceled, i < w.nextCtx
  cancelLt : ∀ c, w.h.bkgCancel = some c → c < w.nextCtx
  tasksOk : ∀ t ∈ w.tasks, ∃ i parent, t.ctx = Ctx.withCancel i parent ∧ i < w.nextCtx ∧
    (i ∈ w.canceled ∨ (w.h.bkgCancel = some i ∧ w.h.bkgActions ≠ []))
  allUpgrade : AllUpgrade w.h.bkgActions
  distinct : w.tasks.Pairwise (fun a b => ∀ i, a.hasId i = true → b.hasId i = false)

/-- The world of a scheduler state in which the goroutines waiting for the lock are counted
among the running ones, in front of them. -/
def Sched.all (s : Sched) : World :=
  { s.w with tasks := s.waiting ++ s.w.tasks }

/-- The goroutines, running their task or waiting for the lock, whose context is not
canceled. -/
def pendingTasks (s : Sched) : List Task :=
  (s.waiting ++ s.w.tasks).filter (fun t => !(s.w.isCanceled t.ctx))

/-- A move that is neither a successful task return nor a caller cancellation. -/
def Move.failing : Move → Bool
  | Move.handle _ _ _ => true
  | Move.returns _ (some _) => true
  | Move.returns _ none => false
  | Move.flush _ => true
  | Move.cancelCaller _ => false

/-- Whether no flush of the interleaving is made by a goroutine whose cancel function has been
called, that is, by a goroutine superseded between its cancellation test and the lock. -/
def noStaleFlush (fails : Nat → Bool) : Sched → List Move → Bool
  | _, [] => true
  | s, m :: rest =>
    (match m with
      | Move.flush id => !(decide (id ∈ s.w.canceled))
      | _ => true) &&
    (match move fails s m with
      | some s1 => noStaleFlush fails s1 rest
      | none => true)

/-- An atomic run in which the caller cancels the context it passed to `Handle` and the task
then returns an error that is not a cancellation. -/
def callerCancelRun : List Step :=
  [Step.handle 0 (Action.upgrade ⟨1, "8.1.0", "u"⟩) 0,
   Step.cancelCaller 0,
   Step.complete 0 (some "download failed")]

/-- An interleaving without stale flush: a request for 8.1.0, its task fails and its goroutine
flushes, then a request for 8.2.0 arrives. -/
def cleanFlushMoves : List Move :=
  [Move.handle 0 (Action.upgrade ⟨1, "8.1.0", "u"⟩) 0,
   Move.returns 0 (some "download failed"),
   Move.flush 0,
   Move.handle 0 (Action.upgrade ⟨2, "8.2.0", "u"⟩) 0]

end Handlers

/-!
# Socket URLs

A shallow embedding of `pkg/utils/socket_url.go`.

A Go string is a sequence of bytes; it is written here as the list of the characters with those
codes, so an ASCII string is the list of its characters and `len` is `List.length`.  The
functions of the Go standard library that `SocketURLWithFallback` calls are modelled from their
documented behaviour: `sha256.Sum256` is a parameter of type "bytes to 32 bytes", the others
(`base64.URLEncoding.EncodeToString`, `path.Join`, `path.Clean`, and of `net/url` the methods
`JoinPath`, `String`, `EscapedPath`, `setPath` with `escape`, `unescape`, `validEncoded` and
`shouldEscape` in path mode) are functions on byte lists.
-/

namespace Utils

/-- The constant `SocketFallbackDirectory`. -/
def SocketFallbackDirectory : List Char := "/tmp/elastic-agent".toList

/-- The constant `WindowsNamedPipeMaxLength`. -/
def WindowsNamedPipeMaxLength : Nat := 256

/-- The constant `WindowsSocketScheme`. -/
def WindowsSocketScheme : List Char := "npipe".toList

/-- The constant `UnixSocketMaxLength`. -/
def UnixSocketMaxLength : Nat := 104

/-- The constant `UnixSocketScheme`. -/
def UnixSocketScheme : List Char := "unix".toList

/-! ## encoding/base64 -/

/-- The alphabet of `base64.URLEncoding`. -/
def encodeURL : List Char :=
  "ABCDEFGHIJKLMNOPQRSTUVWXYZabcdefghijklmnopqrstuvwxyz0123456789-_".toList

/-- The table lookup `enc.encode[i]`. -/
def encodeAt (i : Nat) : Char :=
  encodeURL.getD i 'A'

/-- The function `base64.URLEncoding.EncodeToString`: three bytes give four characters of the
alphabet; a last block of one or two bytes is padded with `=`. -/
def EncodeToString : List Nat → List Char
  | a :: b :: c :: rest =>
    let val := a <<< 16 ||| b <<< 8 ||| c
    encodeAt (val >>> 18 &&& 0x3F) :: encodeAt (val >>> 12 &&& 0x3F) ::
      encodeAt (val >>> 6 &&& 0x3F) :: encodeAt (val &&& 0x3F) :: EncodeToString rest
  | [a, b] =>
    let val := a <<< 16 ||| b <<< 8
    [encodeAt (val >>> 18 &&& 0x3F), encodeAt (val >>> 12 &&& 0x3F),
      encodeAt (val >>> 6 &&& 0x3F), '=']
  | [a] =>
    let val := a <<< 16
    [encodeAt (val >>> 18 &&& 0x3F), encodeAt (val >>> 12 &&& 0x3F), '=', '=']
  | [] => []

/-! ## net/url, path mode -/

/-- The function `shouldEscape(c, encodePath)`: letters, digits and `-_.~` are kept, of the
reserved characters only `?` is escaped, everything else is escaped. -/
def shouldEscape (c : Char) : Bool :=
  if ('a' ≤ c ∧ c ≤ 'z') ∨ ('A' ≤ c ∧ c ≤ 'Z') ∨ ('0' ≤ c ∧ c ≤ '9') then false
  else if c = '-' ∨ c = '_' ∨ c = '.' ∨ c = '~' then false
  else if c = '$' ∨ c = '&' ∨ c = '+' ∨ c = ',' ∨ c = '/' ∨ c = ':' ∨ c = ';' ∨ c = '=' ∨
      c = '?' ∨ c = '@' then decide (c = '?')
  else true

/-- The function `ishex`. -/
def ishex (c : Char) : Bool :=
  decide (('0' ≤ c ∧ c ≤ '9') ∨ ('a' ≤ c ∧ c ≤ 'f') ∨ ('A' ≤ c ∧ c ≤ 'F'))

/-- The function `unhex`. -/
def unhex (c : Char) : Nat :=
  if '0' ≤ c ∧ c ≤ '9' then c.toNat - '0'.toNat
  else if 'a' ≤ c ∧ c ≤ 'f' then c.toNat - 'a'.toNat + 10
  else if 'A' ≤ c ∧ c ≤ 'F' then c.toNat - 'A'.toNat + 10
  else 0

/-- The function `unescape(s, encodePath)`: every `%XX` becomes the byte `XX`; `none` is the
`EscapeError` for a `%` not followed by two hex digits. -/
def unescape : List Char → Option (List Char)
  | [] => some []
  | c :: rest =>
    if c = '%' then
      match rest with
      | a :: b :: rest2 =>
        if ishex a && ishex b then
          (unescape rest2).map (fun t => Char.ofNat (unhex a <<< 4 ||| unhex b) :: t)
        else none
      | _ => none
    else (unescape rest).map (fun t => c :: t)

/-- The table lookup `upperhex[i]`. -/
def hexAt (i : Nat) : Char :=
  "0123456789ABCDEF".toList.getD i '0'

/-- The function `escape(s, encodePath)`: a byte that `shouldEscape` becomes `%XX`. -/
def escape : List Char → List Char
  | [] => []
  | c :: rest =>
    if shouldEscape c then
      '%' :: hexAt (c.toNat >>> 4) :: hexAt (c.toNat &&& 15) :: escape rest
    else c :: escape rest

/-- The function `validEncoded(s, encodePath)`. -/
def validEncoded (s : List Char) : Bool :=
  s.all fun c =>
    if c = '!' ∨ c = '$' ∨ c = '&' ∨ c = Char.ofNat 39 ∨ c = '(' ∨ c = ')' ∨ c = '*' ∨
        c = '+' ∨ c = ',' ∨ c = ';' ∨ c = '=' ∨ c = ':' ∨ c = '@' then true
    else if c = '[' ∨ c = ']' then true
    else if c = '%' then true
    else !shouldEscape c

/-! ## path -/

/-- The function `strings.Split(s, "/")`: a slash starts a new piece, any other byte is put in
front of the first piece of the rest. -/
def splitSlash : List Char → List (List Char)
  | [] => [[]]
  | c :: cs =>
    if c = '/' then [] :: splitSlash cs
    else (c :: (splitSlash cs).headD []) :: (splitSlash cs).tail

/-- One path element as `path.Clean` treats it, `out` being the elements kept so far: an empty
element and `.` are dropped, `..` removes the element before it (at the root it is dropped, in
a relative path it is kept when nothing is left to remove), anything else is kept. -/
def cleanElem (rooted : Bool) (out : List (List Char)) (elem : List Char) :
    List (List Char) :=
  if elem = [] then out
  else if elem = ['.'] then out
  else if elem = ['.', '.'] then
    match out.getLast? with
    | none => if rooted then out else out ++ [elem]
    | some last => if last = ['.', '.'] then out ++ [elem] else out.dropLast
  else out ++ [elem]

/-- The function `strings.Join(elems, "/")`. -/
def joinSlash : List (List Char) → List Char
  | [] => []
  | [x] => x
  | x :: y :: rest => x ++ '/' :: joinSlash (y :: rest)

/-- The function `path.Clean`: the kept elements joined by single slashes, after a slash for a
rooted path; the empty result is `.`. -/
def Clean (path : List Char) : List Char :=
  if path = [] then ['.']
  else
    let rooted := decide (path.head? = some '/')
    let body := joinSlash ((splitSlash path).foldl (cleanElem rooted) [])
    if rooted then '/' :: body
    else if body = [] then ['.'] else body

/-- The loop of `path.Join`: leading empty elements are skipped, the others are appended to
`buf` with a separating slash. -/
def joinElems : List Char → List (List Char) → List Char
  | buf, [] => buf
  | buf, e :: rest =>
    if buf ≠ [] ∨ e ≠ [] then
      joinElems ((if buf ≠ [] then buf ++ ['/'] else buf) ++ e) rest
    else joinElems buf rest

/-- The function `path.Join`. -/
def Join (elem : List (List Char)) : List Char :=
  if (elem.map List.length).sum = 0 then [] else Clean (joinElems [] elem)

/-! ## The type url.URL -/

/-- The fields of `url.URL` that `SocketURLWithFallback` sets or that `JoinPath` writes; all
other fields keep their zero value. -/
structure URL where
  Scheme : List Char
  Path : List Char
  RawPath : List Char
deriving DecidableEq, Repr

/-- The method `setPath`: the URL after the call and whether an error was returned.  On an
error the URL is unchanged. -/
def URL.setPath (u : URL) (p : List Char) : URL × Bool :=
  match unescape p with
  | none => (u, true)
  | some path =>
    ({ u with Path := path, RawPath := if p = escape path then [] else p }, false)

/-- The method `EscapedPath`. -/
def URL.EscapedPath (u : URL) : List Char :=
  if u.RawPath ≠ [] ∧ validEncoded u.RawPath = true ∧ unescape u.RawPath = some u.Path then
    u.RawPath
  else if u.Path = ['*'] then ['*']
  else escape u.Path

/-- The method `String` for a URL whose opaque part, user, host, query and fragment are
empty: scheme and colon, `//` when there is a scheme and a path, then the escaped path (after
`./` when nothing was written and the first segment has a colon). -/
def URL.String (u : URL) : List Char :=
  let buf := if u.Scheme ≠ [] then u.Scheme ++ [':'] else []
  let buf := if u.Scheme ≠ [] ∧ u.Path ≠ [] then buf ++ ['/', '/'] else buf
  let path := u.EscapedPath
  let buf := if buf = [] ∧ ':' ∈ (splitSlash path).headD [] then buf ++ ['.', '/'] else buf
  buf ++ path

/-- The method `JoinPath`: the elements are joined to the escaped path with `path.Join`, a
trailing slash of the last element is kept, and the result is stored with `setPath`, whose
error is dropped. -/
def URL.JoinPath (u : URL) (elem : List (List Char)) : URL :=
  let first := u.EscapedPath
  let p :=
    if first.head? ≠ some '/' then (Join (('/' :: first) :: elem)).drop 1
    else Join (first :: elem)
  let p :=
    if ((first :: elem).getLastD []).getLast? = some '/' ∧ p.getLast? ≠ some '/' then
      p ++ ['/']
    else p
  (u.setPath p).1

/-! ## SocketURLWithFallback -/

/-- The first two statements of `SocketURLWithFallback`: the URL-safe base64 encoding of the
first 24 bytes of the hash of `id`, followed by `.sock`. -/
def socketFilename (Sum256 : List Char → Fin 32 → Fin 256) (id : List Char) : List Char :=
  let hashID := Sum256 id
  EncodeToString ((List.finRange 24).map (fun i => (hashID (Fin.castLE (by decide) i)).val))
    ++ ".sock".toList

/-- The function `SocketURLWithFallback`; `Sum256` stands for `sha256.Sum256`. -/
def SocketURLWithFallback (Sum256 : List Char → Fin 32 → Fin 256)
    (id operatingSystem dir : List Char) : List Char :=
  let filename := socketFilename Sum256 id
  let u : URL := { Scheme := [], Path := ['/'], RawPath := [] }
  let u : URL :=
    if operatingSystem = "windows".toList then { u with Scheme := WindowsSocketScheme }
    else { u with Scheme := UnixSocketScheme }
  let dir := if operatingSystem = "windows".toList then ['/'] else dir
  let candidateURL := u.JoinPath [dir, filename]
  if operatingSystem = "windows".toList ∨ candidateURL.String.length < UnixSocketMaxLength then
    candidateURL.String
  else
    (u.JoinPath [SocketFallbackDirectory, filename]).String

/-- The candidate of the unix branch: the string of the `unix` URL with path `/` joined with
`dir` and the file name. -/
def unixCandidate (Sum256 : List Char → Fin 32 → Fin 256) (id dir : List Char) : List Char :=
  (({ Scheme := UnixSocketScheme, Path := ['/'], RawPath := [] } : URL).JoinPath
    [dir, socketFilename Sum256 id]).String

/-- The path elements of `dir` that `path.Clean` keeps in a rooted path. -/
def cleanComponents (dir : List Char) : List (List Char) :=
  (splitSlash dir).foldl (cleanElem true) []

/-- A stand-in for a hash function, used in examples only: byte `i` of the result is `7 i`
plus the length of the input, modulo 256. -/
def exampleSum : List Char → Fin 32 → Fin 256 :=
  fun s i => ⟨(i.val * 7 + s.length) % 256, Nat.mod_lt _ (by decide)⟩

end Utils

namespace Handlers

/-! ## The flush helper -/

theorem ackLoop_trace (fails : Nat → Bool) (ctx : Ctx) (ack : Nat) (l : List Action)
    (w : World) : (ackLoop fails ctx ack l w).trace = w.trace ++ ackEvents ctx ack l := by
  induction l generalizing w with
  | nil => simp [ackLoop, ackEvents]
  | cons a rest ih => simp [ackLoop, ih, ackEvents]

theorem ackLoop_frame (fails : Nat → Bool) (ctx : Ctx) (ack : Nat) (l : List Action)
    (w : World) :
    (ackLoop fails ctx ack l w).h = w.h ∧
    (ackLoop fails ctx ack l w).nextCtx = w.nextCtx ∧
    (ackLoop fails ctx ack l w).canceled = w.canceled ∧
    (ackLoop fails ctx ack l w).callerCanceled = w.callerCanceled ∧
    (ackLoop fails ctx ack l w).tasks = w.tasks := by
  induction l generalizing w with
  | nil => simp [ackLoop]
  | cons a rest ih => simp [ackLoop, ih]

theorem ackActions_trace (fails : Nat → Bool) (w : World) (ctx : Ctx) (ack : Nat) :
    (ackActions fails w ctx ack).trace =
      w.trace ++ ackEvents ctx ack w.h.bkgActions ++ [Event.commit ctx ack] := by
  simp [ackActions, ackLoop_trace]

theorem ackActions_h (fails : Nat → Bool) (w : World) (ctx : Ctx) (ack : Nat) :
    (ackActions fails w ctx ack).h = { bkgActions := [], bkgCancel := w.h.bkgCancel } := by
  simp [ackActions, (ackLoop_frame fails ctx ack w.h.bkgActions w).1]

theorem ackActions_frame (fails : Nat → Bool) (w : World) (ctx : Ctx) (ack : Nat) :
    (ackActions fails w ctx ack).nextCtx = w.nextCtx ∧
    (ackActions fails w ctx ack).canceled = w.canceled ∧
    (ackActions fails w ctx ack).callerCanceled = w.callerCanceled ∧
    (ackActions fails w ctx ack).tasks = w.tasks := by
  obtain ⟨_, h2, h3, h4, h5⟩ := ackLoop_frame fails ctx ack w.h.bkgActions w
  simp [ackActions, h2, h3, h4, h5]

theorem acked_append (t1 t2 : List Event) : acked (t1 ++ t2) = acked t1 ++ acked t2 := by
  induction t1 with
  | nil => rfl
  | cons e t ih => cases e <;> simp [acked, ih]

theorem commits_append (t1 t2 : List Event) : commits (t1 ++ t2) = commits t1 + commits t2 := by
  induction t1 with
  | nil => simp [commits]
  | cons e t ih => cases e <;> simp [commits, ih]; omega

theorem launches_append (t1 t2 : List Event) :
    launches (t1 ++ t2) = launches t1 + launches t2 := by
  induction t1 with
  | nil => simp [launches]
  | cons e t ih => cases e <;> simp [launches, ih]; omega

theorem acked_ackEvents (ctx : Ctx) (ack : Nat) (l : List Action) :
    acked (ackEvents ctx ack l) = l := by
  induction l with
  | nil => rfl
  | cons a t ih =>
    have : ackEvents ctx ack (a :: t) = Event.ack ctx a ack :: ackEvents ctx ack t := rfl
    rw [this, acked]
    exact congrArg _ ih

theorem commits_ackEvents (ctx : Ctx) (ack : Nat) (l : List Action) :
    commits (ackEvents ctx ack l) = 0 := by
  induction l with
  | nil => rfl
  | cons a t ih =>
    have : ackEvents ctx ack (a :: t) = Event.ack ctx a ack :: ackEvents ctx ack t := rfl
    rw [this]
    simpa [commits] using ih

theorem launches_ackEvents (ctx : Ctx) (ack : Nat) (l : List Action) :
    launches (ackEvents ctx ack l) = 0 := by
  induction l with
  | nil => rfl
  | cons a t ih =>
    have : ackEvents ctx ack (a :: t) = Event.ack ctx a ack :: ackEvents ctx ack t := rfl
    rw [this]
    simpa [launches] using ih

theorem supersede_trace_counts (t : List Event) (c : Nat) (ctx actx : Ctx) (ack : Nat)
    (l : List Action) (v u : String) (r : ActionUpgrade) (b : Bool) :
    acked (t ++ [Event.cancel c] ++ ackEvents ctx ack l ++ [Event.commit ctx ack]
        ++ [Event.upgrade actx v u r b]) = acked t ++ l ∧
    commits (t ++ [Event.cancel c] ++ ackEvents ctx ack l ++ [Event.commit ctx ack]
        ++ [Event.upgrade actx v u r b]) = commits t + 1 ∧
    launches (t ++ [Event.cancel c] ++ ackEvents ctx ack l ++ [Event.commit ctx ack]
        ++ [Event.upgrade actx v u r b]) = launches t + 1 := by
  refine ⟨?_, ?_, ?_⟩
  · rw [acked_append, acked_append, acked_append, acked_append, acked_ackEvents]
    simp [acked]
  · rw [commits_append, commits_append, commits_append, commits_append, commits_ackEvents]
    simp [commits]
  · rw [launches_append, launches_append, launches_append, launches_append,
      launches_ackEvents]
    simp [launches]

/-- C10. Sink-failure tolerance of the flush helper: whatever calls to the sink fail,
`ackActions` appends to the trace one Ack per saved action in batch order and then exactly
one Commit, leaves the batch empty, and touches nothing else but the log. -/
theorem ackActions_tolerates_sink_failure (fails : Nat → Bool) (w : World) (ctx : Ctx)
    (ack : Nat) :
    (ackActions fails w ctx ack).trace =
        w.trace ++ w.h.bkgActions.map (fun a => Event.ack ctx a ack) ++ [Event.commit ctx ack] ∧
    acked (ackActions fails w ctx ack).trace = acked w.trace ++ w.h.bkgActions ∧
    commits (ackActions fails w ctx ack).trace = commits w.trace + 1 ∧
    (ackActions fails w ctx ack).h.bkgActions = [] ∧
    (ackActions fails w ctx ack).h.bkgCancel = w.h.bkgCancel ∧
    (ackActions fails w ctx ack).canceled = w.canceled ∧
    (ackActions fails w ctx ack).tasks = w.tasks := by
  have ht := ackActions_trace fails w ctx ack
  have hh := ackActions_h fails w ctx ack
  obtain ⟨_, h2, _, h4⟩ := ackActions_frame fails w ctx ack
  refine ⟨ht, ?_, ?_, ?_, ?_, h2, h4⟩
  · rw [ht]; simp [acked_append, acked_ackEvents, acked]
  · rw [ht]; simp [commits_append, commits_ackEvents, commits]
  · rw [hh]
  · rw [hh]

/-! ## The three outcomes of `Handle` -/

theorem Handle_supersede_fields (fails : Nat → Bool) (w : World) (ctx : Nat)
    (r : ActionUpgrade) (ack : Nat) (b : ActionUpgrade) (rest : List Action) (c : Nat)
    (hbatch : w.h.bkgActions = Action.upgrade b :: rest)
    (hcancel : w.h.bkgCancel = some c)
    (hver : r.Version ≠ b.Version) :
    ∃ w1, Handle fails w ctx (Action.upgrade r) ack = some (none, w1) ∧
      w1.trace = w.trace ++ [Event.cancel c]
        ++ ackEvents (Ctx.caller ctx) ack (Action.upgrade b :: rest)
        ++ [Event.commit (Ctx.caller ctx) ack]
        ++ [Event.upgrade (Ctx.withCancel w.nextCtx ctx) r.Version r.SourceURI r false] ∧
      w1.canceled = w.canceled ++ [c] ∧
      w1.h = { bkgActions := [Action.upgrade r], bkgCancel := some w.nextCtx } ∧
      w1.tasks = w.tasks ++ [{ ctx := Ctx.withCancel w.nextCtx ctx, action := r, ack := ack }] ∧
      w1.nextCtx = w.nextCtx + 1 ∧
      w1.callerCanceled = w.callerCanceled := by
  obtain ⟨h1, h2, h3, h4⟩ := ackActions_frame fails
    { w with
      logs := w.logs ++ [LogEntry.debugReceived (Action.upgrade r),
        LogEntry.infoCanceling b.Version]
      canceled := w.canceled ++ [c]
      trace := w.trace ++ [Event.cancel c] } (Ctx.caller ctx) ack
  simp only [Handle, getAsyncContext, Action.asUpgrade, hbatch, hcancel, hver, if_false,
    saveAndDerive, launch, List.append_assoc, List.singleton_append]
  simp only at h1 h2 h3 h4
  refine ⟨_, rfl, ?_, ?_, ?_, ?_, ?_, ?_⟩
  · simp [ackActions_trace, hbatch, h1]
  · simp [h2]
  · simp [ackActions_h, h1]
  · simp [h4, h1]
  · simp [h1]
  · simp [h3]

theorem Handle_join_fields (fails : Nat → Bool) (w : World) (ctx : Nat) (r : ActionUpgrade)
    (ack : Nat) (b : ActionUpgrade) (rest : List Action)
    (hbatch : w.h.bkgActions = Action.upgrade b :: rest)
    (hver : r.Version = b.Version) :
    ∃ w1, Handle fails w ctx (Action.upgrade r) ack = some (none, w1) ∧
      w1.h = { bkgActions := w.h.bkgActions ++ [Action.upgrade r],
               bkgCancel := w.h.bkgCancel } ∧
      w1.trace = w.trace ∧
      w1.tasks = w.tasks ∧
      w1.canceled = w.canceled ∧
      w1.nextCtx = w.nextCtx ∧
      w1.callerCanceled = w.callerCanceled := by
  simp [Handle, getAsyncContext, Action.asUpgrade, hbatch, hver]

theorem Handle_start_fields (fails : Nat → Bool) (w : World) (ctx : Nat) (r : ActionUpgrade)
    (ack : Nat) (hbatch : w.h.bkgActions = []) :
    ∃ w1, Handle fails w ctx (Action.upgrade r) ack = some (none, w1) ∧
      w1.h = { bkgActions := [Action.upgrade r], bkgCancel := some w.nextCtx } ∧
      w1.trace = w.trace ++
        [Event.upgrade (Ctx.withCancel w.nextCtx ctx) r.Version r.SourceURI r false] ∧
      w1.tasks = w.tasks ++ [{ ctx := Ctx.withCancel w.nextCtx ctx, action := r, ack := ack }] ∧
      w1.canceled = w.canceled ∧
      w1.nextCtx = w.nextCtx + 1 ∧
      w1.callerCanceled = w.callerCanceled := by
  simp [Handle, getAsyncContext, Action.asUpgrade, hbatch, saveAndDerive, launch]

/-- C1. Supersede: with a saved batch headed by an upgrade to another version and a stored
cancel function `c`, `Handle` returns nil after, in this order, calling `c`, calling Ack once
per request of the old batch in batch order, calling Commit once and starting a goroutine for
the new request; the batch is then exactly the new request. -/
theorem Handle_supersede (fails : Nat → Bool) (w : World) (ctx : Nat) (r : ActionUpgrade)
    (ack : Nat) (b : ActionUpgrade) (rest : List Action) (c : Nat)
    (hbatch : w.h.bkgActions = Action.upgrade b :: rest)
    (hcancel : w.h.bkgCancel = some c)
    (hver : r.Version ≠ b.Version) :
    ∃ w1, Handle fails w ctx (Action.upgrade r) ack = some (none, w1) ∧
      w1.trace = w.trace ++ [Event.cancel c]
        ++ (Action.upgrade b :: rest).map (fun a => Event.ack (Ctx.caller ctx) a ack)
        ++ [Event.commit (Ctx.caller ctx) ack]
        ++ [Event.upgrade (Ctx.withCancel w.nextCtx ctx) r.Version r.SourceURI r false] ∧
      w1.canceled = w.canceled ++ [c] ∧
      (∀ parent, w1.isCanceled (Ctx.withCancel c parent) = true) ∧
      w1.h.bkgActions = [Action.upgrade r] ∧
      w1.h.bkgCancel = some w.nextCtx ∧
      w1.tasks = w.tasks ++ [{ ctx := Ctx.withCancel w.nextCtx ctx, action := r, ack := ack }] := by
  obtain ⟨w1, hw, ht, hc, hh, hts, _, _⟩ :=
    Handle_supersede_fields fails w ctx r ack b rest c hbatch hcancel hver
  refine ⟨w1, hw, ht, hc, ?_, ?_, ?_, hts⟩
  · intro parent; simp [World.isCanceled, hc]
  · rw [hh]
  · rw [hh]

/-- Witness for C1: a world with a one-request batch for version 8.1.0, superseded by a request
for 8.2.0. -/
theorem Handle_supersede_witness :
    ("8.2.0" ≠ "8.1.0") ∧
    ∃ w1, Handle (fun _ => true)
        { World.fresh with
          h := { bkgActions := [Action.upgrade ⟨1, "8.1.0", "u"⟩], bkgCancel := some 0 }
          nextCtx := 1 } 7 (Action.upgrade ⟨2, "8.2.0", "u"⟩) 3 = some (none, w1) ∧
      w1.h.bkgActions = [Action.upgrade ⟨2, "8.2.0", "u"⟩] :=
  ⟨by decide,
    (Handle_supersede (fun _ => true)
      { World.fresh with
        h := { bkgActions := [Action.upgrade ⟨1, "8.1.0", "u"⟩], bkgCancel := some 0 }
        nextCtx := 1 } 7 ⟨2, "8.2.0", "u"⟩ 3 ⟨1, "8.1.0", "u"⟩ [] 0 rfl rfl (by decide)).imp
      (fun _ hw => ⟨hw.1, hw.2.2.2.2.1⟩)⟩

/-- C2. Join: with a saved batch headed by an upgrade to the same version, `Handle` returns nil,
appends the request at the end of the batch and changes nothing else but the log: no
collaborator call, no goroutine, same cancel function. -/
theorem Handle_join (fails : Nat → Bool) (w : World) (ctx : Nat) (r : ActionUpgrade)
    (ack : Nat) (b : ActionUpgrade) (rest : List Action)
    (hbatch : w.h.bkgActions = Action.upgrade b :: rest)
    (hver : r.Version = b.Version) :
    ∃ w1, Handle fails w ctx (Action.upgrade r) ack = some (none, w1) ∧
      w1.h.bkgActions = w.h.bkgActions ++ [Action.upgrade r] ∧
      w1.h.bkgCancel = w.h.bkgCancel ∧
      w1.trace = w.trace ∧
      w1.tasks = w.tasks ∧
      w1.canceled = w.canceled ∧
      w1.nextCtx = w.nextCtx := by
  obtain ⟨w1, hw, hh, ht, hts, hc, hn, _⟩ :=
    Handle_join_fields fails w ctx r ack b rest hbatch hver
  exact ⟨w1, hw, by rw [hh], by rw [hh], ht, hts, hc, hn⟩

/-- Witness for C2: a second request for the running version 8.1.0. -/
theorem Handle_join_witness :
    ("8.1.0" = "8.1.0") ∧
    ∃ w1, Handle (fun _ => false)
        { World.fresh with
          h := { bkgActions := [Action.upgrade ⟨1, "8.1.0", "u"⟩], bkgCancel := some 0 }
          nextCtx := 1 } 7 (Action.upgrade ⟨2, "8.1.0", "v"⟩) 3 = some (none, w1) ∧
      w1.h.bkgActions = [Action.upgrade ⟨1, "8.1.0", "u"⟩, Action.upgrade ⟨2, "8.1.0", "v"⟩] :=
  ⟨rfl,
    (Handle_join (fun _ => false)
      { World.fresh with
        h := { bkgActions := [Action.upgrade ⟨1, "8.1.0", "u"⟩], bkgCancel := some 0 }
        nextCtx := 1 } 7 ⟨2, "8.1.0", "v"⟩ 3 ⟨1, "8.1.0", "u"⟩ [] rfl rfl).imp
      (fun _ hw => ⟨hw.1, hw.2.1⟩)⟩

/-- C3. Start: with no saved batch, `Handle` returns nil, makes the batch exactly the request,
derives the child context numbered `w.nextCtx` from the caller context and stores its cancel
function, and starts exactly one goroutine calling the executor with that context, the
request's version and source URI and `isRetry = false`; no Ack, Commit or cancel call is made.
The child context is canceled from the start only if the caller context is, or if its number
had been canceled before. -/
theorem Handle_start (fails : Nat → Bool) (w : World) (ctx : Nat) (r : ActionUpgrade)
    (ack : Nat) (hbatch : w.h.bkgActions = []) :
    ∃ w1, Handle fails w ctx (Action.upgrade r) ack = some (none, w1) ∧
      w1.h.bkgActions = [Action.upgrade r] ∧
      w1.h.bkgCancel = some w.nextCtx ∧
      w1.nextCtx = w.nextCtx + 1 ∧
      w1.trace = w.trace ++
        [Event.upgrade (Ctx.withCancel w.nextCtx ctx) r.Version r.SourceURI r false] ∧
      w1.tasks = w.tasks ++ [{ ctx := Ctx.withCancel w.nextCtx ctx, action := r, ack := ack }] ∧
      w1.canceled = w.canceled ∧
      w1.isCanceled (Ctx.withCancel w.nextCtx ctx) =
        (decide (w.nextCtx ∈ w.canceled) || w.isCanceled (Ctx.caller ctx)) := by
  obtain ⟨w1, hw, hh, ht, hts, hc, hn, hcc⟩ := Handle_start_fields fails w ctx r ack hbatch
  exact ⟨w1, hw, by rw [hh], by rw [hh], hn, ht, hts, hc, by simp [World.isCanceled, hc, hcc]⟩

/-- Witness for C3: the first request on a freshly constructed handler. -/
theorem Handle_start_witness :
    World.fresh.h.bkgActions = [] ∧
    ∃ w1, Handle (fun _ => false) World.fresh 7 (Action.upgrade ⟨1, "8.1.0", "u"⟩) 3
        = some (none, w1) ∧
      w1.h.bkgActions = [Action.upgrade ⟨1, "8.1.0", "u"⟩] :=
  ⟨rfl,
    (Handle_start (fun _ => false) World.fresh 7 ⟨1, "8.1.0", "u"⟩ 3 rfl).imp
      (fun _ hw => ⟨hw.1, hw.2.1⟩)⟩

/-- C9. Shape rejection: `Handle` returns an error exactly for an action that is not an upgrade
request.  For such an action the error is the message ending in the action's type name and the
world is the old one with one more log line (batch, cancel function, trace, goroutines
untouched); for an upgrade request no error is returned, whatever sink calls fail. -/
theorem Handle_error_iff_not_upgrade (fails : Nat → Bool) (w : World) (ctx : Nat) (a : Action)
    (ack : Nat) :
    ((∃ e w1, Handle fails w ctx a ack = some (some e, w1)) ↔ a.asUpgrade = none) ∧
    ((a.asUpgrade = none ∧
        Handle fails w ctx a ack =
          some (some ("invalid type, expected ActionUpgrade and received " ++ a.typeName),
            { w with logs := w.logs ++ [LogEntry.debugReceived a] })) ∨
      (a.asUpgrade ≠ none ∧ ∀ e w1, Handle fails w ctx a ack ≠ some (some e, w1))) := by
  have key : ∀ r, a = Action.upgrade r → ∀ e w1, Handle fails w ctx a ack ≠ some (some e, w1) := by
    intro r hr e w1
    subst hr
    simp only [Handle, Action.asUpgrade]
    cases hg : getAsyncContext fails
        { w with logs := w.logs ++ [LogEntry.debugReceived (Action.upgrade r)] } ctx
        (Action.upgrade r) ack with
    | none => simp
    | some res =>
      obtain ⟨w2, c, b⟩ := res
      cases b <;> cases c <;> simp
  cases a with
  | upgrade r =>
    refine ⟨⟨?_, ?_⟩, Or.inr ⟨?_, key r rfl⟩⟩
    · rintro ⟨e, w1, h⟩; exact absurd h (key r rfl e w1)
    · intro h; simp [Action.asUpgrade] at h
    · simp [Action.asUpgrade]
  | other i t =>
    refine ⟨⟨fun _ => rfl, fun _ => ⟨_, _, rfl⟩⟩, Or.inl ⟨rfl, rfl⟩⟩

/-! ## The completion handler -/

theorem isCanceled_congr (w1 w2 : World) (c : Ctx) (h1 : w1.canceled = w2.canceled)
    (h2 : w1.callerCanceled = w2.callerCanceled) : w1.isCanceled c = w2.isCanceled c := by
  cases c <;> simp [World.isCanceled, h1, h2]

theorem completion_canceled (fails : Nat → Bool) (w : World) (t : Task) (e : String)
    (hctx : w.isCanceled t.ctx = true) :
    completion fails w t (some e) =
      { w with logs := w.logs ++ [LogEntry.errorUpgradeFailed t.action.Version e] } := by
  have h : ({ w with logs := w.logs ++ [LogEntry.errorUpgradeFailed t.action.Version e] }
      : World).isCanceled t.ctx = true := by
    exact (isCanceled_congr _ w t.ctx rfl rfl).trans hctx
  simp [completion, completionFlushes, h]

theorem completion_flush (fails : Nat → Bool) (w : World) (t : Task) (e : String)
    (hctx : w.isCanceled t.ctx = false) :
    completion fails w t (some e) =
      ackActions fails
        { w with logs := w.logs ++ [LogEntry.errorUpgradeFailed t.action.Version e] }
        t.ctx t.ack := by
  have h : ({ w with logs := w.logs ++ [LogEntry.errorUpgradeFailed t.action.Version e] }
      : World).isCanceled t.ctx = false := by
    exact (isCanceled_congr _ w t.ctx rfl rfl).trans hctx
  simp [completion, completionFlushes, h]

theorem completion_flush_fields (fails : Nat → Bool) (w : World) (t : Task) (e : String)
    (hctx : w.isCanceled t.ctx = false) :
    (completion fails w t (some e)).trace =
        w.trace ++ ackEvents t.ctx t.ack w.h.bkgActions ++ [Event.commit t.ctx t.ack] ∧
    (completion fails w t (some e)).h = { bkgActions := [], bkgCancel := w.h.bkgCancel } ∧
    (completion fails w t (some e)).tasks = w.tasks ∧
    (completion fails w t (some e)).canceled = w.canceled ∧
    (completion fails w t (some e)).nextCtx = w.nextCtx ∧
    (completion fails w t (some e)).callerCanceled = w.callerCanceled := by
  rw [completion_flush fails w t e hctx]
  obtain ⟨h1, h2, h3, h4⟩ := ackActions_frame fails
    { w with logs := w.logs ++ [LogEntry.errorUpgradeFailed t.action.Version e] } t.ctx t.ack
  exact ⟨by rw [ackActions_trace], by rw [ackActions_h], h4, h2, h1, h3⟩

/-- A failing task whose caller context was canceled does not flush either: the goroutine
tests the task's context, and a child context is canceled together with its parent. -/
theorem completion_caller_canceled (fails : Nat → Bool) (w : World) (id parent : Nat)
    (action : ActionUpgrade) (ack : Nat) (e : String) (h : parent ∈ w.callerCanceled) :
    completion fails w { ctx := Ctx.withCancel id parent, action := action, ack := ack }
        (some e) =
      { w with logs := w.logs ++ [LogEntry.errorUpgradeFailed action.Version e] } :=
  completion_canceled fails w _ e (by simp [World.isCanceled, h])

/-- C4 (as amended). Success completion: when `coord.Upgrade` returns nil the goroutine ends
without touching anything: no flush is decided, the world is unchanged.  After one request on
a fresh handler and the successful return of its task, no Ack and no Commit has been called,
the batch still holds the request and no goroutine is left. -/
theorem completion_success_no_flush (fails : Nat → Bool) (w : World) (t : Task) (ctx : Nat)
    (r : ActionUpgrade) (ack : Nat) :
    completionFlushes w t none = false ∧
    completion fails w t none = w ∧
    ∃ w1, run fails World.fresh
        [Step.handle ctx (Action.upgrade r) ack, Step.complete 0 none] = some w1 ∧
      acked w1.trace = [] ∧ commits w1.trace = 0 ∧
      w1.h.bkgActions = [Action.upgrade r] ∧ w1.tasks = [] := by
  refine ⟨rfl, rfl, _, rfl, ?_, ?_, ?_, ?_⟩ <;>
    simp [World.fresh, NewUpgrade, Task.hasId, acked, commits, completion, launch]

/-- Counterexample to C4 as stated: after Submit(8.1.0) on a fresh handler and the successful
completion of its task, no Ack and no Commit has occurred and the batch is not empty. -/
theorem completion_success_counterexample :
    ∃ w1, run (fun _ => false) World.fresh
        [Step.handle 0 (Action.upgrade ⟨1, "8.1.0", "https://artifacts"⟩) 0,
         Step.complete 0 none] = some w1 ∧
      ¬ ((acked w1.trace).length = 1 ∧ commits w1.trace = 1 ∧ w1.h.bkgActions = []) := by
  refine ⟨_, rfl, ?_⟩
  simp [World.fresh, NewUpgrade, Task.hasId, acked, commits]

/-- Failure completion under a context that is not canceled: when `coord.Upgrade` returns an
error and the task's context is not canceled, the goroutine calls Ack once for every request of
the current batch in batch order, then Commit once, and leaves the batch empty; the number of
Ack calls is the batch size. -/
theorem completion_failure_flushes (fails : Nat → Bool) (w : World) (t : Task) (e : String)
    (hctx : w.isCanceled t.ctx = false) :
    completionFlushes w t (some e) = true ∧
    (completion fails w t (some e)).trace =
        w.trace ++ w.h.bkgActions.map (fun a => Event.ack t.ctx a t.ack)
          ++ [Event.commit t.ctx t.ack] ∧
    acked (completion fails w t (some e)).trace = acked w.trace ++ w.h.bkgActions ∧
    (acked (completion fails w t (some e)).trace).length =
        (acked w.trace).length + w.h.bkgActions.length ∧
    commits (completion fails w t (some e)).trace = commits w.trace + 1 ∧
    (completion fails w t (some e)).h.bkgActions = [] := by
  obtain ⟨ht, hh, _⟩ := completion_flush_fields fails w t e hctx
  have ha : acked (completion fails w t (some e)).trace = acked w.trace ++ w.h.bkgActions := by
    rw [ht]; simp [acked_append, acked_ackEvents, acked]
  refine ⟨by simp [completionFlushes, hctx], ht, ha, ?_, ?_, ?_⟩
  · rw [ha, List.length_append]
  · rw [ht]; simp [commits_append, commits_ackEvents, commits]
  · rw [hh]

/-- An instance of `completion_failure_flushes`: a task that fails while two requests for its
version are saved and one Ack call fails. -/
theorem completion_failure_flushes_witness :
    ({ World.fresh with
        h := { bkgActions := [Action.upgrade ⟨1, "8.1.0", "u"⟩, Action.upgrade ⟨2, "8.1.0", "u"⟩],
               bkgCancel := some 0 }
        nextCtx := 1 } : World).isCanceled (Ctx.withCancel 0 7) = false ∧
    acked (completion (fun k => decide (k = 0))
      { World.fresh with
        h := { bkgActions := [Action.upgrade ⟨1, "8.1.0", "u"⟩, Action.upgrade ⟨2, "8.1.0", "u"⟩],
               bkgCancel := some 0 }
        nextCtx := 1 }
      { ctx := Ctx.withCancel 0 7, action := ⟨1, "8.1.0", "u"⟩, ack := 3 }
      (some "download failed")).trace =
      [Action.upgrade ⟨1, "8.1.0", "u"⟩, Action.upgrade ⟨2, "8.1.0", "u"⟩] :=
  ⟨rfl,
    (completion_failure_flushes (fun k => decide (k = 0))
      { World.fresh with
        h := { bkgActions := [Action.upgrade ⟨1, "8.1.0", "u"⟩, Action.upgrade ⟨2, "8.1.0", "u"⟩],
               bkgCancel := some 0 }
        nextCtx := 1 }
      { ctx := Ctx.withCancel 0 7, action := ⟨1, "8.1.0", "u"⟩, ack := 3 }
      "download failed" rfl).2.2.1⟩

/-! ## Runs of same-version requests -/

theorem run_append (fails : Nat → Bool) (w : World) (s1 s2 : List Step) :
    run fails w (s1 ++ s2) = (run fails w s1).bind (fun w1 => run fails w1 s2) := by
  induction s1 generalizing w with
  | nil => simp [run]
  | cons a t ih =>
    simp only [List.cons_append, run]
    cases step fails w a with
    | none => simp
    | some w1 => simpa using ih w1

theorem step_handle_of_Handle (fails : Nat → Bool) (w w1 : World) (ctx : Nat) (a : Action)
    (ack : Nat) (e : Option String) (h : Handle fails w ctx a ack = some (e, w1)) :
    step fails w (Step.handle ctx a ack) = some w1 := by
  simp [step, h]

theorem run_joins (fails : Nat → Bool) (rs : List (Nat × ActionUpgrade × Nat)) :
    ∀ (w : World) (b : ActionUpgrade) (rest : List Action),
      w.h.bkgActions = Action.upgrade b :: rest →
      (∀ y ∈ rs, y.2.1.Version = b.Version) →
      ∃ w1, run fails w (submitAll rs) = some w1 ∧
        w1.h = { bkgActions := w.h.bkgActions ++ requests rs, bkgCancel := w.h.bkgCancel } ∧
        w1.trace = w.trace ∧ w1.tasks = w.tasks ∧ w1.canceled = w.canceled ∧
        w1.nextCtx = w.nextCtx ∧ w1.callerCanceled = w.callerCanceled := by
  induction rs with
  | nil =>
    intro w b rest _ _
    exact ⟨w, rfl, by simp [requests], rfl, rfl, rfl, rfl, rfl⟩
  | cons y ys ih =>
    intro w b rest hb hv
    obtain ⟨w1, hw, hh, ht, hts, hc, hn, hcc⟩ :=
      Handle_join_fields fails w y.1 y.2.1 y.2.2 b rest hb (hv y (List.mem_cons_self _ _))
    have hb1 : w1.h.bkgActions = Action.upgrade b :: (rest ++ [Action.upgrade y.2.1]) := by
      rw [hh]; simp [hb]
    obtain ⟨w2, hw2, hh2, ht2, hts2, hc2, hn2, hcc2⟩ :=
      ih w1 b _ hb1 (fun z hz => hv z (List.mem_cons_of_mem _ hz))
    refine ⟨w2, ?_, ?_, ht2.trans ht, hts2.trans hts, hc2.trans hc, hn2.trans hn,
      hcc2.trans hcc⟩
    · simp only [submitAll, List.map_cons, run]
      rw [step_handle_of_Handle fails w w1 _ _ _ none hw]
      exact hw2
    · rw [hh2, hh]; simp [requests]

theorem run_same_version (fails : Nat → Bool) (x : Nat × ActionUpgrade × Nat)
    (xs : List (Nat × ActionUpgrade × Nat)) (hver : ∀ y ∈ xs, y.2.1.Version = x.2.1.Version) :
    ∃ w1, run fails World.fresh (submitAll (x :: xs)) = some w1 ∧
      w1.h = { bkgActions := requests (x :: xs), bkgCancel := some 0 } ∧
      w1.trace = [Event.upgrade (Ctx.withCancel 0 x.1) x.2.1.Version x.2.1.SourceURI x.2.1
        false] ∧
      w1.tasks = [{ ctx := Ctx.withCancel 0 x.1, action := x.2.1, ack := x.2.2 }] ∧
      w1.canceled = [] ∧ w1.nextCtx = 1 ∧ w1.callerCanceled = [] := by
  obtain ⟨w0, hw, hh, ht, hts, hc, hn, hcc⟩ :=
    Handle_start_fields fails World.fresh x.1 x.2.1 x.2.2 rfl
  have hb : w0.h.bkgActions = Action.upgrade x.2.1 :: [] := by rw [hh]
  obtain ⟨w1, hw1, hh1, ht1, hts1, hc1, hn1, hcc1⟩ := run_joins fails xs w0 x.2.1 [] hb hver
  refine ⟨w1, ?_, ?_, ?_, ?_, ?_, ?_, ?_⟩
  · simp only [submitAll, List.map_cons, run]
    rw [step_handle_of_Handle fails _ w0 _ _ _ none hw]
    exact hw1
  · rw [hh1, hh]; simp [requests, World.fresh]
  · rw [ht1, ht]; simp [World.fresh]
  · rw [hts1, hts]; simp [World.fresh]
  · rw [hc1, hc]; rfl
  · rw [hn1, hn]; rfl
  · rw [hcc1, hcc]; rfl

/-- C7. Single-flight: on a fresh handler, `n ≥ 1` requests for one version submitted in a row
start exactly one executor call, the one for the first request, and are all saved in submission
order; when that task then fails, Ack is called exactly once per request, in that order, and
Commit once, and the batch is empty. -/
theorem single_flight (fails : Nat → Bool) (x : Nat × ActionUpgrade × Nat)
    (xs : List (Nat × ActionUpgrade × Nat)) (e : String)
    (hver : ∀ y ∈ xs, y.2.1.Version = x.2.1.Version) :
    ∃ w1 w2, run fails World.fresh (submitAll (x :: xs)) = some w1 ∧
      w1.trace = [Event.upgrade (Ctx.withCancel 0 x.1) x.2.1.Version x.2.1.SourceURI x.2.1
        false] ∧
      launches w1.trace = 1 ∧
      w1.h.bkgActions = requests (x :: xs) ∧
      w1.tasks = [{ ctx := Ctx.withCancel 0 x.1, action := x.2.1, ack := x.2.2 }] ∧
      step fails w1 (Step.complete 0 (some e)) = some w2 ∧
      acked w2.trace = requests (x :: xs) ∧
      (acked w2.trace).length = xs.length + 1 ∧
      commits w2.trace = 1 ∧
      launches w2.trace = 1 ∧
      w2.h.bkgActions = [] := by
  obtain ⟨w1, hw, hh, ht, hts, hc, hn, hcc⟩ := run_same_version fails x xs hver
  have hnc : ({ w1 with tasks := w1.tasks.eraseP (Task.hasId 0) } : World).isCanceled
      (Ctx.withCancel 0 x.1) = false := by
    simp [World.isCanceled, hc, hcc]
  obtain ⟨ft, fh, _⟩ := completion_flush_fields fails
    { w1 with tasks := w1.tasks.eraseP (Task.hasId 0) }
    { ctx := Ctx.withCancel 0 x.1, action := x.2.1, ack := x.2.2 } e hnc
  have hacked : acked (completion fails { w1 with tasks := w1.tasks.eraseP (Task.hasId 0) }
      { ctx := Ctx.withCancel 0 x.1, action := x.2.1, ack := x.2.2 } (some e)).trace
      = requests (x :: xs) := by
    rw [ft]
    show acked (w1.trace ++ ackEvents _ _ w1.h.bkgActions ++ [Event.commit _ _]) = _
    rw [acked_append, acked_append, acked_ackEvents, ht, hh]
    simp [acked]
  refine ⟨w1, _, hw, ht, by rw [ht]; rfl, by rw [hh], hts, ?_, hacked, ?_, ?_, ?_, ?_⟩
  · simp [step, hts, Task.hasId]
  · rw [hacked]; simp [requests]
  · rw [ft]; simp [commits_append, commits_ackEvents, commits, ht]
  · rw [ft]; simp [launches_append, launches_ackEvents, launches, ht]
  · rw [fh]

/-- Witness for C7: three requests for 8.1.0 from different callers. -/
theorem single_flight_witness :
    (∀ y ∈ [((5 : Nat), (⟨2, "8.1.0", "u"⟩ : ActionUpgrade), (1 : Nat)),
            (6, ⟨3, "8.1.0", "v"⟩, 2)],
        y.2.1.Version = "8.1.0") ∧
    ∃ w1 w2, run (fun _ => true) World.fresh
        (submitAll [(4, ⟨1, "8.1.0", "u"⟩, 0), (5, ⟨2, "8.1.0", "u"⟩, 1),
          (6, ⟨3, "8.1.0", "v"⟩, 2)]) = some w1 ∧
      launches w1.trace = 1 ∧
      step (fun _ => true) w1 (Step.complete 0 (some "failed")) = some w2 ∧
      (acked w2.trace).length = 3 ∧ commits w2.trace = 1 :=
  ⟨by decide,
    match single_flight (fun _ => true) (4, ⟨1, "8.1.0", "u"⟩, 0)
        [(5, ⟨2, "8.1.0", "u"⟩, 1), (6, ⟨3, "8.1.0", "v"⟩, 2)] "failed" (by decide) with
    | ⟨w1, w2, h1, _, h3, _, _, h6, _, h8, h9, _⟩ => ⟨w1, w2, h1, h3, h6, h8, h9⟩⟩

/-- C6. Canceled completion: on a fresh handler, after `n ≥ 1` requests for version A and then
a request for another version B, the A-task's context is canceled and every A request has been
passed to Ack exactly once (in order), with one Commit; when the A-task then returns an error,
its goroutine decides not to flush, the trace and the handler fields are unchanged, so the
acknowledged requests are still exactly the A requests and the batch is still the B request. -/
theorem canceled_completion (fails : Nat → Bool) (x : Nat × ActionUpgrade × Nat)
    (xs : List (Nat × ActionUpgrade × Nat)) (y : Nat × ActionUpgrade × Nat) (e : String)
    (hver : ∀ z ∈ xs, z.2.1.Version = x.2.1.Version)
    (hne : y.2.1.Version ≠ x.2.1.Version) :
    ∃ w2 w3, run fails World.fresh
        (submitAll (x :: xs) ++ [Step.handle y.1 (Action.upgrade y.2.1) y.2.2]) = some w2 ∧
      w2.isCanceled (Ctx.withCancel 0 x.1) = true ∧
      completionFlushes w2 { ctx := Ctx.withCancel 0 x.1, action := x.2.1, ack := x.2.2 }
        (some e) = false ∧
      step fails w2 (Step.complete 0 (some e)) = some w3 ∧
      w3.trace = w2.trace ∧
      w3.h = w2.h ∧
      acked w3.trace = requests (x :: xs) ∧
      commits w3.trace = 1 ∧
      launches w3.trace = 2 ∧
      w3.h.bkgActions = [Action.upgrade y.2.1] ∧
      w3.tasks = [{ ctx := Ctx.withCancel 1 y.1, action := y.2.1, ack := y.2.2 }] := by
  obtain ⟨w1, hw, hh, ht, hts, hc, hn, hcc⟩ := run_same_version fails x xs hver
  have hb : w1.h.bkgActions = Action.upgrade x.2.1 :: requests xs := by rw [hh]; rfl
  have hbc : w1.h.bkgCancel = some 0 := by rw [hh]
  obtain ⟨w2, hw2, ht2, hc2, hh2, hts2, hn2, hcc2⟩ :=
    Handle_supersede_fields fails w1 y.1 y.2.1 y.2.2 x.2.1 (requests xs) 0 hb hbc hne
  have hcan : w2.isCanceled (Ctx.withCancel 0 x.1) = true := by
    simp [World.isCanceled, hc2]
  have hcan2 : ({ w2 with tasks := w2.tasks.eraseP (Task.hasId 0) } : World).isCanceled
      (Ctx.withCancel 0 x.1) = true := by
    simp [World.isCanceled, hc2]
  have hstep : step fails w2 (Step.complete 0 (some e)) = some
      (completion fails { w2 with tasks := w2.tasks.eraseP (Task.hasId 0) }
        { ctx := Ctx.withCancel 0 x.1, action := x.2.1, ack := x.2.2 } (some e)) := by
    simp [step, hts2, hts, Task.hasId]
  have hcomp := completion_canceled fails
    { w2 with tasks := w2.tasks.eraseP (Task.hasId 0) }
    { ctx := Ctx.withCancel 0 x.1, action := x.2.1, ack := x.2.2 } e hcan2
  have hacked : acked w2.trace = requests (x :: xs) := by
    rw [ht2, (supersede_trace_counts _ _ _ _ _ _ _ _ _ _).1, ht]
    rfl
  have hcommits : commits w2.trace = 1 := by
    rw [ht2, (supersede_trace_counts _ _ _ _ _ _ _ _ _ _).2.1, ht]
    rfl
  have hlaunches : launches w2.trace = 2 := by
    rw [ht2, (supersede_trace_counts _ _ _ _ _ _ _ _ _ _).2.2, ht]
    rfl
  refine ⟨w2, _, ?_, hcan, ?_, hstep, ?_, ?_, ?_, ?_, ?_, ?_, ?_⟩
  · rw [run_append, hw]
    simp only [Option.some_bind, run]
    rw [step_handle_of_Handle fails w1 w2 _ _ _ none hw2]
  · simp [completionFlushes, hcan]
  · rw [hcomp]
  · rw [hcomp]
  · rw [hcomp]; exact hacked
  · rw [hcomp]; exact hcommits
  · rw [hcomp]; exact hlaunches
  · rw [hcomp]; simp [hh2]
  · rw [hcomp]; simp [hts2, hts, hn, Task.hasId]

/-- Witness for C6: two requests for 8.1.0, then one for 8.2.0, then the 8.1.0 task returns
`context canceled`. -/
theorem canceled_completion_witness :
    ((∀ z ∈ [((5 : Nat), (⟨2, "8.1.0", "u"⟩ : ActionUpgrade), (1 : Nat))],
        z.2.1.Version = "8.1.0") ∧ "8.2.0" ≠ "8.1.0") ∧
    ∃ w2 w3, run (fun _ => false) World.fresh
        (submitAll [(4, ⟨1, "8.1.0", "u"⟩, 0), (5, ⟨2, "8.1.0", "u"⟩, 1)] ++
          [Step.handle 6 (Action.upgrade ⟨3, "8.2.0", "u"⟩) 2]) = some w2 ∧
      step (fun _ => false) w2 (Step.complete 0 (some "context canceled")) = some w3 ∧
      w3.trace = w2.trace ∧
      acked w3.trace = [Action.upgrade ⟨1, "8.1.0", "u"⟩, Action.upgrade ⟨2, "8.1.0", "u"⟩] ∧
      w3.h.bkgActions = [Action.upgrade ⟨3, "8.2.0", "u"⟩] :=
  ⟨⟨by decide, by decide⟩,
    match canceled_completion (fun _ => false) (4, ⟨1, "8.1.0", "u"⟩, 0)
        [(5, ⟨2, "8.1.0", "u"⟩, 1)] (6, ⟨3, "8.2.0", "u"⟩, 2) "context canceled"
        (by decide) (by decide) with
    | ⟨w2, w3, h1, _, _, h4, h5, _, h7, _, _, h10, _⟩ => ⟨w2, w3, h1, h4, h5, h7, h10⟩⟩

/-! ## Case analysis of a step -/

theorem Handle_cases (fails : Nat → Bool) (w w1 : World) (ctx : Nat) (a : Action) (ack : Nat)
    (e : Option String) (h : Handle fails w ctx a ack = some (e, w1))
    (hall : AllUpgrade w.h.bkgActions) :
    (a.asUpgrade = none ∧ Unchanged w w1) ∨
    (∃ r, a = Action.upgrade r ∧ w.h.bkgActions = [] ∧ IsStart w ctx r ack w1) ∨
    (∃ r, a = Action.upgrade r ∧ w.h.bkgActions ≠ [] ∧ IsJoin w r w1) ∨
    (∃ r c, a = Action.upgrade r ∧ w.h.bkgActions ≠ [] ∧ w.h.bkgCancel = some c ∧
      IsSupersede w ctx r ack c w1) := by
  cases a with
  | other i t =>
    left
    simp only [Handle, Action.asUpgrade, Option.some.injEq, Prod.mk.injEq] at h
    obtain ⟨_, rfl⟩ := h
    exact ⟨rfl, rfl, rfl, rfl, rfl, rfl, rfl⟩
  | upgrade r =>
    right
    cases hb : w.h.bkgActions with
    | nil =>
      left
      obtain ⟨w2, hw, hfields⟩ := Handle_start_fields fails w ctx r ack hb
      rw [hw] at h
      simp only [Option.some.injEq, Prod.mk.injEq] at h
      obtain ⟨_, rfl⟩ := h
      exact ⟨r, rfl, rfl, hfields⟩
    | cons first rest =>
      right
      have hfirst : first.asUpgrade ≠ none := hall first (by rw [hb]; exact List.mem_cons_self _ _)
      cases first with
      | other i t => exact absurd rfl hfirst
      | upgrade b =>
        by_cases hv : r.Version = b.Version
        · left
          obtain ⟨w2, hw, hfields⟩ := Handle_join_fields fails w ctx r ack b rest hb hv
          rw [hw] at h
          simp only [Option.some.injEq, Prod.mk.injEq] at h
          obtain ⟨_, rfl⟩ := h
          exact ⟨r, rfl, by simp, hfields⟩
        · right
          cases hc : w.h.bkgCancel with
          | none =>
            simp [Handle, getAsyncContext, Action.asUpgrade, hb, hc, hv] at h
          | some c =>
            obtain ⟨w2, hw, hfields⟩ :=
              Handle_supersede_fields fails w ctx r ack b rest c hb hc hv
            rw [hw] at h
            simp only [Option.some.injEq, Prod.mk.injEq] at h
            obtain ⟨_, rfl⟩ := h
            exact ⟨r, c, rfl, by simp, rfl, by rw [IsSupersede, hb]; exact hfields⟩

theorem completion_cases (fails : Nat → Bool) (w : World) (t : Task) (err : Option String) :
    (Unchanged w (completion fails w t err) ∧ (err = none ∨ w.isCanceled t.ctx = true)) ∨
    (err ≠ none ∧ w.isCanceled t.ctx = false ∧ IsFlush w t (completion fails w t err)) := by
  cases err with
  | none => exact Or.inl ⟨⟨rfl, rfl, rfl, rfl, rfl, rfl⟩, Or.inl rfl⟩
  | some e =>
    cases hc : w.isCanceled t.ctx with
    | true =>
      left
      rw [completion_canceled fails w t e hc]
      exact ⟨⟨rfl, rfl, rfl, rfl, rfl, rfl⟩, Or.inr rfl⟩
    | false =>
      right
      exact ⟨by simp, rfl, completion_flush_fields fails w t e hc⟩

/-! ## Conservation of requests along a run -/

theorem step_conserves (fails : Nat → Bool) (w w1 : World) (s : Step)
    (h : step fails w s = some w1) (hall : AllUpgrade w.h.bkgActions) :
    AllUpgrade w1.h.bkgActions ∧
    acked w1.trace ++ w1.h.bkgActions = acked w.trace ++ w.h.bkgActions ++ accepted [s] := by
  cases s with
  | handle ctx a ack =>
    simp only [step] at h
    cases hH : Handle fails w ctx a ack with
    | none => simp [hH] at h
    | some res =>
      obtain ⟨e, w2⟩ := res
      simp only [hH, Option.some.injEq] at h
      subst h
      rcases Handle_cases fails w w2 ctx a ack e hH hall with
        ⟨ha, hh, ht, -⟩ | ⟨r, rfl, hb, hh, ht, -⟩ | ⟨r, rfl, -, hh, ht, -⟩ |
        ⟨r, c, rfl, -, -, ht, -, hh, -⟩
      · rw [hh, ht]
        exact ⟨hall, by simp [accepted, ha]⟩
      · rw [hh, ht, hb, acked_append]
        refine ⟨?_, by simp [accepted, acked, Action.asUpgrade]⟩
        intro a ha
        simp only [List.mem_singleton] at ha
        subst ha
        simp [Action.asUpgrade]
      · rw [hh, ht]
        refine ⟨?_, by simp [accepted, Action.asUpgrade]⟩
        intro a ha
        simp only [List.mem_append, List.mem_singleton] at ha
        rcases ha with ha | rfl
        · exact hall a ha
        · simp [Action.asUpgrade]
      · rw [hh, ht, (supersede_trace_counts _ _ _ _ _ _ _ _ _ _).1]
        refine ⟨?_, by simp [accepted, Action.asUpgrade]⟩
        intro a ha
        simp only [List.mem_singleton] at ha
        subst ha
        simp [Action.asUpgrade]
  | complete id err =>
    simp only [step] at h
    cases hf : w.tasks.find? (Task.hasId id) with
    | none => simp [hf] at h
    | some t =>
      simp only [hf, Option.some.injEq] at h
      subst h
      rcases completion_cases fails { w with tasks := w.tasks.eraseP (Task.hasId id) } t err
        with ⟨⟨hh, ht, -⟩, -⟩ | ⟨-, -, ht, hh, -⟩
      · rw [hh, ht]
        exact ⟨hall, by simp [accepted]⟩
      · rw [hh, ht, acked_append, acked_append, acked_ackEvents]
        exact ⟨by intro a ha; simp at ha, by simp [accepted, acked]⟩
  | cancelCaller n =>
    simp only [step, Option.some.injEq] at h
    subst h
    exact ⟨hall, by simp [accepted]⟩

theorem accepted_cons (s : Step) (rest : List Step) :
    accepted (s :: rest) = accepted [s] ++ accepted rest := by
  cases s with
  | handle ctx a ack =>
    by_cases ha : a.asUpgrade.isSome = true <;> simp [accepted, ha]
  | complete id err => simp [accepted]
  | cancelCaller n => simp [accepted]

theorem run_conserves (fails : Nat → Bool) (steps : List Step) :
    ∀ (w w1 : World), run fails w steps = some w1 → AllUpgrade w.h.bkgActions →
      AllUpgrade w1.h.bkgActions ∧
      acked w1.trace ++ w1.h.bkgActions = acked w.trace ++ w.h.bkgActions ++ accepted steps := by
  induction steps with
  | nil =>
    intro w w1 h hall
    simp only [run, Option.some.injEq] at h
    subst h
    exact ⟨hall, by simp [accepted]⟩
  | cons s rest ih =>
    intro w w1 h hall
    simp only [run] at h
    cases hs : step fails w s with
    | none => simp [hs] at h
    | some w2 =>
      simp only [hs] at h
      obtain ⟨hall2, heq2⟩ := step_conserves fails w w2 s hs hall
      obtain ⟨hall1, heq1⟩ := ih w2 w1 h hall2
      refine ⟨hall1, ?_⟩
      rw [heq1, heq2, accepted_cons s rest]
      simp

theorem fresh_conserves (fails : Nat → Bool) (steps : List Step) (w : World)
    (h : run fails World.fresh steps = some w) :
    acked w.trace ++ w.h.bkgActions = accepted steps := by
  have hall : AllUpgrade World.fresh.h.bkgActions := by
    intro a ha
    simp [World.fresh, NewUpgrade] at ha
  have := (run_conserves fails steps World.fresh w h hall).2
  simpa [World.fresh, NewUpgrade, acked] using this

/-! ## The invariant of runs without success and without caller cancellation -/

theorem hasId_withCancel (t : Task) (i parent j : Nat) (h : t.ctx = Ctx.withCancel i parent) :
    t.hasId j = true ↔ i = j := by
  simp [Task.hasId, h]

theorem not_hasId_of_mem_eraseP (id : Nat) (l : List Task)
    (hd : l.Pairwise (fun a b => ∀ i, a.hasId i = true → b.hasId i = false)) :
    ∀ t ∈ l.eraseP (Task.hasId id), t.hasId id = false := by
  induction l with
  | nil => intro t ht; simp at ht
  | cons a rest ih =>
    intro t ht
    rw [List.pairwise_cons] at hd
    rw [List.eraseP_cons] at ht
    cases ha : a.hasId id with
    | true =>
      rw [ha] at ht
      exact hd.1 t ht id ha
    | false =>
      rw [ha] at ht
      simp only [cond_false, List.mem_cons] at ht
      rcases ht with rfl | ht
      · exact ha
      · exact ih hd.2 t ht

theorem Inv_fresh : Inv World.fresh where
  callers := rfl
  canceledLt := by intro i hi; simp [World.fresh] at hi
  cancelLt := by intro c hc; simp [World.fresh, NewUpgrade] at hc
  current := by intro h; exact absurd rfl h
  tasksOk := by intro t ht; simp [World.fresh] at ht
  allUpgrade := by intro a ha; simp [World.fresh, NewUpgrade] at ha
  distinct := by simp [World.fresh]

theorem Inv_of_unchanged (w w1 : World) (hu : Unchanged w w1) (hinv : Inv w) : Inv w1 := by
  obtain ⟨hh, _, hts, hc, hn, hcc⟩ := hu
  exact {
    callers := by rw [hcc]; exact hinv.callers
    canceledLt := by rw [hc, hn]; exact hinv.canceledLt
    cancelLt := by rw [hh, hn]; exact hinv.cancelLt
    current := by rw [hh, hc, hts]; exact hinv.current
    tasksOk := by rw [hh, hc, hts, hn]; exact hinv.tasksOk
    allUpgrade := by rw [hh]; exact hinv.allUpgrade
    distinct := by rw [hts]; exact hinv.distinct }

/-- Both launching outcomes: the new goroutine gets the next context number, and every older
goroutine is canceled in the new world. -/
theorem Inv_of_launch (w w1 : World) (ctx : Nat) (r : ActionUpgrade) (ack : Nat)
    (hinv : Inv w)
    (hh : w1.h = { bkgActions := [Action.upgrade r], bkgCancel := some w.nextCtx })
    (hts : w1.tasks = w.tasks ++
      [{ ctx := Ctx.withCancel w.nextCtx ctx, action := r, ack := ack }])
    (hn : w1.nextCtx = w.nextCtx + 1)
    (hcc : w1.callerCanceled = w.callerCanceled)
    (hlt : ∀ i ∈ w1.canceled, i < w.nextCtx)
    (hold : ∀ t ∈ w.tasks, ∀ i parent, t.ctx = Ctx.withCancel i parent → i ∈ w1.canceled) :
    Inv w1 := by
  have hnew : w.nextCtx ∉ w1.canceled := fun hm => Nat.lt_irrefl _ (hlt _ hm)
  refine {
    callers := by rw [hcc]; exact hinv.callers
    canceledLt := ?_
    cancelLt := ?_
    current := ?_
    tasksOk := ?_
    allUpgrade := ?_
    distinct := ?_ }
  · intro i hi
    rw [hn]
    exact Nat.lt_succ_of_lt (hlt i hi)
  · intro c hc
    rw [hh] at hc
    simp only [Option.some.injEq] at hc
    rw [hn, ← hc]
    exact Nat.lt_succ_self _
  · intro _
    refine ⟨w.nextCtx, by rw [hh], hnew,
      { ctx := Ctx.withCancel w.nextCtx ctx, action := r, ack := ack }, ?_, ?_⟩
    · rw [hts]; exact List.mem_append_right _ (List.mem_singleton_self _)
    · simp [Task.hasId]
  · intro t ht
    rw [hts, List.mem_append, List.mem_singleton] at ht
    rcases ht with ht | rfl
    · obtain ⟨i, parent, hctx, hi, _⟩ := hinv.tasksOk t ht
      exact ⟨i, parent, hctx, by rw [hn]; exact Nat.lt_succ_of_lt hi,
        Or.inl (hold t ht i parent hctx)⟩
    · exact ⟨w.nextCtx, ctx, rfl, by rw [hn]; exact Nat.lt_succ_self _,
        Or.inr ⟨by rw [hh], by rw [hh]; simp⟩⟩
  · intro a ha
    rw [hh] at ha
    simp only [List.mem_singleton] at ha
    subst ha
    simp [Action.asUpgrade]
  · rw [hts, List.pairwise_append]
    refine ⟨hinv.distinct, by simp, ?_⟩
    intro a ha b hb i hai
    rw [List.mem_singleton] at hb
    subst hb
    obtain ⟨j, parent, hctx, hj, _⟩ := hinv.tasksOk a ha
    have hji : j = i := (hasId_withCancel a j parent i hctx).1 hai
    cases hbi : Task.hasId i
        { ctx := Ctx.withCancel w.nextCtx ctx, action := r, ack := ack } with
    | false => rfl
    | true =>
      have : w.nextCtx = i := (hasId_withCancel _ w.nextCtx ctx i rfl).1 hbi
      omega

theorem Inv_Handle (fails : Nat → Bool) (w w1 : World) (ctx : Nat) (a : Action) (ack : Nat)
    (e : Option String) (h : Handle fails w ctx a ack = some (e, w1)) (hinv : Inv w) :
    Inv w1 := by
  rcases Handle_cases fails w w1 ctx a ack e h hinv.allUpgrade with
    ⟨-, hu⟩ | ⟨r, -, hb, hh, -, hts, hc, hn, hcc⟩ | ⟨r, -, hb, hh, -, hts, hc, hn, hcc⟩ |
    ⟨r, c, -, hb, hbc, -, hc, hh, hts, hn, hcc⟩
  · exact Inv_of_unchanged w w1 hu hinv
  · refine Inv_of_launch w w1 ctx r ack hinv hh hts hn hcc ?_ ?_
    · rw [hc]; exact hinv.canceledLt
    · intro t ht i parent hctx
      obtain ⟨j, q, hctx2, _, hj⟩ := hinv.tasksOk t ht
      rw [hctx] at hctx2
      simp only [Ctx.withCancel.injEq] at hctx2
      rcases hj with hj | ⟨_, hne⟩
      · rw [hc, hctx2.1]; exact hj
      · exact absurd hb hne
  · have hne : w.h.bkgActions ++ [Action.upgrade r] ≠ [] := by simp
    exact {
      callers := by rw [hcc]; exact hinv.callers
      canceledLt := by rw [hc, hn]; exact hinv.canceledLt
      cancelLt := by rw [hh, hn]; exact hinv.cancelLt
      current := by
        intro _
        rw [hh, hc, hts]
        exact hinv.current hb
      tasksOk := by
        intro t ht
        rw [hts] at ht
        obtain ⟨i, parent, hctx, hi, hj⟩ := hinv.tasksOk t ht
        refine ⟨i, parent, hctx, by rw [hn]; exact hi, ?_⟩
        rcases hj with hj | ⟨hj, _⟩
        · exact Or.inl (by rw [hc]; exact hj)
        · exact Or.inr ⟨by rw [hh]; exact hj, by rw [hh]; exact hne⟩
      allUpgrade := by
        intro x hx
        rw [hh] at hx
        simp only [List.mem_append, List.mem_singleton] at hx
        rcases hx with hx | rfl
        · exact hinv.allUpgrade x hx
        · simp [Action.asUpgrade]
      distinct := by rw [hts]; exact hinv.distinct }
  · refine Inv_of_launch w w1 ctx r ack hinv hh hts hn hcc ?_ ?_
    · intro i hi
      rw [hc, List.mem_append, List.mem_singleton] at hi
      rcases hi with hi | rfl
      · exact hinv.canceledLt i hi
      · exact hinv.cancelLt i hbc
    · intro t ht i parent hctx
      obtain ⟨j, q, hctx2, _, hj⟩ := hinv.tasksOk t ht
      rw [hctx] at hctx2
      simp only [Ctx.withCancel.injEq] at hctx2
      rw [hc, List.mem_append, List.mem_singleton, hctx2.1]
      rcases hj with hj | ⟨hj, _⟩
      · exact Or.inl hj
      · right
        rw [hbc] at hj
        simp only [Option.some.injEq] at hj
        exact hj.symm

theorem Inv_complete (fails : Nat → Bool) (w : World) (id : Nat) (e : String) (t : Task)
    (hf : w.tasks.find? (Task.hasId id) = some t) (hinv : Inv w) :
    Inv (completion fails { w with tasks := w.tasks.eraseP (Task.hasId id) } t (some e)) := by
  have htm : t ∈ w.tasks := List.mem_of_find?_eq_some hf
  have hti : t.hasId id = true := List.find?_some hf
  obtain ⟨i, parent, hctx, _, hcur⟩ := hinv.tasksOk t htm
  have hid : i = id := (hasId_withCancel t i parent id hctx).1 hti
  subst hid
  have hsub : ∀ x ∈ w.tasks.eraseP (Task.hasId i), x ∈ w.tasks :=
    fun x hx => List.mem_of_mem_eraseP hx
  have hdist : (w.tasks.eraseP (Task.hasId i)).Pairwise
      (fun a b => ∀ j, a.hasId j = true → b.hasId j = false) :=
    hinv.distinct.sublist (List.eraseP_sublist _)
  rcases completion_cases fails { w with tasks := w.tasks.eraseP (Task.hasId i) } t (some e)
    with ⟨⟨hh, _, hts, hc, hn, hcc⟩, hcan⟩ | ⟨_, hnc, _, hh, hts, hc, hn, hcc⟩
  · -- the task had been canceled: nothing but the log and the goroutine list changes
    have hcan2 : i ∈ w.canceled := by
      rcases hcan with hcan | hcan
      · simp at hcan
      · simpa [World.isCanceled, hctx, hinv.callers] using hcan
    exact {
      callers := by rw [hcc]; exact hinv.callers
      canceledLt := by rw [hc, hn]; exact hinv.canceledLt
      cancelLt := by rw [hh, hn]; exact hinv.cancelLt
      current := by
        rw [hh, hc, hts]
        intro hne
        obtain ⟨c, hbc, hcn, x, hx, hxc⟩ := hinv.current hne
        refine ⟨c, hbc, hcn, x, ?_, hxc⟩
        have hxi : ¬ (x.hasId i = true) := by
          intro hxi
          obtain ⟨j, q, hxctx, _, _⟩ := hinv.tasksOk x hx
          have h1 : j = c := (hasId_withCancel x j q c hxctx).1 hxc
          have h2 : j = i := (hasId_withCancel x j q i hxctx).1 hxi
          exact hcn (by rw [← h1, h2]; exact hcan2)
        exact (List.mem_eraseP_of_neg hxi).2 hx
      tasksOk := by
        rw [hh, hc, hts, hn]
        intro x hx
        exact hinv.tasksOk x (hsub x hx)
      allUpgrade := by rw [hh]; exact hinv.allUpgrade
      distinct := by rw [hts]; exact hdist }
  · -- the task was the current one: the batch is flushed
    have hnc2 : i ∉ w.canceled := by
      intro hm
      simp [World.isCanceled, hctx, hm] at hnc
    exact {
      callers := by rw [hcc]; exact hinv.callers
      canceledLt := by rw [hc, hn]; exact hinv.canceledLt
      cancelLt := by rw [hh, hn]; exact hinv.cancelLt
      current := by rw [hh]; intro hne; exact absurd rfl hne
      tasksOk := by
        rw [hh, hc, hts, hn]
        intro x hx
        obtain ⟨j, q, hxctx, hj, hxcur⟩ := hinv.tasksOk x (hsub x hx)
        refine ⟨j, q, hxctx, hj, Or.inl ?_⟩
        rcases hxcur with hxcur | ⟨hxb, _⟩
        · exact hxcur
        · rcases hcur with hcur | ⟨hb, _⟩
          · exact absurd hcur hnc2
          · rw [hb] at hxb
            simp only [Option.some.injEq] at hxb
            have hxi : x.hasId i = true := (hasId_withCancel x j q i hxctx).2 hxb.symm
            have := not_hasId_of_mem_eraseP i w.tasks hinv.distinct x hx
            rw [hxi] at this
            exact absurd this (by simp)
      allUpgrade := by rw [hh]; intro a ha; simp at ha
      distinct := by rw [hts]; exact hdist }

theorem Inv_step (fails : Nat → Bool) (w w1 : World) (s : Step)
    (h : step fails w s = some w1) (hs : s.failing = true) (hinv : Inv w) : Inv w1 := by
  cases s with
  | handle ctx a ack =>
    simp only [step] at h
    cases hH : Handle fails w ctx a ack with
    | none => simp [hH] at h
    | some res =>
      obtain ⟨e, w2⟩ := res
      simp only [hH, Option.some.injEq] at h
      subst h
      exact Inv_Handle fails w w2 ctx a ack e hH hinv
  | complete id err =>
    cases err with
    | none => simp [Step.failing] at hs
    | some e =>
      simp only [step] at h
      cases hf : w.tasks.find? (Task.hasId id) with
      | none => simp [hf] at h
      | some t =>
        simp only [hf, Option.some.injEq] at h
        subst h
        exact Inv_complete fails w id e t hf hinv
  | cancelCaller n => simp [Step.failing] at hs

theorem Inv_run (fails : Nat → Bool) (steps : List Step) :
    ∀ (w w1 : World), run fails w steps = some w1 → steps.all Step.failing = true →
      Inv w → Inv w1 := by
  induction steps with
  | nil =>
    intro w w1 h _ hinv
    simp only [run, Option.some.injEq] at h
    subst h
    exact hinv
  | cons s rest ih =>
    intro w w1 h hall hinv
    simp only [List.all_cons, Bool.and_eq_true] at hall
    simp only [run] at h
    cases hs : step fails w s with
    | none => simp [hs] at h
    | some w2 =>
      simp only [hs] at h
      exact ih w2 w1 h hall.2 (Inv_step fails w w2 s hs hall.1 hinv)

theorem batch_empty_of_no_tasks (w : World) (hinv : Inv w) (ht : w.tasks = []) :
    w.h.bkgActions = [] := by
  by_contra hne
  obtain ⟨_, _, _, x, hx, _⟩ := hinv.current hne
  rw [ht] at hx
  simp at hx

/-! ## `Handle` does not panic on a reachable world -/

theorem cancel_stored_step (fails : Nat → Bool) (w w1 : World) (s : Step)
    (h : step fails w s = some w1) (hall : AllUpgrade w.h.bkgActions)
    (hc : w.h.bkgActions ≠ [] → w.h.bkgCancel ≠ none) :
    w1.h.bkgActions ≠ [] → w1.h.bkgCancel ≠ none := by
  cases s with
  | handle ctx a ack =>
    simp only [step] at h
    cases hH : Handle fails w ctx a ack with
    | none => simp [hH] at h
    | some res =>
      obtain ⟨e, w2⟩ := res
      simp only [hH, Option.some.injEq] at h
      subst h
      rcases Handle_cases fails w w2 ctx a ack e hH hall with
        ⟨-, hh, -⟩ | ⟨r, -, -, hh, -⟩ | ⟨r, -, hb, hh, -⟩ | ⟨r, c, -, -, -, -, -, hh, -⟩
      · rw [hh]; exact hc
      · rw [hh]; simp
      · rw [hh]; intro _; exact hc hb
      · rw [hh]; simp
  | complete id err =>
    simp only [step] at h
    cases hf : w.tasks.find? (Task.hasId id) with
    | none => simp [hf] at h
    | some t =>
      simp only [hf, Option.some.injEq] at h
      subst h
      rcases completion_cases fails { w with tasks := w.tasks.eraseP (Task.hasId id) } t err
        with ⟨⟨hh, -⟩, -⟩ | ⟨-, -, -, hh, -⟩
      · rw [hh]; exact hc
      · rw [hh]; intro hne; exact absurd rfl hne
  | cancelCaller n =>
    simp only [step, Option.some.injEq] at h
    subst h
    exact hc

theorem cancel_stored_run (fails : Nat → Bool) (steps : List Step) :
    ∀ (w w1 : World), run fails w steps = some w1 → AllUpgrade w.h.bkgActions →
      (w.h.bkgActions ≠ [] → w.h.bkgCancel ≠ none) →
      (w1.h.bkgActions ≠ [] → w1.h.bkgCancel ≠ none) := by
  induction steps with
  | nil =>
    intro w w1 h _ hc
    simp only [run, Option.some.injEq] at h
    subst h
    exact hc
  | cons s rest ih =>
    intro w w1 h hall hc
    simp only [run] at h
    cases hs : step fails w s with
    | none => simp [hs] at h
    | some w2 =>
      simp only [hs] at h
      exact ih w2 w1 h (step_conserves fails w w2 s hs hall).1
        (cancel_stored_step fails w w2 s hs hall hc)

/-- In every world reached from a fresh handler, `Handle` returns: the nil-function panic of
the Supersede path cannot happen. -/
theorem Handle_returns_of_reachable (fails : Nat → Bool) (steps : List Step) (w : World)
    (h : run fails World.fresh steps = some w) (ctx : Nat) (a : Action) (ack : Nat) :
    ∃ e w1, Handle fails w ctx a ack = some (e, w1) := by
  have hall0 : AllUpgrade World.fresh.h.bkgActions := by
    intro x hx
    simp [World.fresh, NewUpgrade] at hx
  have hall := (run_conserves fails steps World.fresh w h hall0).1
  have hc := cancel_stored_run fails steps World.fresh w h hall0
    (by intro hne; exact absurd rfl hne)
  cases a with
  | other i t => exact ⟨_, _, rfl⟩
  | upgrade r =>
    cases hb : w.h.bkgActions with
    | nil =>
      obtain ⟨w1, hw, _⟩ := Handle_start_fields fails w ctx r ack hb
      exact ⟨none, w1, hw⟩
    | cons first rest =>
      have hfirst : first.asUpgrade ≠ none :=
        hall first (by rw [hb]; exact List.mem_cons_self _ _)
      cases first with
      | other i t => exact absurd rfl hfirst
      | upgrade b =>
        by_cases hv : r.Version = b.Version
        · obtain ⟨w1, hw, _⟩ := Handle_join_fields fails w ctx r ack b rest hb hv
          exact ⟨none, w1, hw⟩
        · cases hbc : w.h.bkgCancel with
          | none => exact absurd hbc (hc (by rw [hb]; simp))
          | some c =>
            obtain ⟨w1, hw, _⟩ := Handle_supersede_fields fails w ctx r ack b rest c hb hbc hv
            exact ⟨none, w1, hw⟩

/-! ## No double acknowledgment -/

/-- C8 (as amended). No double-ack: in every run from a fresh handler in which every accepted
request is submitted once, no request is passed to Ack twice, only accepted requests are passed
to Ack, and each accepted request is either passed to Ack exactly once or still in the saved
batch, never both.  If moreover no task returns nil, no caller context is canceled and no
goroutine is left running, every accepted request is passed to Ack exactly once. -/
theorem no_double_ack (fails : Nat → Bool) (steps : List Step) (w : World)
    (hrun : run fails World.fresh steps = some w)
    (honce : (accepted steps).Nodup) :
    (acked w.trace).Nodup ∧
    (∀ a ∈ acked w.trace, a ∈ accepted steps) ∧
    (∀ a ∈ accepted steps, (acked w.trace).count a + w.h.bkgActions.count a = 1) ∧
    (steps.all Step.failing = true → w.tasks = [] →
      ∀ a ∈ accepted steps, (acked w.trace).count a = 1) := by
  have hcons := fresh_conserves fails steps w hrun
  have hnd : (acked w.trace ++ w.h.bkgActions).Nodup := by rw [hcons]; exact honce
  have hcount : ∀ a ∈ accepted steps,
      (acked w.trace).count a + w.h.bkgActions.count a = 1 := by
    intro a ha
    rw [← List.count_append, hcons]
    exact List.count_eq_one_of_mem honce ha
  refine ⟨(List.nodup_append.1 hnd).1, ?_, hcount, ?_⟩
  · intro a ha
    rw [← hcons]
    exact List.mem_append_left _ ha
  · intro hfail htasks a ha
    have hb := batch_empty_of_no_tasks w (Inv_run fails steps World.fresh w hrun hfail Inv_fresh)
      htasks
    have := hcount a ha
    rw [hb] at this
    simpa using this

/-- Witness for C8: in `supersedeRun` both requests are passed to Ack exactly once. -/
theorem no_double_ack_witness :
    (accepted supersedeRun).Nodup ∧
    ∃ w, run (fun _ => false) World.fresh supersedeRun = some w ∧
      (acked w.trace).Nodup ∧
      (acked w.trace).count (Action.upgrade ⟨1, "8.1.0", "u"⟩) = 1 ∧
      (acked w.trace).count (Action.upgrade ⟨2, "8.2.0", "u"⟩) = 1 := by
  refine ⟨by decide, _, rfl, ?_, ?_, ?_⟩
  · exact (no_double_ack (fun _ => false) supersedeRun _ rfl (by decide)).1
  · exact (no_double_ack (fun _ => false) supersedeRun _ rfl (by decide)).2.2.2
      (by decide) rfl _ (by decide)
  · exact (no_double_ack (fun _ => false) supersedeRun _ rfl (by decide)).2.2.2
      (by decide) rfl _ (by decide)

/-- Counterexample to C8 as stated: one request is submitted once, its task returns nil and no
goroutine is left, yet the request appears in no Ack call. -/
theorem no_double_ack_counterexample :
    ∃ w, run (fun _ => false) World.fresh
        [Step.handle 3 (Action.upgrade ⟨7, "8.5.0", "https://artifacts"⟩) 1,
         Step.complete 0 none] = some w ∧
      w.tasks = [] ∧
      (accepted [Step.handle 3 (Action.upgrade ⟨7, "8.5.0", "https://artifacts"⟩) 1,
         Step.complete 0 none]).Nodup ∧
      (acked w.trace).count (Action.upgrade ⟨7, "8.5.0", "https://artifacts"⟩) ≠ 1 := by
  refine ⟨_, rfl, ?_, ?_, ?_⟩
  · simp [World.fresh, NewUpgrade, Task.hasId, completion, launch]
  · simp [accepted, Action.asUpgrade]
  · simp [World.fresh, NewUpgrade, Task.hasId, completion, launch, acked]

/-! ## Interleavings: basic facts -/

theorem moves_append (fails : Nat → Bool) (s : Sched) (m1 m2 : List Move) :
    moves fails s (m1 ++ m2) = (moves fails s m1).bind (fun s1 => moves fails s1 m2) := by
  induction m1 generalizing s with
  | nil => simp [moves]
  | cons a t ih =>
    simp only [List.cons_append, moves]
    cases move fails s a with
    | none => simp
    | some s1 => simpa using ih s1

theorem acceptedMoves_append (m1 m2 : List Move) :
    acceptedMoves (m1 ++ m2) = acceptedMoves m1 ++ acceptedMoves m2 := by
  induction m1 with
  | nil => simp [acceptedMoves]
  | cons a t ih =>
    cases a with
    | handle ctx a ack =>
      by_cases ha : a.asUpgrade.isSome = true <;> simp [acceptedMoves, ha, ih]
    | returns id err => simpa [acceptedMoves] using ih
    | flush id => simpa [acceptedMoves] using ih
    | cancelCaller n => simpa [acceptedMoves] using ih

/-- An atomic step is a short interleaving: a completion is the return of the task followed at
once, when the test passes, by the flush. -/
theorem step_as_moves (fails : Nat → Bool) (w w1 : World) (st : Step)
    (h : step fails w st = some w1) :
    ∃ ms, moves fails { w := w, waiting := [] } ms = some { w := w1, waiting := [] } ∧
      acceptedMoves ms = accepted [st] := by
  cases st with
  | handle ctx a ack =>
    refine ⟨[Move.handle ctx a ack], ?_, ?_⟩
    · simp only [step] at h
      cases hH : Handle fails w ctx a ack with
      | none => simp [hH] at h
      | some res =>
        obtain ⟨e, w2⟩ := res
        simp only [hH, Option.some.injEq] at h
        subst h
        simp [moves, move, hH]
    · by_cases ha : a.asUpgrade.isSome = true <;> simp [acceptedMoves, accepted, ha]
  | complete id err =>
    simp only [step] at h
    cases hf : w.tasks.find? (Task.hasId id) with
    | none => simp [hf] at h
    | some t =>
      simp only [hf, Option.some.injEq] at h
      subst h
      have hti : t.hasId id = true := List.find?_some hf
      cases err with
      | none =>
        refine ⟨[Move.returns id none], ?_, by simp [acceptedMoves, accepted]⟩
        simp [moves, move, hf, completion]
      | some e =>
        cases hc : completionFlushes
            { w with
              tasks := w.tasks.eraseP (Task.hasId id)
              logs := w.logs ++ [LogEntry.errorUpgradeFailed t.action.Version e] } t (some e) with
        | false =>
          refine ⟨[Move.returns id (some e)], ?_, by simp [acceptedMoves, accepted]⟩
          simp [moves, move, hf, completion, hc]
        | true =>
          refine ⟨[Move.returns id (some e), Move.flush id], ?_,
            by simp [acceptedMoves, accepted]⟩
          simp [moves, move, hf, completion, hc, hti]
  | cancelCaller n =>
    refine ⟨[Move.cancelCaller n], ?_, by simp [acceptedMoves, accepted]⟩
    simp only [step, Option.some.injEq] at h
    subst h
    simp [moves, move]

/-- Every atomic run is an interleaving with the same accepted requests and the same final
world. -/
theorem run_as_moves (fails : Nat → Bool) (steps : List Step) :
    ∀ (w w1 : World), run fails w steps = some w1 →
      ∃ ms, moves fails { w := w, waiting := [] } ms = some { w := w1, waiting := [] } ∧
        acceptedMoves ms = accepted steps := by
  induction steps with
  | nil =>
    intro w w1 h
    simp only [run, Option.some.injEq] at h
    subst h
    exact ⟨[], rfl, rfl⟩
  | cons st rest ih =>
    intro w w1 h
    simp only [run] at h
    cases hs : step fails w st with
    | none => simp [hs] at h
    | some w2 =>
      simp only [hs] at h
      obtain ⟨m1, hm1, ha1⟩ := step_as_moves fails w w2 st hs
      obtain ⟨m2, hm2, ha2⟩ := ih w2 w1 h
      refine ⟨m1 ++ m2, ?_, ?_⟩
      · rw [moves_append, hm1]; simpa using hm2
      · rw [acceptedMoves_append, ha1, ha2, accepted_cons st rest]

theorem move_cases (fails : Nat → Bool) (s s1 : Sched) (m : Move)
    (h : move fails s m = some s1) :
    (∃ ctx a ack e, m = Move.handle ctx a ack ∧ Handle fails s.w ctx a ack = some (e, s1.w)) ∨
    (s1.w.h = s.w.h ∧ s1.w.trace = s.w.trace ∧ acceptedMoves [m] = []) ∨
    (∃ t : Task, s1.w = ackActions fails s.w t.ctx t.ack ∧ acceptedMoves [m] = []) := by
  cases m with
  | handle ctx a ack =>
    left
    simp only [move] at h
    cases hH : Handle fails s.w ctx a ack with
    | none => simp [hH] at h
    | some res =>
      obtain ⟨e, w2⟩ := res
      simp only [hH, Option.some.injEq] at h
      subst h
      exact ⟨ctx, a, ack, e, rfl, hH⟩
  | returns id err =>
    right; left
    simp only [move] at h
    cases hf : s.w.tasks.find? (Task.hasId id) with
    | none => simp [hf] at h
    | some t =>
      simp only [hf] at h
      cases err with
      | none =>
        simp only [Option.some.injEq] at h
        subst h
        exact ⟨rfl, rfl, rfl⟩
      | some e =>
        simp only at h
        split at h <;>
        · simp only [Option.some.injEq] at h
          subst h
          exact ⟨rfl, rfl, rfl⟩
  | flush id =>
    right; right
    simp only [move] at h
    cases hf : s.waiting.find? (Task.hasId id) with
    | none => simp [hf] at h
    | some t =>
      simp only [hf, Option.some.injEq] at h
      subst h
      exact ⟨t, rfl, rfl⟩
  | cancelCaller n =>
    right; left
    simp only [move, Option.some.injEq] at h
    subst h
    exact ⟨rfl, rfl, rfl⟩

/-! ## Version homogeneity -/

theorem AllUpgrade_of_Homogeneous (l : List Action) (h : Homogeneous l) : AllUpgrade l := by
  obtain ⟨v, hv⟩ := h
  intro a ha
  obtain ⟨u, rfl, _⟩ := hv a ha
  simp [Action.asUpgrade]

theorem Handle_homogeneous (fails : Nat → Bool) (w w1 : World) (ctx : Nat) (a : Action)
    (ack : Nat) (e : Option String) (h : Handle fails w ctx a ack = some (e, w1))
    (hh : Homogeneous w.h.bkgActions) : Homogeneous w1.h.bkgActions := by
  have single : ∀ r : ActionUpgrade, Homogeneous [Action.upgrade r] := by
    intro r
    refine ⟨r.Version, ?_⟩
    intro x hx
    simp only [List.mem_singleton] at hx
    exact ⟨r, hx, rfl⟩
  cases a with
  | other i t =>
    simp only [Handle, Action.asUpgrade, Option.some.injEq, Prod.mk.injEq] at h
    obtain ⟨_, rfl⟩ := h
    exact hh
  | upgrade r =>
    cases hb : w.h.bkgActions with
    | nil =>
      obtain ⟨w2, hw, hfields⟩ := Handle_start_fields fails w ctx r ack hb
      rw [hw] at h
      simp only [Option.some.injEq, Prod.mk.injEq] at h
      obtain ⟨_, rfl⟩ := h
      rw [hfields.1]
      exact single r
    | cons first rest =>
      obtain ⟨v, hv⟩ := hh
      obtain ⟨b, hfirst, hbv⟩ := hv first (by rw [hb]; exact List.mem_cons_self _ _)
      subst hfirst
      by_cases hver : r.Version = b.Version
      · obtain ⟨w2, hw, hfields⟩ := Handle_join_fields fails w ctx r ack b rest hb hver
        rw [hw] at h
        simp only [Option.some.injEq, Prod.mk.injEq] at h
        obtain ⟨_, rfl⟩ := h
        rw [hfields.1]
        refine ⟨v, ?_⟩
        intro x hx
        simp only [List.mem_append, List.mem_singleton] at hx
        rcases hx with hx | rfl
        · exact hv x hx
        · exact ⟨r, rfl, hver.trans hbv⟩
      · cases hc : w.h.bkgCancel with
        | none =>
          simp [Handle, getAsyncContext, Action.asUpgrade, hb, hc, hver] at h
        | some c =>
          obtain ⟨w2, hw, hfields⟩ :=
            Handle_supersede_fields fails w ctx r ack b rest c hb hc hver
          rw [hw] at h
          simp only [Option.some.injEq, Prod.mk.injEq] at h
          obtain ⟨_, rfl⟩ := h
          rw [hfields.2.2.1]
          exact single r

theorem moves_homogeneous (fails : Nat → Bool) (ms : List Move) :
    ∀ (s s1 : Sched), moves fails s ms = some s1 → Homogeneous s.w.h.bkgActions →
      Homogeneous s1.w.h.bkgActions := by
  induction ms with
  | nil =>
    intro s s1 h hh
    simp only [moves, Option.some.injEq] at h
    subst h
    exact hh
  | cons m rest ih =>
    intro s s1 h hh
    simp only [moves] at h
    cases hm : move fails s m with
    | none => simp [hm] at h
    | some s2 =>
      simp only [hm] at h
      refine ih s2 s1 h ?_
      rcases move_cases fails s s2 m hm with ⟨ctx, a, ack, e, _, hH⟩ | ⟨hsame, _, _⟩ | ⟨t, hfl, _⟩
      · exact Handle_homogeneous fails s.w s2.w ctx a ack e hH hh
      · rw [hsame]; exact hh
      · rw [hfl, ackActions_h]
        exact ⟨"", by intro x hx; simp at hx⟩

theorem head_version_iff (l : List Action) (b : ActionUpgrade) (rest : List Action)
    (hl : l = Action.upgrade b :: rest) (hh : Homogeneous l) (r : ActionUpgrade) :
    r.Version = b.Version ↔ AllVersion r.Version l := by
  obtain ⟨v, hv⟩ := hh
  have hbv : b.Version = v := by
    obtain ⟨u, hu, huv⟩ := hv (Action.upgrade b) (by rw [hl]; exact List.mem_cons_self _ _)
    simp only [Action.upgrade.injEq] at hu
    rw [hu]; exact huv
  constructor
  · intro hr x hx
    obtain ⟨u, hu, huv⟩ := hv x hx
    exact ⟨u, hu, by rw [huv, hr, hbv]⟩
  · intro hall
    obtain ⟨u, hu, huv⟩ := hall (Action.upgrade b) (by rw [hl]; exact List.mem_cons_self _ _)
    simp only [Action.upgrade.injEq] at hu
    rw [hu]; exact huv.symm

/-- C11. Version homogeneity: in every state reached from a fresh handler by an interleaving of
`Handle` calls, task returns, flushes and caller cancellations, all saved actions are upgrade
requests for one version; so when the batch is not empty, a request has the version of the
first saved action exactly when it has the version of every saved action.  The same holds at
the end of every atomic run. -/
theorem version_homogeneity (fails : Nat → Bool) (ms : List Move) (s : Sched)
    (h : moves fails Sched.fresh ms = some s) :
    Homogeneous s.w.h.bkgActions ∧
    (∀ first rest, s.w.h.bkgActions = first :: rest →
      ∃ b, first = Action.upgrade b ∧
        ∀ r : ActionUpgrade, r.Version = b.Version ↔ AllVersion r.Version s.w.h.bkgActions) ∧
    (∀ steps w, run fails World.fresh steps = some w → Homogeneous w.h.bkgActions) := by
  have h0 : Homogeneous Sched.fresh.w.h.bkgActions :=
    ⟨"", by intro x hx; simp [Sched.fresh, World.fresh, NewUpgrade] at hx⟩
  have hh := moves_homogeneous fails ms Sched.fresh s h h0
  refine ⟨hh, ?_, ?_⟩
  · intro first rest hl
    obtain ⟨v, hv⟩ := hh
    obtain ⟨b, hb, _⟩ := hv first (by rw [hl]; exact List.mem_cons_self _ _)
    subst hb
    exact ⟨b, rfl, fun r => head_version_iff _ b rest hl ⟨v, hv⟩ r⟩
  · intro steps w hrun
    obtain ⟨ms2, hm2, _⟩ := run_as_moves fails steps World.fresh w hrun
    exact moves_homogeneous fails ms2 Sched.fresh _ hm2 h0

/-- Witness for C11: the interleaving `staleFlushMoves`, after which the batch holds the single
request for 8.2.0. -/
theorem version_homogeneity_witness :
    ∃ s, moves (fun _ => false) Sched.fresh staleFlushMoves = some s ∧
      Homogeneous s.w.h.bkgActions ∧
      s.w.h.bkgActions = [Action.upgrade ⟨2, "8.2.0", "u"⟩] := by
  refine ⟨_, rfl, ?_, ?_⟩
  · exact (version_homogeneity (fun _ => false) staleFlushMoves _ rfl).1
  · rfl

/-! ## Conservation of requests along an interleaving -/

theorem move_conserves (fails : Nat → Bool) (s s1 : Sched) (m : Move)
    (h : move fails s m = some s1) (hall : AllUpgrade s.w.h.bkgActions) :
    AllUpgrade s1.w.h.bkgActions ∧
    acked s1.w.trace ++ s1.w.h.bkgActions =
      acked s.w.trace ++ s.w.h.bkgActions ++ acceptedMoves [m] := by
  rcases move_cases fails s s1 m h with ⟨ctx, a, ack, e, hm, hH⟩ | ⟨hh, ht, hacc⟩ | ⟨t, hfl, hacc⟩
  · subst hm
    have hstep := step_handle_of_Handle fails s.w s1.w ctx a ack e hH
    obtain ⟨h1, h2⟩ := step_conserves fails s.w s1.w (Step.handle ctx a ack) hstep hall
    refine ⟨h1, ?_⟩
    rw [h2]
    by_cases ha : a.asUpgrade.isSome = true <;> simp [accepted, acceptedMoves, ha]
  · rw [hh, ht, hacc]
    exact ⟨hall, by simp⟩
  · rw [hfl, ackActions_h, ackActions_trace, hacc, acked_append, acked_append,
      acked_ackEvents]
    exact ⟨by intro a ha; simp at ha, by simp [acked]⟩

theorem moves_conserves (fails : Nat → Bool) (ms : List Move) :
    ∀ (s s1 : Sched), moves fails s ms = some s1 → AllUpgrade s.w.h.bkgActions →
      AllUpgrade s1.w.h.bkgActions ∧
      acked s1.w.trace ++ s1.w.h.bkgActions =
        acked s.w.trace ++ s.w.h.bkgActions ++ acceptedMoves ms := by
  induction ms with
  | nil =>
    intro s s1 h hall
    simp only [moves, Option.some.injEq] at h
    subst h
    exact ⟨hall, by simp [acceptedMoves]⟩
  | cons m rest ih =>
    intro s s1 h hall
    simp only [moves] at h
    cases hm : move fails s m with
    | none => simp [hm] at h
    | some s2 =>
      simp only [hm] at h
      obtain ⟨hall2, heq2⟩ := move_conserves fails s s2 m hm hall
      obtain ⟨hall1, heq1⟩ := ih s2 s1 h hall2
      refine ⟨hall1, ?_⟩
      have hc : acceptedMoves (m :: rest) = acceptedMoves [m] ++ acceptedMoves rest :=
        acceptedMoves_append [m] rest
      rw [heq1, heq2, hc]
      simp

theorem fresh_moves_conserves (fails : Nat → Bool) (ms : List Move) (s : Sched)
    (h : moves fails Sched.fresh ms = some s) :
    acked s.w.trace ++ s.w.h.bkgActions = acceptedMoves ms := by
  have hall : AllUpgrade Sched.fresh.w.h.bkgActions := by
    intro a ha
    simp [Sched.fresh, World.fresh, NewUpgrade] at ha
  have := (moves_conserves fails ms Sched.fresh s h hall).2
  simpa [Sched.fresh, World.fresh, NewUpgrade, acked] using this

/-- C19. Ack conservation: in every state reached from a fresh handler by an interleaving, the
requests passed to Ack so far followed by the saved batch are exactly the accepted requests, in
order of acceptance, hence equal as multisets; so a request accepted once is passed to Ack at
most once and is not in the batch once it has been passed to Ack. -/
theorem ack_conservation (fails : Nat → Bool) (ms : List Move) (s : Sched)
    (h : moves fails Sched.fresh ms = some s) :
    acked s.w.trace ++ s.w.h.bkgActions = acceptedMoves ms ∧
    ((acked s.w.trace : Multiset Action) + (s.w.h.bkgActions : Multiset Action)
      = (acceptedMoves ms : Multiset Action)) ∧
    (∀ a, (acceptedMoves ms).count a = 1 →
      (acked s.w.trace).count a ≤ 1 ∧ ¬ (a ∈ acked s.w.trace ∧ a ∈ s.w.h.bkgActions)) := by
  have hcons := fresh_moves_conserves fails ms s h
  refine ⟨hcons, ?_, ?_⟩
  · rw [Multiset.coe_add, hcons]
  · intro a ha
    rw [← hcons, List.count_append] at ha
    refine ⟨by omega, ?_⟩
    rintro ⟨h1, h2⟩
    have c1 : 0 < (acked s.w.trace).count a := List.count_pos_iff.2 h1
    have c2 : 0 < s.w.h.bkgActions.count a := List.count_pos_iff.2 h2
    omega

/-- Witness for C19: after `staleFlushMoves` the first request has been passed to Ack and the
second is saved. -/
theorem ack_conservation_witness :
    ∃ s, moves (fun _ => true) Sched.fresh staleFlushMoves = some s ∧
      acked s.w.trace ++ s.w.h.bkgActions =
        [Action.upgrade ⟨1, "8.1.0", "u"⟩, Action.upgrade ⟨2, "8.2.0", "u"⟩] := by
  refine ⟨_, rfl, ?_⟩
  exact (ack_conservation (fun _ => true) staleFlushMoves _ rfl).1

/-! ## The unlocked cancellation test -/

/-- C17 (evaluation at the failing interleaving). After `staleFlushMoves` the context of the
first task is canceled and the batch holds the superseding request; when the first task's
goroutine, which passed the test before being superseded, then takes the lock, it passes the
superseding request to Ack, calls Commit and empties the batch. -/
theorem stale_goroutine_flushes_superseding_batch :
    ∃ s1 s2, moves (fun _ => false) Sched.fresh staleFlushMoves = some s1 ∧
      s1.w.isCanceled (Ctx.withCancel 0 0) = true ∧
      s1.waiting = [{ ctx := Ctx.withCancel 0 0, action := ⟨1, "8.1.0", "u"⟩, ack := 0 }] ∧
      s1.w.h.bkgActions = [Action.upgrade ⟨2, "8.2.0", "u"⟩] ∧
      move (fun _ => false) s1 (Move.flush 0) = some s2 ∧
      s2.w.trace = s1.w.trace ++
        [Event.ack (Ctx.withCancel 0 0) (Action.upgrade ⟨2, "8.2.0", "u"⟩) 0,
         Event.commit (Ctx.withCancel 0 0) 0] ∧
      s2.w.h.bkgActions = [] ∧
      liveTasks s2.w = [{ ctx := Ctx.withCancel 1 0, action := ⟨2, "8.2.0", "u"⟩, ack := 0 }] :=
  ⟨_, _, rfl, by decide, by decide, by decide, rfl, by decide, by decide, by decide⟩

/-- C13 (evaluation at the failing interleaving). After `staleFlushMoves`, the flush of the
stale goroutine and a request for 8.3.0, two goroutines have not returned and run under
contexts that are not canceled: the task for 8.2.0 was neither canceled nor completed before
the task for 8.3.0 was started. -/
theorem two_live_tasks_after_stale_flush :
    ∃ s, moves (fun _ => false) Sched.fresh
        (staleFlushMoves ++
          [Move.flush 0, Move.handle 0 (Action.upgrade ⟨3, "8.3.0", "u"⟩) 0]) = some s ∧
      liveTasks s.w =
        [{ ctx := Ctx.withCancel 1 0, action := ⟨2, "8.2.0", "u"⟩, ack := 0 },
         { ctx := Ctx.withCancel 2 0, action := ⟨3, "8.3.0", "u"⟩, ack := 0 }] ∧
      s.w.canceled = [0] ∧
      launches s.w.trace = 3 :=
  ⟨_, rfl, by decide, by decide, by decide⟩

/-! ## The invariant of all atomic runs -/

theorem Inv0_fresh : Inv0 World.fresh where
  canceledLt := by intro i hi; simp [World.fresh] at hi
  cancelLt := by intro c hc; simp [World.fresh, NewUpgrade] at hc
  tasksOk := by intro t ht; simp [World.fresh] at ht
  allUpgrade := by intro a ha; simp [World.fresh, NewUpgrade] at ha
  distinct := by simp [World.fresh]

theorem Inv0_of_same (w w1 : World) (hinv : Inv0 w) (hh : w1.h = w.h)
    (hts : ∀ t ∈ w1.tasks, t ∈ w.tasks)
    (hd : w1.tasks.Pairwise (fun a b => ∀ i, a.hasId i = true → b.hasId i = false))
    (hc : w1.canceled = w.canceled) (hn : w1.nextCtx = w.nextCtx) : Inv0 w1 := by
  exact {
    canceledLt := by rw [hc, hn]; exact hinv.canceledLt
    cancelLt := by rw [hh, hn]; exact hinv.cancelLt
    tasksOk := by
      rw [hh, hc, hn]
      intro t ht
      exact hinv.tasksOk t (hts t ht)
    allUpgrade := by rw [hh]; exact hinv.allUpgrade
    distinct := hd }

theorem Inv0_of_launch (w w1 : World) (ctx : Nat) (r : ActionUpgrade) (ack : Nat)
    (hinv : Inv0 w)
    (hh : w1.h = { bkgActions := [Action.upgrade r], bkgCancel := some w.nextCtx })
    (hts : w1.tasks = w.tasks ++
      [{ ctx := Ctx.withCancel w.nextCtx ctx, action := r, ack := ack }])
    (hn : w1.nextCtx = w.nextCtx + 1)
    (hlt : ∀ i ∈ w1.canceled, i < w.nextCtx)
    (hold : ∀ t ∈ w.tasks, ∀ i parent, t.ctx = Ctx.withCancel i parent → i ∈ w1.canceled) :
    Inv0 w1 := by
  refine {
    canceledLt := ?_
    cancelLt := ?_
    tasksOk := ?_
    allUpgrade := ?_
    distinct := ?_ }
  · intro i hi
    rw [hn]
    exact Nat.lt_succ_of_lt (hlt i hi)
  · intro c hc
    rw [hh] at hc
    simp only [Option.some.injEq] at hc
    rw [hn, ← hc]
    exact Nat.lt_succ_self _
  · intro t ht
    rw [hts, List.mem_append, List.mem_singleton] at ht
    rcases ht with ht | rfl
    · obtain ⟨i, parent, hctx, hi, _⟩ := hinv.tasksOk t ht
      exact ⟨i, parent, hctx, by rw [hn]; exact Nat.lt_succ_of_lt hi,
        Or.inl (hold t ht i parent hctx)⟩
    · exact ⟨w.nextCtx, ctx, rfl, by rw [hn]; exact Nat.lt_succ_self _,
        Or.inr ⟨by rw [hh], by rw [hh]; simp⟩⟩
  · intro a ha
    rw [hh] at ha
    simp only [List.mem_singleton] at ha
    subst ha
    simp [Action.asUpgrade]
  · rw [hts, List.pairwise_append]
    refine ⟨hinv.distinct, by simp, ?_⟩
    intro a ha b hb i hai
    rw [List.mem_singleton] at hb
    subst hb
    obtain ⟨j, parent, hctx, hj, _⟩ := hinv.tasksOk a ha
    have hji : j = i := (hasId_withCancel a j parent i hctx).1 hai
    cases hbi : Task.hasId i
        { ctx := Ctx.withCancel w.nextCtx ctx, action := r, ack := ack } with
    | false => rfl
    | true =>
      have : w.nextCtx = i := (hasId_withCancel _ w.nextCtx ctx i rfl).1 hbi
      omega

theorem Inv0_Handle (fails : Nat → Bool) (w w1 : World) (ctx : Nat) (a : Action) (ack : Nat)
    (e : Option String) (h : Handle fails w ctx a ack = some (e, w1)) (hinv : Inv0 w) :
    Inv0 w1 := by
  rcases Handle_cases fails w w1 ctx a ack e h hinv.allUpgrade with
    ⟨-, hh, -, hts, hc, hn, -⟩ | ⟨r, -, hb, hh, -, hts, hc, hn, -⟩ |
    ⟨r, -, hb, hh, -, hts, hc, hn, -⟩ | ⟨r, c, -, hb, hbc, -, hc, hh, hts, hn, -⟩
  · exact Inv0_of_same w w1 hinv hh (by rw [hts]; exact fun t ht => ht)
      (by rw [hts]; exact hinv.distinct) hc hn
  · refine Inv0_of_launch w w1 ctx r ack hinv hh hts hn ?_ ?_
    · rw [hc]; exact hinv.canceledLt
    · intro t ht i parent hctx
      obtain ⟨j, q, hctx2, _, hj⟩ := hinv.tasksOk t ht
      rw [hctx] at hctx2
      simp only [Ctx.withCancel.injEq] at hctx2
      rcases hj with hj | ⟨_, hne⟩
      · rw [hc, hctx2.1]; exact hj
      · exact absurd hb hne
  · have hne : w.h.bkgActions ++ [Action.upgrade r] ≠ [] := by simp
    exact {
      canceledLt := by rw [hc, hn]; exact hinv.canceledLt
      cancelLt := by rw [hh, hn]; exact hinv.cancelLt
      tasksOk := by
        intro t ht
        rw [hts] at ht
        obtain ⟨i, parent, hctx, hi, hj⟩ := hinv.tasksOk t ht
        refine ⟨i, parent, hctx, by rw [hn]; exact hi, ?_⟩
        rcases hj with hj | ⟨hj, _⟩
        · exact Or.inl (by rw [hc]; exact hj)
        · exact Or.inr ⟨by rw [hh]; exact hj, by rw [hh]; exact hne⟩
      allUpgrade := by
        intro x hx
        rw [hh] at hx
        simp only [List.mem_append, List.mem_singleton] at hx
        rcases hx with hx | rfl
        · exact hinv.allUpgrade x hx
        · simp [Action.asUpgrade]
      distinct := by rw [hts]; exact hinv.distinct }
  · refine Inv0_of_launch w w1 ctx r ack hinv hh hts hn ?_ ?_
    · intro i hi
      rw [hc, List.mem_append, List.mem_singleton] at hi
      rcases hi with hi | rfl
      · exact hinv.canceledLt i hi
      · exact hinv.cancelLt i hbc
    · intro t ht i parent hctx
      obtain ⟨j, q, hctx2, _, hj⟩ := hinv.tasksOk t ht
      rw [hctx] at hctx2
      simp only [Ctx.withCancel.injEq] at hctx2
      rw [hc, List.mem_append, List.mem_singleton, hctx2.1]
      rcases hj with hj | ⟨hj, _⟩
      · exact Or.inl hj
      · right
        rw [hbc] at hj
        simp only [Option.some.injEq] at hj
        exact hj.symm

theorem Inv0_complete (fails : Nat → Bool) (w : World) (id : Nat) (err : Option String)
    (t : Task) (hf : w.tasks.find? (Task.hasId id) = some t) (hinv : Inv0 w) :
    Inv0 (completion fails { w with tasks := w.tasks.eraseP (Task.hasId id) } t err) := by
  have htm : t ∈ w.tasks := List.mem_of_find?_eq_some hf
  have hti : t.hasId id = true := List.find?_some hf
  obtain ⟨i, parent, hctx, _, hcur⟩ := hinv.tasksOk t htm
  have hid : i = id := (hasId_withCancel t i parent id hctx).1 hti
  subst hid
  have hsub : ∀ x ∈ w.tasks.eraseP (Task.hasId i), x ∈ w.tasks :=
    fun x hx => List.mem_of_mem_eraseP hx
  have hdist : (w.tasks.eraseP (Task.hasId i)).Pairwise
      (fun a b => ∀ j, a.hasId j = true → b.hasId j = false) :=
    hinv.distinct.sublist (List.eraseP_sublist _)
  rcases completion_cases fails { w with tasks := w.tasks.eraseP (Task.hasId i) } t err
    with ⟨⟨hh, _, hts, hc, hn, _⟩, _⟩ | ⟨_, hnc, _, hh, hts, hc, hn, _⟩
  · exact Inv0_of_same w _ hinv hh (by rw [hts]; exact hsub) (by rw [hts]; exact hdist) hc hn
  · have hnc2 : i ∉ w.canceled := by
      intro hm
      simp [World.isCanceled, hctx, hm] at hnc
    exact {
      canceledLt := by rw [hc, hn]; exact hinv.canceledLt
      cancelLt := by rw [hh, hn]; exact hinv.cancelLt
      tasksOk := by
        rw [hh, hc, hts, hn]
        intro x hx
        obtain ⟨j, q, hxctx, hj, hxcur⟩ := hinv.tasksOk x (hsub x hx)
        refine ⟨j, q, hxctx, hj, Or.inl ?_⟩
        rcases hxcur with hxcur | ⟨hxb, _⟩
        · exact hxcur
        · rcases hcur with hcur | ⟨hb, _⟩
          · exact absurd hcur hnc2
          · rw [hb] at hxb
            simp only [Option.some.injEq] at hxb
            have hxi : x.hasId i = true := (hasId_withCancel x j q i hxctx).2 hxb.symm
            have := not_hasId_of_mem_eraseP i w.tasks hinv.distinct x hx
            rw [hxi] at this
            exact absurd this (by simp)
      allUpgrade := by rw [hh]; intro a ha; simp at ha
      distinct := by rw [hts]; exact hdist }

theorem Inv0_step (fails : Nat → Bool) (w w1 : World) (s : Step)
    (h : step fails w s = some w1) (hinv : Inv0 w) : Inv0 w1 := by
  cases s with
  | handle ctx a ack =>
    simp only [step] at h
    cases hH : Handle fails w ctx a ack with
    | none => simp [hH] at h
    | some res =>
      obtain ⟨e, w2⟩ := res
      simp only [hH, Option.some.injEq] at h
      subst h
      exact Inv0_Handle fails w w2 ctx a ack e hH hinv
  | complete id err =>
    simp only [step] at h
    cases hf : w.tasks.find? (Task.hasId id) with
    | none => simp [hf] at h
    | some t =>
      simp only [hf, Option.some.injEq] at h
      subst h
      exact Inv0_complete fails w id err t hf hinv
  | cancelCaller n =>
    simp only [step, Option.some.injEq] at h
    subst h
    exact Inv0_of_same w _ hinv rfl (fun t ht => ht) hinv.distinct rfl rfl

theorem Inv0_run (fails : Nat → Bool) (steps : List Step) :
    ∀ (w w1 : World), run fails w steps = some w1 → Inv0 w → Inv0 w1 := by
  induction steps with
  | nil =>
    intro w w1 h hinv
    simp only [run, Option.some.injEq] at h
    subst h
    exact hinv
  | cons s rest ih =>
    intro w w1 h hinv
    simp only [run] at h
    cases hs : step fails w s with
    | none => simp [hs] at h
    | some w2 =>
      simp only [hs] at h
      exact ih w2 w1 h (Inv0_step fails w w2 s hs hinv)

/-- A goroutine that has not returned and whose context is not canceled is the one whose cancel
function is stored, and a batch is saved. -/
theorem live_is_current (w : World) (hinv : Inv0 w) (t : Task) (ht : t ∈ w.tasks)
    (hlive : w.isCanceled t.ctx = false) :
    w.h.bkgActions ≠ [] ∧ ∃ i parent, t.ctx = Ctx.withCancel i parent ∧ w.h.bkgCancel = some i := by
  obtain ⟨i, parent, hctx, _, hcur⟩ := hinv.tasksOk t ht
  rcases hcur with hcan | ⟨hb, hne⟩
  · simp [World.isCanceled, hctx, hcan] at hlive
  · exact ⟨hne, i, parent, hctx, hb⟩

theorem mem_liveTasks (w : World) (t : Task) :
    t ∈ liveTasks w ↔ t ∈ w.tasks ∧ w.isCanceled t.ctx = false := by
  simp [liveTasks]

/-- With atomic completions at most one goroutine is live at any time. -/
theorem atomic_at_most_one_live (fails : Nat → Bool) (steps : List Step) (w : World)
    (h : run fails World.fresh steps = some w) : (liveTasks w).length ≤ 1 := by
  have hinv := Inv0_run fails steps World.fresh w h Inv0_fresh
  have hd : (liveTasks w).Pairwise (fun a b => ∀ i, a.hasId i = true → b.hasId i = false) :=
    hinv.distinct.sublist (List.filter_sublist _)
  cases hl : liveTasks w with
  | nil => simp
  | cons a rest =>
    cases rest with
    | nil => simp
    | cons b rest2 =>
      exfalso
      rw [hl, List.pairwise_cons] at hd
      have ha : a ∈ liveTasks w := by rw [hl]; simp
      have hb : b ∈ liveTasks w := by rw [hl]; simp
      obtain ⟨ha1, ha2⟩ := (mem_liveTasks w a).1 ha
      obtain ⟨hb1, hb2⟩ := (mem_liveTasks w b).1 hb
      obtain ⟨_, i, p, hactx, hai⟩ := live_is_current w hinv a ha1 ha2
      obtain ⟨_, j, q, hbctx, hbj⟩ := live_is_current w hinv b hb1 hb2
      have hij : j = i := by
        rw [hai] at hbj
        simp only [Option.some.injEq] at hbj
        exact hbj.symm
      have h1 : a.hasId i = true := (hasId_withCancel a i p i hactx).2 rfl
      have h2 : b.hasId i = true := (hasId_withCancel b j q i hbctx).2 hij
      have h3 := hd.1 b (by simp) i h1
      rw [h2] at h3
      exact absurd h3 (by simp)

/-! ## Batch and task -/

/-- Batch and task with atomic completions: at the end of every atomic run from a fresh
handler, a goroutine that has not returned and whose context is not canceled exists only if the
batch is not empty; and if no task has returned nil and no caller context has been canceled,
the batch is not empty exactly when such a goroutine exists. -/
theorem batch_task_correspondence (fails : Nat → Bool) (steps : List Step) (w : World)
    (h : run fails World.fresh steps = some w) :
    (liveTasks w ≠ [] → w.h.bkgActions ≠ []) ∧
    (steps.all Step.failing = true → (w.h.bkgActions ≠ [] ↔ liveTasks w ≠ [])) := by
  have hinv0 := Inv0_run fails steps World.fresh w h Inv0_fresh
  have hlive : liveTasks w ≠ [] → w.h.bkgActions ≠ [] := by
    intro hne
    obtain ⟨t, ht⟩ := List.exists_mem_of_ne_nil _ hne
    obtain ⟨ht1, ht2⟩ := (mem_liveTasks w t).1 ht
    exact (live_is_current w hinv0 t ht1 ht2).1
  refine ⟨hlive, fun hfail => ⟨?_, hlive⟩⟩
  intro hne
  have hinv := Inv_run fails steps World.fresh w h hfail Inv_fresh
  obtain ⟨c, _, hcn, t, ht, htc⟩ := hinv.current hne
  obtain ⟨i, parent, hctx, _, _⟩ := hinv.tasksOk t ht
  have hic : i = c := (hasId_withCancel t i parent c hctx).1 htc
  have hmem : t ∈ liveTasks w := by
    rw [mem_liveTasks]
    refine ⟨ht, ?_⟩
    simp [World.isCanceled, hctx, hic, hcn, hinv.callers]
  exact List.ne_nil_of_mem hmem

/-- An instance of `batch_task_correspondence`: two requests for one version; the batch is
saved and the first task is live. -/
theorem batch_task_correspondence_witness :
    ∃ w, run (fun _ => false) World.fresh
        (submitAll [(0, ⟨1, "8.1.0", "u"⟩, 0), (0, ⟨2, "8.1.0", "u"⟩, 0)]) = some w ∧
      (w.h.bkgActions ≠ [] ↔ liveTasks w ≠ []) ∧
      liveTasks w = [{ ctx := Ctx.withCancel 0 0, action := ⟨1, "8.1.0", "u"⟩, ack := 0 }] := by
  refine ⟨_, rfl, ?_, by decide⟩
  exact (batch_task_correspondence (fun _ => false)
    (submitAll [(0, ⟨1, "8.1.0", "u"⟩, 0), (0, ⟨2, "8.1.0", "u"⟩, 0)]) _ rfl).2 (by decide)

/-- Counterexample to C12 as stated: after one request and the return of its task with a nil
error, the batch is not empty although no goroutine is left. -/
theorem batch_without_task_counterexample :
    ∃ w, run (fun _ => false) World.fresh
        [Step.handle 0 (Action.upgrade ⟨1, "8.4.0", "https://artifacts"⟩) 0,
         Step.complete 0 none] = some w ∧
      w.h.bkgActions ≠ [] ∧ w.tasks = [] :=
  ⟨_, rfl, by decide, by decide⟩

/-! ## Idempotent clearing -/

/-- C14. Idempotent clearing: after `ackActions` the batch is empty, and a following `Handle`
of an upgrade request does what it does on a fresh handler: it returns nil, the batch becomes
the request alone, the trace grows by exactly one executor launch for the request (no Ack, no
Commit, no cancel call), one goroutine is added and no context is canceled.  Only the number of
the derived context differs. -/
theorem flush_then_Handle_is_start (fails : Nat → Bool) (w : World) (fctx : Ctx) (fack : Nat)
    (ctx : Nat) (r : ActionUpgrade) (ack : Nat) :
    (ackActions fails w fctx fack).h.bkgActions = [] ∧
    ∃ w1 w2,
      Handle fails (ackActions fails w fctx fack) ctx (Action.upgrade r) ack = some (none, w1) ∧
      Handle fails World.fresh ctx (Action.upgrade r) ack = some (none, w2) ∧
      w1.h.bkgActions = [Action.upgrade r] ∧
      w2.h.bkgActions = [Action.upgrade r] ∧
      w1.trace = (ackActions fails w fctx fack).trace ++
        [Event.upgrade (Ctx.withCancel w.nextCtx ctx) r.Version r.SourceURI r false] ∧
      w2.trace = [Event.upgrade (Ctx.withCancel 0 ctx) r.Version r.SourceURI r false] ∧
      w1.tasks = w.tasks ++ [{ ctx := Ctx.withCancel w.nextCtx ctx, action := r, ack := ack }] ∧
      w2.tasks = [{ ctx := Ctx.withCancel 0 ctx, action := r, ack := ack }] ∧
      w1.canceled = w.canceled ∧
      w2.canceled = [] := by
  have hb : (ackActions fails w fctx fack).h.bkgActions = [] := by rw [ackActions_h]
  obtain ⟨hn, hc, _, hts⟩ := ackActions_frame fails w fctx fack
  obtain ⟨w1, hw1, hh1, ht1, hts1, hc1, _, _⟩ :=
    Handle_start_fields fails (ackActions fails w fctx fack) ctx r ack hb
  obtain ⟨w2, hw2, hh2, ht2, hts2, hc2, _, _⟩ :=
    Handle_start_fields fails World.fresh ctx r ack rfl
  refine ⟨hb, w1, w2, hw1, hw2, by rw [hh1], by rw [hh2], ?_, ?_, ?_, ?_, ?_, ?_⟩
  · rw [ht1, hn]
  · rw [ht2]; rfl
  · rw [hts1, hts, hn]
  · rw [hts2]; rfl
  · rw [hc1, hc]
  · rw [hc2]; rfl

/-! ## Batch and task along interleavings -/

theorem distinctIds_symm (a b : Task) (h : ∀ i, a.hasId i = true → b.hasId i = false) :
    ∀ i, b.hasId i = true → a.hasId i = false := by
  intro i hb
  cases ha : a.hasId i with
  | false => rfl
  | true =>
    have := h i ha
    rw [hb] at this
    exact absurd this (by simp)

theorem perm_find_eraseP (p : Task → Bool) (l : List Task) (t : Task)
    (h : l.find? p = some t) : l.Perm (t :: l.eraseP p) := by
  induction l with
  | nil => simp at h
  | cons a rest ih =>
    cases hp : p a with
    | true =>
      simp only [List.find?_cons, hp, Option.some.injEq] at h
      subst h
      simp [List.eraseP_cons, hp]
    | false =>
      simp only [List.find?_cons, hp] at h
      rw [List.eraseP_cons, hp]
      exact (List.Perm.cons a (ih h)).trans (List.Perm.swap t a _)

theorem distinct_of_perm (l1 l2 : List Task) (hp : l1.Perm l2)
    (hd : l1.Pairwise (fun a b => ∀ i, a.hasId i = true → b.hasId i = false)) :
    l2.Pairwise (fun a b => ∀ i, a.hasId i = true → b.hasId i = false) :=
  (List.Perm.pairwise_iff (fun {x y} h => distinctIds_symm x y h) hp).1 hd

/-- `Handle` keeps the invariant when further goroutines `T` are counted in front of the
running ones. -/
theorem Inv0_Handle_with (fails : Nat → Bool) (T : List Task) (w w1 : World) (ctx : Nat)
    (a : Action) (ack : Nat) (e : Option String)
    (h : Handle fails w ctx a ack = some (e, w1))
    (hinv : Inv0 { w with tasks := T ++ w.tasks }) :
    Inv0 { w1 with tasks := T ++ w1.tasks } := by
  rcases Handle_cases fails w w1 ctx a ack e h hinv.allUpgrade with
    ⟨-, hh, -, hts, hc, hn, -⟩ | ⟨r, -, hb, hh, -, hts, hc, hn, -⟩ |
    ⟨r, -, hb, hh, -, hts, hc, hn, -⟩ | ⟨r, c, -, hb, hbc, -, hc, hh, hts, hn, -⟩
  · exact Inv0_of_same _ _ hinv hh (by simp only [hts]; exact fun t ht => ht)
      (by simp only [hts]; exact hinv.distinct) hc hn
  · refine Inv0_of_launch _ _ ctx r ack hinv hh (by simp [hts]) hn ?_ ?_
    · simp only [hc]; exact hinv.canceledLt
    · intro t ht i parent hctx
      obtain ⟨j, q, hctx2, _, hj⟩ := hinv.tasksOk t ht
      rw [hctx] at hctx2
      simp only [Ctx.withCancel.injEq] at hctx2
      rcases hj with hj | ⟨_, hne⟩
      · simp only [hc]; rw [hctx2.1]; exact hj
      · exact absurd hb hne
  · have hne : w.h.bkgActions ++ [Action.upgrade r] ≠ [] := by simp
    exact {
      canceledLt := by simp only [hc, hn]; exact hinv.canceledLt
      cancelLt := by simp only [hh, hn]; exact hinv.cancelLt
      tasksOk := by
        intro t ht
        simp only [hts] at ht
        obtain ⟨i, parent, hctx, hi, hj⟩ := hinv.tasksOk t ht
        refine ⟨i, parent, hctx, by simp only [hn]; exact hi, ?_⟩
        rcases hj with hj | ⟨hj, _⟩
        · exact Or.inl (by simp only [hc]; exact hj)
        · exact Or.inr ⟨by simp only [hh]; exact hj, by simp only [hh]; exact hne⟩
      allUpgrade := by
        intro x hx
        simp only [hh] at hx
        simp only [List.mem_append, List.mem_singleton] at hx
        rcases hx with hx | rfl
        · exact hinv.allUpgrade x hx
        · simp [Action.asUpgrade]
      distinct := by simp only [hts]; exact hinv.distinct }
  · refine Inv0_of_launch _ _ ctx r ack hinv hh (by simp [hts]) hn ?_ ?_
    · intro i hi
      simp only [hc, List.mem_append, List.mem_singleton] at hi
      rcases hi with hi | rfl
      · exact hinv.canceledLt i hi
      · exact hinv.cancelLt i hbc
    · intro t ht i parent hctx
      obtain ⟨j, q, hctx2, _, hj⟩ := hinv.tasksOk t ht
      rw [hctx] at hctx2
      simp only [Ctx.withCancel.injEq] at hctx2
      simp only [hc, List.mem_append, List.mem_singleton]
      rw [hctx2.1]
      rcases hj with hj | ⟨hj, _⟩
      · exact Or.inl hj
      · right
        have hj2 : w.h.bkgCancel = some j := hj
        rw [hbc] at hj2
        simp only [Option.some.injEq] at hj2
        exact hj2.symm

theorem Inv0_move (fails : Nat → Bool) (s s1 : Sched) (m : Move)
    (h : move fails s m = some s1)
    (hok : ∀ id, m = Move.flush id → id ∉ s.w.canceled)
    (hinv : Inv0 s.all) : Inv0 s1.all := by
  cases m with
  | handle ctx a ack =>
    simp only [move] at h
    cases hH : Handle fails s.w ctx a ack with
    | none => simp [hH] at h
    | some res =>
      obtain ⟨e, w2⟩ := res
      simp only [hH, Option.some.injEq] at h
      subst h
      exact Inv0_Handle_with fails s.waiting s.w w2 ctx a ack e hH hinv
  | returns id err =>
    simp only [move] at h
    cases hf : s.w.tasks.find? (Task.hasId id) with
    | none => simp [hf] at h
    | some t =>
      simp only [hf] at h
      have hperm : (s.waiting ++ s.w.tasks).Perm
          (t :: (s.waiting ++ s.w.tasks.eraseP (Task.hasId id))) :=
        ((perm_find_eraseP _ _ t hf).append_left s.waiting).trans List.perm_middle
      have hd := distinct_of_perm _ _ hperm hinv.distinct
      have hsame : Inv0 { s.w with tasks := s.waiting ++ s.w.tasks.eraseP (Task.hasId id) } :=
        Inv0_of_same s.all _ hinv rfl
          (fun x hx => hperm.mem_iff.2 (List.mem_cons_of_mem _ hx))
          (List.pairwise_cons.1 hd).2 rfl rfl
      cases err with
      | none =>
        simp only [Option.some.injEq] at h
        subst h
        exact hsame
      | some e =>
        simp only at h
        split at h
        · simp only [Option.some.injEq] at h
          subst h
          have hperm2 : ((s.waiting ++ [t]) ++ s.w.tasks.eraseP (Task.hasId id)).Perm
              (t :: (s.waiting ++ s.w.tasks.eraseP (Task.hasId id))) := by
            rw [List.append_assoc]
            exact List.perm_middle
          exact Inv0_of_same s.all _ hinv rfl
            (fun x hx => hperm.mem_iff.2 (hperm2.mem_iff.1 hx))
            (distinct_of_perm _ _ hperm2.symm hd) rfl rfl
        · simp only [Option.some.injEq] at h
          subst h
          exact Inv0_of_same _ _ hsame rfl (fun x hx => hx) hsame.distinct rfl rfl
  | flush id =>
    simp only [move] at h
    cases hf : s.waiting.find? (Task.hasId id) with
    | none => simp [hf] at h
    | some t =>
      simp only [hf, Option.some.injEq] at h
      subst h
      have hti : t.hasId id = true := List.find?_some hf
      have hperm : (s.waiting ++ s.w.tasks).Perm
          (t :: (s.waiting.eraseP (Task.hasId id) ++ s.w.tasks)) :=
        (perm_find_eraseP _ _ t hf).append_right s.w.tasks
      have hd := List.pairwise_cons.1 (distinct_of_perm _ _ hperm hinv.distinct)
      have htm : t ∈ s.all.tasks := hperm.mem_iff.2 (List.mem_cons_self _ _)
      obtain ⟨i, parent, hctx, _, hcur⟩ := hinv.tasksOk t htm
      have hid : i = id := (hasId_withCancel t i parent id hctx).1 hti
      subst hid
      have hnc : i ∉ s.w.canceled := hok i rfl
      obtain ⟨hn, hc, _, hts⟩ := ackActions_frame fails s.w t.ctx t.ack
      have hh := ackActions_h fails s.w t.ctx t.ack
      exact {
        canceledLt := by
          show ∀ j ∈ (ackActions fails s.w t.ctx t.ack).canceled,
            j < (ackActions fails s.w t.ctx t.ack).nextCtx
          rw [hc, hn]; exact hinv.canceledLt
        cancelLt := by
          show ∀ c, (ackActions fails s.w t.ctx t.ack).h.bkgCancel = some c →
            c < (ackActions fails s.w t.ctx t.ack).nextCtx
          rw [hh, hn]; exact hinv.cancelLt
        tasksOk := by
          show ∀ x ∈ s.waiting.eraseP (Task.hasId i) ++ (ackActions fails s.w t.ctx t.ack).tasks,
            ∃ j q, x.ctx = Ctx.withCancel j q ∧ j < (ackActions fails s.w t.ctx t.ack).nextCtx ∧
              (j ∈ (ackActions fails s.w t.ctx t.ack).canceled ∨
                ((ackActions fails s.w t.ctx t.ack).h.bkgCancel = some j ∧
                  (ackActions fails s.w t.ctx t.ack).h.bkgActions ≠ []))
          rw [hh, hc, hts, hn]
          intro x hx
          obtain ⟨j, q, hxctx, hj, hxcur⟩ :=
            hinv.tasksOk x (hperm.mem_iff.2 (List.mem_cons_of_mem _ hx))
          refine ⟨j, q, hxctx, hj, Or.inl ?_⟩
          rcases hxcur with hxcur | ⟨hxb, _⟩
          · exact hxcur
          · rcases hcur with hcur | ⟨hb, _⟩
            · exact absurd hcur hnc
            · have hb2 : s.w.h.bkgCancel = some i := hb
              have hxb2 : s.w.h.bkgCancel = some j := hxb
              rw [hb2] at hxb2
              simp only [Option.some.injEq] at hxb2
              have hxi : x.hasId i = true := (hasId_withCancel x j q i hxctx).2 hxb2.symm
              have := hd.1 x hx i hti
              rw [hxi] at this
              exact absurd this (by simp)
        allUpgrade := by
          show AllUpgrade (ackActions fails s.w t.ctx t.ack).h.bkgActions
          rw [hh]; intro a ha; simp at ha
        distinct := by
          show (s.waiting.eraseP (Task.hasId i) ++ (ackActions fails s.w t.ctx t.ack).tasks).Pairwise _
          rw [hts]; exact hd.2 }
  | cancelCaller n =>
    simp only [move, Option.some.injEq] at h
    subst h
    exact Inv0_of_same s.all _ hinv rfl (fun t ht => ht) hinv.distinct rfl rfl

/-- In interleavings of failing moves without stale flush, a saved batch always has its
goroutine: the one whose cancel function is stored is running or waiting, not canceled. -/
theorem current_move (fails : Nat → Bool) (s s1 : Sched) (m : Move)
    (h : move fails s m = some s1) (hfail : m.failing = true)
    (hinv : Inv0 s.all)
    (hcallers : s.w.callerCanceled = [])
    (hcur : s.w.h.bkgActions ≠ [] →
      ∃ c, s.w.h.bkgCancel = some c ∧ c ∉ s.w.canceled ∧
        ∃ t ∈ s.waiting ++ s.w.tasks, t.hasId c = true) :
    s1.w.callerCanceled = [] ∧
    (s1.w.h.bkgActions ≠ [] →
      ∃ c, s1.w.h.bkgCancel = some c ∧ c ∉ s1.w.canceled ∧
        ∃ t ∈ s1.waiting ++ s1.w.tasks, t.hasId c = true) := by
  cases m with
  | handle ctx a ack =>
    simp only [move] at h
    cases hH : Handle fails s.w ctx a ack with
    | none => simp [hH] at h
    | some res =>
      obtain ⟨e, w2⟩ := res
      simp only [hH, Option.some.injEq] at h
      subst h
      have hnew : ∀ (r : ActionUpgrade), w2.tasks = s.w.tasks ++
          [{ ctx := Ctx.withCancel s.w.nextCtx ctx, action := r, ack := ack }] →
          ∃ t ∈ s.waiting ++ w2.tasks, t.hasId s.w.nextCtx = true := by
        intro r hts
        refine ⟨{ ctx := Ctx.withCancel s.w.nextCtx ctx, action := r, ack := ack }, ?_, ?_⟩
        · rw [hts]; simp
        · simp [Task.hasId]
      rcases Handle_cases fails s.w w2 ctx a ack e hH hinv.allUpgrade with
        ⟨-, hh, -, hts, hc, -, hcc⟩ | ⟨r, -, hb, hh, -, hts, hc, -, hcc⟩ |
        ⟨r, -, hb, hh, -, hts, hc, -, hcc⟩ | ⟨r, c, -, hb, hbc, -, hc, hh, hts, -, hcc⟩
      · refine ⟨hcc.trans hcallers, ?_⟩
        show w2.h.bkgActions ≠ [] → ∃ c, w2.h.bkgCancel = some c ∧ c ∉ w2.canceled ∧
          ∃ t ∈ s.waiting ++ w2.tasks, t.hasId c = true
        rw [hh, hc, hts]
        exact hcur
      · refine ⟨hcc.trans hcallers, fun _ => ⟨s.w.nextCtx, by rw [hh], ?_, hnew r hts⟩⟩
        rw [hc]
        exact fun hm => Nat.lt_irrefl _ (hinv.canceledLt _ hm)
      · refine ⟨hcc.trans hcallers, fun _ => ?_⟩
        show ∃ c, w2.h.bkgCancel = some c ∧ c ∉ w2.canceled ∧
          ∃ t ∈ s.waiting ++ w2.tasks, t.hasId c = true
        rw [hh, hc, hts]
        exact hcur hb
      · refine ⟨hcc.trans hcallers, fun _ => ⟨s.w.nextCtx, by rw [hh], ?_, hnew r hts⟩⟩
        rw [hc, List.mem_append, List.mem_singleton]
        rintro (hm | hm)
        · exact Nat.lt_irrefl _ (hinv.canceledLt _ hm)
        · have := hinv.cancelLt c hbc
          rw [← hm] at this
          exact Nat.lt_irrefl _ this
  | returns id err =>
    cases err with
    | none => simp [Move.failing] at hfail
    | some e =>
      simp only [move] at h
      cases hf : s.w.tasks.find? (Task.hasId id) with
      | none => simp [hf] at h
      | some t =>
        simp only [hf] at h
        have hti : t.hasId id = true := List.find?_some hf
        have htm : t ∈ s.all.tasks :=
          List.mem_append_right _ (List.mem_of_find?_eq_some hf)
        obtain ⟨i, parent, hctx, _, _⟩ := hinv.tasksOk t htm
        have hid : i = id := (hasId_withCancel t i parent id hctx).1 hti
        subst hid
        have hperm : (s.waiting ++ s.w.tasks).Perm
            (t :: (s.waiting ++ s.w.tasks.eraseP (Task.hasId i))) :=
          ((perm_find_eraseP _ _ t hf).append_left s.waiting).trans List.perm_middle
        split at h
        · simp only [Option.some.injEq] at h
          subst h
          refine ⟨hcallers, fun hne => ?_⟩
          obtain ⟨c, hbc, hcn, x, hx, hxc⟩ := hcur hne
          refine ⟨c, hbc, hcn, x, ?_, hxc⟩
          have hperm2 : ((s.waiting ++ [t]) ++ s.w.tasks.eraseP (Task.hasId i)).Perm
              (t :: (s.waiting ++ s.w.tasks.eraseP (Task.hasId i))) := by
            rw [List.append_assoc]
            exact List.perm_middle
          exact hperm2.mem_iff.2 (hperm.mem_iff.1 hx)
        · rename_i hflush
          simp only [Option.some.injEq] at h
          subst h
          have hcan : i ∈ s.w.canceled := by
            simpa [completionFlushes, World.isCanceled, hctx, hcallers] using hflush
          refine ⟨hcallers, fun hne => ?_⟩
          obtain ⟨c, hbc, hcn, x, hx, hxc⟩ := hcur hne
          refine ⟨c, hbc, hcn, x, ?_, hxc⟩
          have hx2 := hperm.mem_iff.1 hx
          rw [List.mem_cons] at hx2
          rcases hx2 with rfl | hx2
          · have : i = c := (hasId_withCancel x i parent c hctx).1 hxc
            exact absurd (this ▸ hcan) hcn
          · exact hx2
  | flush id =>
    simp only [move] at h
    cases hf : s.waiting.find? (Task.hasId id) with
    | none => simp [hf] at h
    | some t =>
      simp only [hf, Option.some.injEq] at h
      subst h
      obtain ⟨_, _, hcc, _⟩ := ackActions_frame fails s.w t.ctx t.ack
      refine ⟨hcc.trans hcallers, fun hne => ?_⟩
      exact absurd (by rw [ackActions_h]) hne
  | cancelCaller n => simp [Move.failing] at hfail

theorem Inv0_moves (fails : Nat → Bool) (ms : List Move) :
    ∀ (s s1 : Sched), moves fails s ms = some s1 → noStaleFlush fails s ms = true →
      Inv0 s.all → Inv0 s1.all := by
  induction ms with
  | nil =>
    intro s s1 h _ hinv
    simp only [moves, Option.some.injEq] at h
    subst h
    exact hinv
  | cons m rest ih =>
    intro s s1 h hrace hinv
    simp only [moves] at h
    cases hm : move fails s m with
    | none => simp [hm] at h
    | some s2 =>
      simp only [hm] at h
      simp only [noStaleFlush, hm, Bool.and_eq_true] at hrace
      refine ih s2 s1 h hrace.2 (Inv0_move fails s s2 m hm ?_ hinv)
      intro id hid
      subst hid
      simpa using hrace.1

theorem current_moves (fails : Nat → Bool) (ms : List Move) :
    ∀ (s s1 : Sched), moves fails s ms = some s1 → noStaleFlush fails s ms = true →
      ms.all Move.failing = true → Inv0 s.all → s.w.callerCanceled = [] →
      (s.w.h.bkgActions ≠ [] →
        ∃ c, s.w.h.bkgCancel = some c ∧ c ∉ s.w.canceled ∧
          ∃ t ∈ s.waiting ++ s.w.tasks, t.hasId c = true) →
      s1.w.callerCanceled = [] ∧
      (s1.w.h.bkgActions ≠ [] →
        ∃ c, s1.w.h.bkgCancel = some c ∧ c ∉ s1.w.canceled ∧
          ∃ t ∈ s1.waiting ++ s1.w.tasks, t.hasId c = true) := by
  induction ms with
  | nil =>
    intro s s1 h _ _ _ hcallers hcur
    simp only [moves, Option.some.injEq] at h
    subst h
    exact ⟨hcallers, hcur⟩
  | cons m rest ih =>
    intro s s1 h hrace hfail hinv hcallers hcur
    simp only [moves] at h
    cases hm : move fails s m with
    | none => simp [hm] at h
    | some s2 =>
      simp only [hm] at h
      simp only [noStaleFlush, hm, Bool.and_eq_true] at hrace
      simp only [List.all_cons, Bool.and_eq_true] at hfail
      have hok : ∀ id, m = Move.flush id → id ∉ s.w.canceled := by
        intro id hid
        subst hid
        simpa using hrace.1
      obtain ⟨hc2, hcur2⟩ := current_move fails s s2 m hm hfail.1 hinv hcallers hcur
      exact ih s2 s1 h hrace.2 hfail.2 (Inv0_move fails s s2 m hm hok hinv) hc2 hcur2

theorem mem_pendingTasks (s : Sched) (t : Task) :
    t ∈ pendingTasks s ↔ t ∈ s.waiting ++ s.w.tasks ∧ s.w.isCanceled t.ctx = false := by
  unfold pendingTasks
  rw [List.mem_filter]
  simp

/-- C12 (as amended). Batch/task correspondence: in every state reached from a fresh handler by
an interleaving of `Handle` calls, task returns, flushes and caller cancellations in which no
goroutine flushes after its cancel function was called, a goroutine whose context is not
canceled, running its task or waiting for the lock, exists only if the batch is not empty; and
if moreover no task has returned nil and no caller context has been canceled, the batch is not
empty exactly when such a goroutine exists. -/
theorem batch_task_interleaved (fails : Nat → Bool) (ms : List Move) (s : Sched)
    (h : moves fails Sched.fresh ms = some s)
    (hrace : noStaleFlush fails Sched.fresh ms = true) :
    (liveTasks s.w ≠ [] → s.w.h.bkgActions ≠ []) ∧
    (pendingTasks s ≠ [] → s.w.h.bkgActions ≠ []) ∧
    (ms.all Move.failing = true → (s.w.h.bkgActions ≠ [] ↔ pendingTasks s ≠ [])) := by
  have hinv : Inv0 s.all := Inv0_moves fails ms Sched.fresh s h hrace Inv0_fresh
  have hpend : pendingTasks s ≠ [] → s.w.h.bkgActions ≠ [] := by
    intro hne
    obtain ⟨t, ht⟩ := List.exists_mem_of_ne_nil _ hne
    obtain ⟨ht1, ht2⟩ := (mem_pendingTasks s t).1 ht
    exact (live_is_current s.all hinv t ht1 ht2).1
  refine ⟨?_, hpend, fun hfail => ⟨?_, hpend⟩⟩
  · intro hne
    obtain ⟨t, ht⟩ := List.exists_mem_of_ne_nil _ hne
    obtain ⟨ht1, ht2⟩ := (mem_liveTasks s.w t).1 ht
    exact (live_is_current s.all hinv t (List.mem_append_right _ ht1) ht2).1
  · intro hne
    obtain ⟨hcallers, hcur⟩ := current_moves fails ms Sched.fresh s h hrace hfail Inv0_fresh rfl
      (fun hb => absurd rfl hb)
    obtain ⟨c, _, hcn, t, ht, htc⟩ := hcur hne
    obtain ⟨i, parent, hctx, _, _⟩ := hinv.tasksOk t ht
    have hic : i = c := (hasId_withCancel t i parent c hctx).1 htc
    have hmem : t ∈ pendingTasks s := by
      rw [mem_pendingTasks]
      refine ⟨ht, ?_⟩
      simp [World.isCanceled, hctx, hic, hcn, hcallers]
    exact List.ne_nil_of_mem hmem

/-- Witness for C12: in `cleanFlushMoves` the first batch is flushed by its own goroutine, and
at the end the batch holds the request for 8.2.0 and its task is pending. -/
theorem batch_task_interleaved_witness :
    noStaleFlush (fun _ => false) Sched.fresh cleanFlushMoves = true ∧
    ∃ s, moves (fun _ => false) Sched.fresh cleanFlushMoves = some s ∧
      (s.w.h.bkgActions ≠ [] ↔ pendingTasks s ≠ []) ∧
      s.w.h.bkgActions = [Action.upgrade ⟨2, "8.2.0", "u"⟩] ∧
      pendingTasks s = [{ ctx := Ctx.withCancel 1 0, action := ⟨2, "8.2.0", "u"⟩, ack := 0 }] := by
  refine ⟨by decide, _, rfl, ?_, by decide, by decide⟩
  exact (batch_task_interleaved (fun _ => false) cleanFlushMoves _ rfl (by decide)).2.2
    (by decide)

/-- C5 (evaluation at the failing input). One request on a fresh handler; the caller cancels
the context it passed to `Handle`; the task then returns an error.  No cancel function has been
called, so the task was not superseded, yet no Ack and no Commit is made and the request stays
in the batch with no goroutine left. -/
theorem caller_canceled_failure_not_acked :
    ∃ w, run (fun _ => false) World.fresh callerCancelRun = some w ∧
      w.canceled = [] ∧
      acked w.trace = [] ∧
      commits w.trace = 0 ∧
      w.h.bkgActions = [Action.upgrade ⟨1, "8.1.0", "u"⟩] ∧
      w.tasks = [] :=
  ⟨_, rfl, by decide, by decide, by decide, by decide, by decide⟩

end Handlers

/-! # Socket URLs: theorems -/

namespace Utils

theorem encodeAt_mem (v : Nat) : encodeAt (v &&& 0x3F) ∈ encodeURL := by
  have hlt : v &&& 0x3F < 64 := Nat.and_lt_two_pow v (n := 6) (by decide)
  have hall : ∀ k < 64, encodeAt k ∈ encodeURL := by decide
  exact hall _ hlt

theorem EncodeToString_blocks (n : Nat) :
    ∀ l : List Nat, l.length = 3 * n →
      (EncodeToString l).length = 4 * n ∧ ∀ c ∈ EncodeToString l, c ∈ encodeURL := by
  induction n with
  | zero =>
    intro l hl
    have : l = [] := List.length_eq_zero.1 (by simpa using hl)
    subst this
    simp [EncodeToString]
  | succ k ih =>
    intro l hl
    match l, hl with
    | a :: b :: c :: rest, hl =>
      have hrest : rest.length = 3 * k := by simp only [List.length_cons] at hl; omega
      obtain ⟨h1, h2⟩ := ih rest hrest
      refine ⟨?_, ?_⟩
      · simp only [EncodeToString, List.length_cons, h1]; omega
      · intro x hx
        simp only [EncodeToString, List.mem_cons] at hx
        rcases hx with rfl | rfl | rfl | rfl | hx
        · exact encodeAt_mem _
        · exact encodeAt_mem _
        · exact encodeAt_mem _
        · exact encodeAt_mem _
        · exact h2 x hx
    | [], hl => simp only [List.length_nil] at hl; omega
    | [_], hl => simp only [List.length_cons, List.length_nil] at hl; omega
    | [_, _], hl => simp only [List.length_cons, List.length_nil] at hl; omega

theorem encodeURL_plain : ∀ c ∈ encodeURL, shouldEscape c = false ∧ c ≠ '/' ∧ c ≠ '%' := by
  decide

theorem dot_sock_plain : ∀ c ∈ ".sock".toList, shouldEscape c = false ∧ c ≠ '/' ∧ c ≠ '%' := by
  decide

theorem socketFilename_shape (Sum256 : List Char → Fin 32 → Fin 256) (id : List Char) :
    ∃ enc, socketFilename Sum256 id = enc ++ ".sock".toList ∧ enc.length = 32 ∧
      ∀ c ∈ enc, c ∈ encodeURL := by
  have h := EncodeToString_blocks 8
    ((List.finRange 24).map (fun i => (Sum256 id (Fin.castLE (by decide) i)).val))
    (by simp)
  exact ⟨_, rfl, h.1, h.2⟩


theorem splitSlash_cons_slash (cs : List Char) :
    splitSlash ('/' :: cs) = [] :: splitSlash cs := by
  simp [splitSlash]

theorem splitSlash_cons_ne (c : Char) (cs : List Char) (hc : c ≠ '/') :
    splitSlash (c :: cs) = (c :: (splitSlash cs).headD []) :: (splitSlash cs).tail := by
  simp [splitSlash, hc]

theorem splitSlash_ne_nil (l : List Char) : splitSlash l ≠ [] := by
  cases l with
  | nil => simp [splitSlash]
  | cons c cs =>
    by_cases hc : c = '/'
    · subst hc; rw [splitSlash_cons_slash]; simp
    · rw [splitSlash_cons_ne c cs hc]; simp

theorem splitSlash_of_no_slash (l : List Char) (h : '/' ∉ l) : splitSlash l = [l] := by
  induction l with
  | nil => rfl
  | cons c cs ih =>
    simp only [List.mem_cons, not_or] at h
    have hc : c ≠ '/' := fun e => h.1 e.symm
    rw [splitSlash_cons_ne c cs hc, ih h.2]
    rfl

theorem splitSlash_append_slash (a b : List Char) :
    splitSlash (a ++ '/' :: b) = splitSlash a ++ splitSlash b := by
  induction a with
  | nil => simp [splitSlash]
  | cons c cs ih =>
    by_cases hc : c = '/'
    · subst hc
      rw [List.cons_append, splitSlash_cons_slash, splitSlash_cons_slash, ih]
      rfl
    · rw [List.cons_append, splitSlash_cons_ne c _ hc, splitSlash_cons_ne c _ hc, ih]
      cases h : splitSlash cs with
      | nil => exact absurd h (splitSlash_ne_nil cs)
      | cons x xs => rfl

theorem mem_of_mem_splitSlash (l : List Char) :
    ∀ comp ∈ splitSlash l, ∀ c ∈ comp, c ∈ l ∧ c ≠ '/' := by
  induction l with
  | nil =>
    intro comp hcomp c hc
    simp [splitSlash] at hcomp
    subst hcomp
    simp at hc
  | cons d ds ih =>
    intro comp hcomp c hc
    by_cases hd : d = '/'
    · subst hd
      rw [splitSlash_cons_slash, List.mem_cons] at hcomp
      rcases hcomp with rfl | hcomp
      · simp at hc
      · obtain ⟨h1, h2⟩ := ih comp hcomp c hc
        exact ⟨List.mem_cons_of_mem _ h1, h2⟩
    · rw [splitSlash_cons_ne d ds hd] at hcomp
      cases h : splitSlash ds with
      | nil => exact absurd h (splitSlash_ne_nil ds)
      | cons x xs =>
        rw [h] at hcomp ih
        simp only [List.headD_cons, List.tail_cons, List.mem_cons] at hcomp
        rcases hcomp with rfl | hcomp
        · simp only [List.mem_cons] at hc
          rcases hc with rfl | hc
          · exact ⟨List.mem_cons_self _ _, hd⟩
          · obtain ⟨h1, h2⟩ := ih x (List.mem_cons_self _ _) c hc
            exact ⟨List.mem_cons_of_mem _ h1, h2⟩
        · obtain ⟨h1, h2⟩ := ih comp (List.mem_cons_of_mem _ hcomp) c hc
          exact ⟨List.mem_cons_of_mem _ h1, h2⟩

theorem mem_cleanElem (r : Bool) (out : List (List Char)) (e : List Char) :
    ∀ x ∈ cleanElem r out e, x ∈ out ∨ x = e := by
  intro x hx
  unfold cleanElem at hx
  split at hx
  · exact Or.inl hx
  · split at hx
    · exact Or.inl hx
    · split at hx
      · split at hx
        · split at hx
          · exact Or.inl hx
          · simpa using hx
        · split at hx
          · simpa using hx
          · exact Or.inl (List.mem_of_mem_dropLast hx)
      · simpa using hx

theorem mem_foldl_cleanElem (r : Bool) (l : List (List Char)) :
    ∀ (out : List (List Char)), ∀ x ∈ l.foldl (cleanElem r) out, x ∈ out ∨ x ∈ l := by
  induction l with
  | nil => intro out x hx; exact Or.inl hx
  | cons e rest ih =>
    intro out x hx
    simp only [List.foldl_cons] at hx
    rcases ih _ x hx with h | h
    · rcases mem_cleanElem r out e x h with h2 | h2
      · exact Or.inl h2
      · exact Or.inr (h2 ▸ List.mem_cons_self _ _)
    · exact Or.inr (List.mem_cons_of_mem _ h)

theorem mem_cleanComponents (dir : List Char) :
    ∀ comp ∈ cleanComponents dir, ∀ c ∈ comp, c ∈ dir ∧ c ≠ '/' := by
  intro comp hcomp c hc
  rcases mem_foldl_cleanElem true (splitSlash dir) [] comp hcomp with h | h
  · simp at h
  · exact mem_of_mem_splitSlash dir comp h c hc

theorem unescape_cons_ne (c : Char) (rest : List Char) (hc : c ≠ '%') :
    unescape (c :: rest) = (unescape rest).map (fun t => c :: t) := by
  cases rest with
  | nil => simp [unescape, hc]
  | cons a t =>
    cases t with
    | nil => simp [unescape, hc]
    | cons b t2 => simp [unescape, hc]

theorem unescape_of_no_percent (l : List Char) (h : '%' ∉ l) : unescape l = some l := by
  induction l with
  | nil => rfl
  | cons c cs ih =>
    simp only [List.mem_cons, not_or] at h
    have hc : c ≠ '%' := fun e => h.1 e.symm
    rw [unescape_cons_ne c cs hc, ih h.2]
    rfl

theorem escape_of_plain (l : List Char) (h : ∀ c ∈ l, shouldEscape c = false) :
    escape l = l := by
  induction l with
  | nil => rfl
  | cons c cs ih =>
    have hc : shouldEscape c = false := h c (List.mem_cons_self _ _)
    rw [escape]
    simp [hc, ih (fun x hx => h x (List.mem_cons_of_mem _ hx))]

theorem not_percent_of_plain (c : Char) (h : shouldEscape c = false) : c ≠ '%' := by
  intro e
  subst e
  exact absurd h (by decide)

theorem mem_joinSlash (L : List (List Char)) :
    ∀ c ∈ joinSlash L, c = '/' ∨ ∃ l ∈ L, c ∈ l := by
  induction L with
  | nil => intro c hc; simp [joinSlash] at hc
  | cons x rest ih =>
    cases rest with
    | nil =>
      intro c hc
      exact Or.inr ⟨x, List.mem_cons_self _ _, by simpa [joinSlash] using hc⟩
    | cons y rest2 =>
      intro c hc
      simp only [joinSlash, List.mem_append, List.mem_cons] at hc
      rcases hc with hc | hc | hc
      · exact Or.inr ⟨x, List.mem_cons_self _ _, hc⟩
      · exact Or.inl hc
      · rcases ih c hc with h | ⟨l, hl, hcl⟩
        · exact Or.inl h
        · exact Or.inr ⟨l, List.mem_cons_of_mem _ hl, hcl⟩

theorem cleanElem_name (r : Bool) (out : List (List Char)) (f : List Char)
    (hlen : 2 < f.length) : cleanElem r out f = out ++ [f] := by
  have h1 : f ≠ [] := by intro e; subst e; simp at hlen
  have h2 : f ≠ ['.'] := by intro e; subst e; simp at hlen
  have h3 : f ≠ ['.', '.'] := by intro e; subst e; simp at hlen
  simp [cleanElem, h1, h2, h3]

theorem foldl_cleanElem_nil (r : Bool) (out : List (List Char)) :
    cleanElem r out [] = out := by
  simp [cleanElem]

/-- The path that `JoinPath` computes for the base URL of `SocketURLWithFallback`. -/
theorem Join_root (dir f : List Char) (hlen : 2 < f.length) (hslash : '/' ∉ f) :
    Join [['/'], dir, f] = '/' :: joinSlash (cleanComponents dir ++ [f]) := by
  have hj : joinElems [] [['/'], dir, f] = '/' :: '/' :: (dir ++ '/' :: f) := by
    simp [joinElems]
  have hsum : ([['/'], dir, f].map List.length).sum ≠ 0 := by simp
  rw [Join, if_neg hsum, hj, Clean]
  simp only [List.cons_ne_nil, if_false, List.head?_cons, decide_True, if_true]
  rw [splitSlash_cons_slash, splitSlash_cons_slash, splitSlash_append_slash,
    splitSlash_of_no_slash f hslash]
  simp only [List.foldl_cons, foldl_cleanElem_nil, List.foldl_append, List.foldl_nil]
  rw [cleanElem_name true _ f hlen]
  rfl

theorem URL_root_EscapedPath (sch : List Char) :
    ({ Scheme := sch, Path := ['/'], RawPath := [] } : URL).EscapedPath = ['/'] := by
  simp [URL.EscapedPath, escape, shouldEscape]

theorem JoinPath_root_plain (sch dir f : List Char) (hsch : sch ≠ [])
    (hdir : ∀ c ∈ dir, shouldEscape c = false) (hlen : 2 < f.length)
    (hplain : ∀ c ∈ f, shouldEscape c = false ∧ c ≠ '/') :
    (({ Scheme := sch, Path := ['/'], RawPath := [] } : URL).JoinPath [dir, f]).String =
      sch ++ [':', '/', '/'] ++ '/' :: joinSlash (cleanComponents dir ++ [f]) := by
  have hslash : '/' ∉ f := fun hm => (hplain _ hm).2 rfl
  have hlast : f.getLast? ≠ some '/' := fun hl => hslash (List.mem_of_getLast?_eq_some hl)
  have hp : ∀ c ∈ '/' :: joinSlash (cleanComponents dir ++ [f]), shouldEscape c = false := by
    intro c hc
    rw [List.mem_cons] at hc
    rcases hc with rfl | hc
    · decide
    · rcases mem_joinSlash _ c hc with rfl | ⟨l, hl, hcl⟩
      · decide
      · rw [List.mem_append, List.mem_singleton] at hl
        rcases hl with hl | rfl
        · exact hdir c (mem_cleanComponents dir l hl c hcl).1
        · exact (hplain c hcl).1
  have hnp : '%' ∉ '/' :: joinSlash (cleanComponents dir ++ [f]) :=
    fun hm => not_percent_of_plain _ (hp _ hm) rfl
  have hne : ('/' :: joinSlash (cleanComponents dir ++ [f])) ≠ ['*'] := by simp
  simp only [URL.JoinPath, URL_root_EscapedPath, List.head?_cons, ne_eq, not_true_eq_false,
    if_false, Join_root dir f hlen hslash, List.getLastD_cons, List.getLastD_nil, hlast,
    false_and, URL.setPath, unescape_of_no_percent _ hnp, escape_of_plain _ hp, if_true]
  simp [URL.String, URL.EscapedPath, hsch, escape_of_plain _ hp]

theorem socketFilename_plain (Sum256 : List Char → Fin 32 → Fin 256) (id : List Char) :
    (socketFilename Sum256 id).length = 37 ∧
    ∀ c ∈ socketFilename Sum256 id, shouldEscape c = false ∧ c ≠ '/' := by
  obtain ⟨enc, hf, hlen, henc⟩ := socketFilename_shape Sum256 id
  rw [hf]
  refine ⟨by simp [hlen], ?_⟩
  intro c hc
  rw [List.mem_append] at hc
  rcases hc with hc | hc
  · exact ⟨(encodeURL_plain c (henc c hc)).1, (encodeURL_plain c (henc c hc)).2.1⟩
  · exact ⟨(dot_sock_plain c hc).1, (dot_sock_plain c hc).2.1⟩

theorem joinSlash_length_snoc (L : List (List Char)) (f : List Char) :
    (joinSlash (L ++ [f])).length = (L.map (fun l => l.length + 1)).sum + f.length := by
  induction L with
  | nil => simp [joinSlash]
  | cons x rest ih =>
    cases rest with
    | nil => simp [joinSlash]; omega
    | cons y rest2 =>
      have : joinSlash ((x :: y :: rest2) ++ [f]) = x ++ '/' :: joinSlash ((y :: rest2) ++ [f]) := by
        simp [joinSlash]
      rw [this, List.length_append, List.length_cons, ih]
      simp
      omega

theorem fallback_URL (Sum256 : List Char → Fin 32 → Fin 256) (id : List Char) :
    (({ Scheme := UnixSocketScheme, Path := ['/'], RawPath := [] } : URL).JoinPath
      [SocketFallbackDirectory, socketFilename Sum256 id]).String =
      "unix:///tmp/elastic-agent/".toList ++ socketFilename Sum256 id := by
  obtain ⟨hlen, hplain⟩ := socketFilename_plain Sum256 id
  rw [JoinPath_root_plain UnixSocketScheme SocketFallbackDirectory _ (by decide) (by decide)
    (by omega) hplain]
  have hc : cleanComponents SocketFallbackDirectory = ["tmp".toList, "elastic-agent".toList] := by
    decide
  rw [hc]
  rfl

theorem windows_URL (Sum256 : List Char → Fin 32 → Fin 256) (id : List Char) :
    (({ Scheme := WindowsSocketScheme, Path := ['/'], RawPath := [] } : URL).JoinPath
      [['/'], socketFilename Sum256 id]).String =
      "npipe:///".toList ++ socketFilename Sum256 id := by
  obtain ⟨hlen, hplain⟩ := socketFilename_plain Sum256 id
  rw [JoinPath_root_plain WindowsSocketScheme ['/'] _ (by decide) (by decide)
    (by omega) hplain]
  have hc : cleanComponents ['/'] = [] := by decide
  rw [hc]
  rfl

theorem SocketURL_windows (Sum256 : List Char → Fin 32 → Fin 256) (id dir : List Char) :
    SocketURLWithFallback Sum256 id "windows".toList dir =
      "npipe:///".toList ++ socketFilename Sum256 id := by
  simp only [SocketURLWithFallback, if_true, true_or]
  exact windows_URL Sum256 id

theorem SocketURL_unix (Sum256 : List Char → Fin 32 → Fin 256) (id os dir : List Char)
    (hos : os ≠ "windows".toList) :
    SocketURLWithFallback Sum256 id os dir =
      if (unixCandidate Sum256 id dir).length < UnixSocketMaxLength then
        unixCandidate Sum256 id dir
      else "unix:///tmp/elastic-agent/".toList ++ socketFilename Sum256 id := by
  simp only [SocketURLWithFallback, hos, if_false, false_or, unixCandidate]
  rw [fallback_URL Sum256 id]

/-- C20. Filename shape: the file name is the URL-safe base64 encoding of the first 24 bytes
of the hash followed by `.sock`; it has 37 characters, the first 32 of which are letters,
digits, `-` or `_` (never `=`, `/` or `+`), and it depends on `id` only, through the hash. -/
theorem socketFilename_spec (Sum256 : List Char → Fin 32 → Fin 256) (id : List Char) :
    socketFilename Sum256 id =
      EncodeToString ((List.finRange 24).map
        (fun i => (Sum256 id (Fin.castLE (by decide) i)).val)) ++ ".sock".toList ∧
    (socketFilename Sum256 id).length = 37 ∧
    (socketFilename Sum256 id).drop 32 = ".sock".toList ∧
    (∀ c ∈ (socketFilename Sum256 id).take 32,
      c ∈ encodeURL ∧ (c.isAlphanum = true ∨ c = '-' ∨ c = '_') ∧
        c ≠ '=' ∧ c ≠ '/' ∧ c ≠ '+') ∧
    (∀ id2, Sum256 id2 = Sum256 id → socketFilename Sum256 id2 = socketFilename Sum256 id) := by
  obtain ⟨enc, hf, hlen, henc⟩ := socketFilename_shape Sum256 id
  have hchars : ∀ c ∈ encodeURL,
      (c.isAlphanum = true ∨ c = '-' ∨ c = '_') ∧ c ≠ '=' ∧ c ≠ '/' ∧ c ≠ '+' := by decide
  refine ⟨rfl, (socketFilename_plain Sum256 id).1, ?_, ?_, ?_⟩
  · rw [hf, ← hlen, List.drop_left]
  · intro c hc
    rw [hf, ← hlen, List.take_left] at hc
    exact ⟨henc c hc, hchars c (henc c hc)⟩
  · intro id2 h2
    simp only [socketFilename, h2]

/-- C16. Windows named pipe: for `windows` the result is `npipe:///` followed by the file name,
whatever `dir` is; the file name has no slash, and the result has 46 characters, fewer than
`WindowsNamedPipeMaxLength`. -/
theorem windows_named_pipe (Sum256 : List Char → Fin 32 → Fin 256) (id dir : List Char) :
    SocketURLWithFallback Sum256 id "windows".toList dir =
      "npipe:///".toList ++ socketFilename Sum256 id ∧
    (∀ dir2, SocketURLWithFallback Sum256 id "windows".toList dir2 =
      SocketURLWithFallback Sum256 id "windows".toList dir) ∧
    '/' ∉ socketFilename Sum256 id ∧
    (SocketURLWithFallback Sum256 id "windows".toList dir).length = 46 ∧
    (SocketURLWithFallback Sum256 id "windows".toList dir).length
      < WindowsNamedPipeMaxLength := by
  obtain ⟨hlen, hplain⟩ := socketFilename_plain Sum256 id
  have hl : (SocketURLWithFallback Sum256 id "windows".toList dir).length = 46 := by
    rw [SocketURL_windows, List.length_append, hlen]
    rfl
  refine ⟨SocketURL_windows Sum256 id dir, ?_, fun hm => (hplain _ hm).2 rfl, hl, ?_⟩
  · intro dir2
    rw [SocketURL_windows, SocketURL_windows]
  · rw [hl]; decide

/-- C15. Unix length limit: for every operating system other than `windows` the result is
either the candidate built from `dir`, which is returned only when it is shorter than
`UnixSocketMaxLength`, or the fallback under `/tmp/elastic-agent`, which has 63 characters; in
both cases it is shorter than `UnixSocketMaxLength`. -/
theorem unix_length_limit (Sum256 : List Char → Fin 32 → Fin 256)
    (id operatingSystem dir : List Char) (hos : operatingSystem ≠ "windows".toList) :
    (SocketURLWithFallback Sum256 id operatingSystem dir).length < UnixSocketMaxLength ∧
    (SocketURLWithFallback Sum256 id operatingSystem dir = unixCandidate Sum256 id dir ∨
      (SocketURLWithFallback Sum256 id operatingSystem dir =
          "unix:///tmp/elastic-agent/".toList ++ socketFilename Sum256 id ∧
        (SocketURLWithFallback Sum256 id operatingSystem dir).length = 63)) := by
  have hlen := (socketFilename_plain Sum256 id).1
  have h63 : ("unix:///tmp/elastic-agent/".toList ++ socketFilename Sum256 id).length = 63 := by
    rw [List.length_append, hlen]
    rfl
  rw [SocketURL_unix Sum256 id operatingSystem dir hos]
  by_cases hc : (unixCandidate Sum256 id dir).length < UnixSocketMaxLength
  · rw [if_pos hc]
    exact ⟨hc, Or.inl rfl⟩
  · rw [if_neg hc]
    exact ⟨by rw [h63]; decide, Or.inr ⟨rfl, h63⟩⟩

/-- Witness for C15: a directory of 200 characters on linux. -/
theorem unix_length_limit_witness :
    "linux".toList ≠ "windows".toList ∧
    (SocketURLWithFallback exampleSum "agent-1".toList "linux".toList
      ('/' :: List.replicate 200 'd')).length < UnixSocketMaxLength :=
  ⟨by decide,
    (unix_length_limit exampleSum "agent-1".toList "linux".toList
      ('/' :: List.replicate 200 'd') (by decide)).1⟩

/-- The branch of the unix case: for every operating system other than `windows` the result is
the candidate that `JoinPath` builds from `dir` exactly when that candidate is shorter than
`UnixSocketMaxLength`; a candidate of `UnixSocketMaxLength` characters or more is replaced by
`unix:///tmp/elastic-agent/` followed by the file name.  For a `dir` none of whose bytes needs
escaping, the candidate is `unix://` followed by the cleaned path of `dir` and the file name. -/
theorem fallback_choice (Sum256 : List Char → Fin 32 → Fin 256)
    (id operatingSystem dir : List Char) (hos : operatingSystem ≠ "windows".toList) :
    (SocketURLWithFallback Sum256 id operatingSystem dir = unixCandidate Sum256 id dir ↔
      (unixCandidate Sum256 id dir).length < UnixSocketMaxLength) ∧
    (UnixSocketMaxLength ≤ (unixCandidate Sum256 id dir).length →
      SocketURLWithFallback Sum256 id operatingSystem dir =
        "unix:///tmp/elastic-agent/".toList ++ socketFilename Sum256 id) ∧
    ((∀ c ∈ dir, shouldEscape c = false) →
      unixCandidate Sum256 id dir =
        "unix://".toList ++ '/' :: joinSlash (cleanComponents dir ++ [socketFilename Sum256 id]))
    := by
  obtain ⟨hlen, hplain⟩ := socketFilename_plain Sum256 id
  have h63 : ("unix:///tmp/elastic-agent/".toList ++ socketFilename Sum256 id).length = 63 := by
    rw [List.length_append, hlen]
    rfl
  have hunfold := SocketURL_unix Sum256 id operatingSystem dir hos
  refine ⟨⟨?_, ?_⟩, ?_, ?_⟩
  · intro heq
    by_contra hc
    rw [hunfold, if_neg hc] at heq
    have : (unixCandidate Sum256 id dir).length = 63 := by rw [← heq, h63]
    exact hc (by rw [this]; decide)
  · intro hc
    rw [hunfold, if_pos hc]
  · intro hc
    rw [hunfold, if_neg (Nat.not_lt.2 hc)]
  · intro hdir
    rw [unixCandidate, JoinPath_root_plain UnixSocketScheme dir _ (by decide) hdir
      (by omega) hplain]
    rfl

/-- An instance of `fallback_choice`: with a directory of 58 letters the candidate has exactly
104 characters, and the fallback is returned. -/
theorem fallback_choice_witness :
    "linux".toList ≠ "windows".toList ∧
    (unixCandidate exampleSum "agent-1".toList ('/' :: List.replicate 58 'a')).length = 104 ∧
    SocketURLWithFallback exampleSum "agent-1".toList "linux".toList
        ('/' :: List.replicate 58 'a') =
      "unix:///tmp/elastic-agent/".toList ++ socketFilename exampleSum "agent-1".toList := by
  have h := fallback_choice exampleSum "agent-1".toList "linux".toList
    ('/' :: List.replicate 58 'a') (by decide)
  have hc : (unixCandidate exampleSum "agent-1".toList ('/' :: List.replicate 58 'a')).length
      = 104 := by
    rw [h.2.2 (by decide)]
    have hcomp : cleanComponents ('/' :: List.replicate 58 'a') = [List.replicate 58 'a'] := by
      decide
    rw [hcomp, List.length_append, List.length_cons, joinSlash_length_snoc,
      (socketFilename_plain exampleSum "agent-1".toList).1]
    rfl
  exact ⟨by decide, hc, h.2.1 (by rw [hc]; decide)⟩

/-! ## A directory with a malformed percent escape -/

theorem unescape_malformed (f : List Char) :
    unescape ("/a/100%/".toList ++ f) = none := by
  have h : "/a/100%/".toList ++ f = '/' :: 'a' :: '/' :: '1' :: '0' :: '0' :: '%' :: '/' :: f :=
    rfl
  rw [h, unescape_cons_ne _ _ (by decide), unescape_cons_ne _ _ (by decide),
    unescape_cons_ne _ _ (by decide), unescape_cons_ne _ _ (by decide),
    unescape_cons_ne _ _ (by decide), unescape_cons_ne _ _ (by decide)]
  have h2 : unescape ('%' :: '/' :: f) = none := by
    cases f with
    | nil => simp [unescape]
    | cons x r =>
      have hx : ishex '/' = false := by decide
      simp [unescape, hx]
  rw [h2]
  rfl

theorem candidate_malformed (Sum256 : List Char → Fin 32 → Fin 256) (id : List Char) :
    unixCandidate Sum256 id "/a/100%".toList = "unix:///".toList := by
  obtain ⟨hlen, hplain⟩ := socketFilename_plain Sum256 id
  have hslash : '/' ∉ socketFilename Sum256 id := fun hm => (hplain _ hm).2 rfl
  have hlast : (socketFilename Sum256 id).getLast? ≠ some '/' :=
    fun hl => hslash (List.mem_of_getLast?_eq_some hl)
  have hc : cleanComponents "/a/100%".toList = ["a".toList, "100%".toList] := by decide
  have hp : '/' :: joinSlash (cleanComponents "/a/100%".toList ++ [socketFilename Sum256 id])
      = "/a/100%/".toList ++ socketFilename Sum256 id := by
    rw [hc]; rfl
  have hroot : ({ Scheme := UnixSocketScheme, Path := ['/'], RawPath := [] } : URL).EscapedPath
      = ['/'] := URL_root_EscapedPath UnixSocketScheme
  simp only [unixCandidate, URL.JoinPath, hroot, List.head?_cons, ne_eq, not_true_eq_false,
    if_false, Join_root _ _ (by omega : 2 < (socketFilename Sum256 id).length) hslash,
    List.getLastD_cons, List.getLastD_nil, hlast, false_and, URL.setPath, hp,
    unescape_malformed]
  decide

/-- C18 (evaluation at the failing input). For the directory `/a/100%`, whose last element
ends in a percent sign, the result on linux is `unix:///` for every hash function and every
`id`: it is shorter than `UnixSocketMaxLength`, so it is returned, but it contains neither the
directory nor the file name and it is not the fallback; two ids with different file names get
the same result. -/
theorem malformed_escape_collapses (Sum256 : List Char → Fin 32 → Fin 256) (id : List Char) :
    SocketURLWithFallback Sum256 id "linux".toList "/a/100%".toList = "unix:///".toList ∧
    SocketURLWithFallback Sum256 id "linux".toList "/a/100%".toList ≠
      "unix:///a/100%25/".toList ++ socketFilename Sum256 id ∧
    SocketURLWithFallback Sum256 id "linux".toList "/a/100%".toList ≠
      "unix:///tmp/elastic-agent/".toList ++ socketFilename Sum256 id ∧
    (∀ id2, SocketURLWithFallback Sum256 id2 "linux".toList "/a/100%".toList =
      SocketURLWithFallback Sum256 id "linux".toList "/a/100%".toList) ∧
    socketFilename exampleSum "agent-1".toList ≠ socketFilename exampleSum "agent-22".toList ∧
    SocketURLWithFallback exampleSum "agent-1".toList "linux".toList "/a/100%".toList =
      SocketURLWithFallback exampleSum "agent-22".toList "linux".toList "/a/100%".toList := by
  have hres : ∀ i, SocketURLWithFallback Sum256 i "linux".toList "/a/100%".toList
      = "unix:///".toList := by
    intro i
    rw [SocketURL_unix Sum256 i "linux".toList _ (by decide), candidate_malformed]
    exact if_pos (by decide)
  have hlen := (socketFilename_plain Sum256 id).1
  have hex : ∀ i, SocketURLWithFallback exampleSum i "linux".toList "/a/100%".toList
      = "unix:///".toList := by
    intro i
    rw [SocketURL_unix exampleSum i "linux".toList _ (by decide), candidate_malformed]
    exact if_pos (by decide)
  refine ⟨hres id, ?_, ?_, fun id2 => by rw [hres id2, hres id], by decide, by rw [hex, hex]⟩
  · rw [hres id]
    intro heq
    have := congrArg List.length heq
    rw [List.length_append, hlen] at this
    simp at this
  · rw [hres id]
    intro heq
    have := congrArg List.length heq
    rw [List.length_append, hlen] at this
    simp at this

/-! ## Evaluations -/

/-- An ordinary directory, with the stand-in hash `exampleSum`. -/
theorem SocketURL_example :
    SocketURLWithFallback exampleSum "agent-1".toList "linux".toList "/var/lib".toList =
      "unix:///var/lib/Bw4VHCMqMTg_Rk1UW2JpcHd-hYyTmqGo.sock".toList := by
  decide

/-- A directory with a malformed percent escape: `setPath` fails, `JoinPath` drops the error,
and the candidate is the string of the unchanged base URL. -/
theorem candidate_of_malformed_escape :
    unixCandidate exampleSum "agent-1".toList "/a/100%".toList = "unix:///".toList := by
  decide

end Utils
